import Mathlib

/-!
# go-xrunes: comparison, search, trimming and case-style transformation over rune slices

A shallow embedding of `runes.go` and `transforms.go`.

* A `[]rune` is a `List Rune`; a rune (`int32`) is an `Int`.
* Lengths and loop counters are `Nat`; the results of `Index`/`IndexFold` are `Int`
  because the source returns `-1` for "not found".
* An index expression `s[i]` or a slice expression `s[a:b]` that would be out of range
  makes the Go program fault.  The search and trim functions are therefore embedded in
  `Option`: `none` stands for such a fault, `some v` for a normal return of `v`.
* The standard-library package `unicode` is not part of the repository.  Its functions
  are the fields of `Unicode`, and every function that calls into the package takes a
  `U : Unicode`.  `goTables` gives the rows of Go's tables for U+0000..U+00FF and U+03D2.
-/

namespace Xrunes

/-- A Go `rune` (an `int32` code point). -/
abbrev Rune := Int

/-- The functions of Go's `unicode` package that the repository calls. -/
structure Unicode where
  IsLetter : Rune → Bool
  IsUpper : Rune → Bool
  IsLower : Rune → Bool
  IsNumber : Rune → Bool
  IsSpace : Rune → Bool
  ToLower : Rune → Rune
  ToUpper : Rune → Rune
  SimpleFold : Rune → Rune

/-- Checked index expression `s[i]`: `none` when `i` is out of range. -/
def index (s : List Rune) (i : Nat) : Option Rune := s[i]?

/-- Checked slice expression `s[a:b]`: `none` unless `a ≤ b ≤ len(s)`. -/
def slice (s : List Rune) (a b : Nat) : Option (List Rune) :=
  if a ≤ b ∧ b ≤ s.length then some ((s.take b).drop a) else none

/-! ## runes.go -/

/-- Source function `equalFoldRune(x, y)`. -/
def equalFoldRune (U : Unicode) (x y : Rune) : Bool :=
  let xx := U.SimpleFold x
  if xx = y then true
  else
    let yy := U.SimpleFold y
    decide (yy = x)

/-- Source function `Equal(x, y)`, that is `slices.Equal(x, y)`. -/
def Equal (x y : List Rune) : Bool := decide (x = y)

/-- Body of `for i := range x` in `EqualFold`: the first argument is the part of `x`
still to be visited and `i` the index of its head; `y[i]` is a checked read. -/
def EqualFold.loop (U : Unicode) (y : List Rune) : List Rune → Nat → Option Bool
  | [], _ => some true
  | xi :: xs, i =>
    match index y i with
    | none => none
    | some yi =>
      if xi ≠ yi then
        if U.IsLetter xi && equalFoldRune U xi yi then EqualFold.loop U y xs (i + 1)
        else some false
      else EqualFold.loop U y xs (i + 1)

/-- Source function `EqualFold(x, y)`. -/
def EqualFold (U : Unicode) (x y : List Rune) : Option Bool :=
  if x.length ≠ y.length then some false
  else EqualFold.loop U y x 0

/-- Source function `HasPrefix(s, prefix)`. -/
def HasPrefix (s pre : List Rune) : Option Bool :=
  if s.length < pre.length then some false
  else (slice s 0 pre.length).map (fun t => decide (t = pre))

/-- Source function `HasPrefixFold(s, prefix)`. -/
def HasPrefixFold (U : Unicode) (s pre : List Rune) : Option Bool :=
  let sl := s.length
  let rl := pre.length
  if rl = 0 then some true
  else if sl < rl then some false
  else (slice s 0 rl).bind (fun t => EqualFold U t pre)

/-- Source function `HasSuffix(s, suffix)`. -/
def HasSuffix (s suf : List Rune) : Option Bool :=
  if s.length < suf.length then some false
  else (slice s (s.length - suf.length) s.length).map (fun t => decide (t = suf))

/-- Source function `HasSuffixFold(s, suffix)`. -/
def HasSuffixFold (U : Unicode) (s suf : List Rune) : Option Bool :=
  let sl := s.length
  let rl := suf.length
  if rl = 0 then some true
  else if sl < rl then some false
  else (slice s (sl - rl) sl).bind (fun t => EqualFold U t suf)

/-- Body of `for i, c := range s` in `IndexRune`. -/
def IndexRune.loop (r : Rune) : List Rune → Nat → Int
  | [], _ => -1
  | c :: cs, i => if c = r then (i : Int) else IndexRune.loop r cs (i + 1)

/-- Source function `IndexRune(s, r)`. -/
def IndexRune (s : List Rune) (r : Rune) : Int := IndexRune.loop r s 0

/-- Body of `for i, c := range s` in `IndexRuneFold`. -/
def IndexRuneFold.loop (U : Unicode) (r : Rune) : List Rune → Nat → Int
  | [], _ => -1
  | c :: cs, i =>
    if c = r then (i : Int)
    else if U.IsLetter c && equalFoldRune U c r then (i : Int)
    else IndexRuneFold.loop U r cs (i + 1)

/-- Source function `IndexRuneFold(s, r)`. -/
def IndexRuneFold (U : Unicode) (s : List Rune) (r : Rune) : Int :=
  if s.length = 0 then -1 else IndexRuneFold.loop U r s 0

/-- Inner loop `for j, y := range r` of `Index` at start position `i`; the list argument
is the part of `r` still to be visited and `j` the index of its head.
`some true` is `return i`, `some false` is leaving the inner loop (by `break` or by
exhausting `r`), `none` is a fault of the read `s[i+j]`. -/
def Index.inner (s : List Rune) (rl i : Nat) : List Rune → Nat → Option Bool
  | [], _ => some false
  | y :: ys, j =>
    match index s (i + j) with
    | none => none
    | some x =>
      if x = y then
        if j = rl - 1 then some true else Index.inner s rl i ys (j + 1)
      else some false

/-- Outer loop `for i := 0; i < sl; i++` of `Index`.  The counter `k` is `sl - i`, the
number of iterations left, so `k = 0` is the loop test `i < sl` failing. -/
def Index.loop (s r : List Rune) (sl rl : Nat) : Nat → Option Int
  | 0 => some (-1)
  | k + 1 =>
    let i := sl - (k + 1)
    if i + rl > sl then some (-1)
    else
      match Index.inner s rl i r 0 with
      | none => none
      | some true => some (i : Int)
      | some false => Index.loop s r sl rl k

/-- Source function `Index(s, r)`. -/
def Index (s r : List Rune) : Option Int :=
  let sl := s.length
  let rl := r.length
  if rl = 0 then some 0
  else if sl < rl then some (-1)
  else Index.loop s r sl rl sl

/-- Inner loop `for j, y := range r` of `IndexFold` at start position `i`
(same conventions as `Index.inner`). -/
def IndexFold.inner (U : Unicode) (s : List Rune) (rl i : Nat) : List Rune → Nat → Option Bool
  | [], _ => some false
  | y :: ys, j =>
    match index s (i + j) with
    | none => none
    | some x =>
      if x = y then
        if j = rl - 1 then some true else IndexFold.inner U s rl i ys (j + 1)
      else if U.IsLetter x && equalFoldRune U x y then
        if j = rl - 1 then some true else IndexFold.inner U s rl i ys (j + 1)
      else some false

/-- Outer loop `for i := 0; i < sl; i++` of `IndexFold` (`k` is `sl - i`). -/
def IndexFold.loop (U : Unicode) (s r : List Rune) (sl rl : Nat) : Nat → Option Int
  | 0 => some (-1)
  | k + 1 =>
    let i := sl - (k + 1)
    if i + rl > sl then some (-1)
    else
      match IndexFold.inner U s rl i r 0 with
      | none => none
      | some true => some (i : Int)
      | some false => IndexFold.loop U s r sl rl k

/-- Source function `IndexFold(s, r)`. -/
def IndexFold (U : Unicode) (s r : List Rune) : Option Int :=
  let sl := s.length
  let rl := r.length
  if rl = 0 then some 0
  else IndexFold.loop U s r sl rl sl

/-- Source function `Contains(s, r)`. -/
def Contains (s r : List Rune) : Option Bool := (Index s r).map (fun i => decide (i > -1))

/-- Source function `ContainsFold(s, r)`. -/
def ContainsFold (U : Unicode) (s r : List Rune) : Option Bool :=
  (IndexFold U s r).map (fun i => decide (i > -1))

/-- Loop `for i := 0; i < len(s); i++` of `TrimLeft`, carrying `start`; `k` is
`len(s) - i`.  The result is the value of `start` when the loop is left. -/
def TrimLeft.loop (s cutset : List Rune) : Nat → Nat → Option Nat
  | 0, start => some start
  | k + 1, start =>
    match index s (s.length - (k + 1)) with
    | none => none
    | some x =>
      if cutset.contains x then TrimLeft.loop s cutset k (start + 1)
      else some start

/-- Source function `TrimLeft(s, cutset)`. -/
def TrimLeft (s cutset : List Rune) : Option (List Rune) :=
  if s.length = 0 then some s
  else if cutset.length = 0 then some s
  else
    match TrimLeft.loop s cutset s.length 0 with
    | none => none
    | some start =>
      if start = 0 then some s
      else slice s start s.length

/-- Loop `for i := len(s) - 1; i >= 0; i--` of `TrimRight`, carrying `end`; the counter
is `i + 1`, so `0` is the loop test `i >= 0` failing. -/
def TrimRight.loop (s cutset : List Rune) : Nat → Nat → Option Nat
  | 0, e => some e
  | i + 1, e =>
    match index s i with
    | none => none
    | some x =>
      if cutset.contains x then TrimRight.loop s cutset i i
      else some e

/-- Source function `TrimRight(s, cutset)`. -/
def TrimRight (s cutset : List Rune) : Option (List Rune) :=
  if s.length = 0 then some s
  else if cutset.length = 0 then some s
  else
    match TrimRight.loop s cutset s.length (s.length - 1) with
    | none => none
    | some e =>
      if e = s.length - 1 then some s
      else slice s 0 e

/-- Source function `Trim(s, cutset)`, that is `TrimLeft(TrimRight(s, cutset), cutset)`. -/
def Trim (s cutset : List Rune) : Option (List Rune) :=
  (TrimRight s cutset).bind (fun t => TrimLeft t cutset)

/-! ## transforms.go -/

/-- Source function `HyphenMinusParams`. -/
structure HyphenMinusParams where
  PreserveCase : Bool
  Screaming : Bool
deriving DecidableEq, Repr

/-- Source function `HyphenMinusOption`: a function that modifies the parameters (the source mutates them
through a pointer; here the modified record is returned). -/
abbrev HyphenMinusOption := HyphenMinusParams → HyphenMinusParams

/-- Source function `Screaming(params)`: sets the `Screaming` field. -/
def Screaming : HyphenMinusOption := fun params => ⟨params.PreserveCase, true⟩

/-- The option literal `func(params) { params.PreserveCase = true }` of the tests. -/
def setPreserveCase : HyphenMinusOption := fun params => ⟨true, params.Screaming⟩

/-- Source function `params := &HyphenMinusParams{}` followed by `for _, option := range options`. -/
def applyOptions (options : List HyphenMinusOption) : HyphenMinusParams :=
  options.foldl (fun params option => option params) ⟨false, false⟩

/-- One iteration of `for _, r := range runes` in `Underscore`, on the pair `(sb, last)`.
`95` is `'_'` and `45` is `'-'`. -/
def Underscore.step (U : Unicode) (params : HyphenMinusParams)
    (st : List Rune × Rune) (r : Rune) : List Rune × Rune :=
  let sb := st.1
  let last := st.2
  if U.IsLetter r then
    if U.IsUpper r then
      if U.IsLetter last && U.IsLower last then
        let sb := sb ++ [95]
        if params.PreserveCase || params.Screaming then (sb ++ [r], r)
        else (sb ++ [U.ToLower r], r)
      else if params.PreserveCase || params.Screaming then (sb ++ [r], r)
      else (sb ++ [U.ToLower r], r)
    else if params.Screaming then (sb ++ [U.ToUpper r], r)
    else if params.PreserveCase then (sb ++ [r], r)
    else (sb ++ [U.ToLower r], r)
  else if U.IsNumber r then (sb ++ [r], r)
  else if r = 95 || r = 45 || U.IsSpace r then
    if sb.length = 0 then (sb, last)
    else if last = 95 then (sb, last)
    else (sb ++ [95], 95)
  else (sb, last)

/-- Source function `Underscore(runes, options...)`. -/
def Underscore (U : Unicode) (runes : List Rune) (options : List HyphenMinusOption) :
    List Rune :=
  if runes.length = 0 then runes
  else
    let params := applyOptions options
    let sb := (runes.foldl (Underscore.step U params) ([], 0)).1
    if sb.length > 0 ∧ sb[sb.length - 1]? = some 95 then sb.take (sb.length - 1)
    else sb

/-- One iteration of `for _, r := range runes` in `Dasherize`, on the pair `(sb, last)`. -/
def Dasherize.step (U : Unicode) (params : HyphenMinusParams)
    (st : List Rune × Rune) (r : Rune) : List Rune × Rune :=
  let sb := st.1
  let last := st.2
  if U.IsLetter r then
    if U.IsUpper r then
      if U.IsLetter last && U.IsLower last then
        let sb := sb ++ [45]
        if params.PreserveCase || params.Screaming then (sb ++ [r], r)
        else (sb ++ [U.ToLower r], r)
      else if params.PreserveCase || params.Screaming then (sb ++ [r], r)
      else (sb ++ [U.ToLower r], r)
    else if params.Screaming then (sb ++ [U.ToUpper r], r)
    else if params.PreserveCase then (sb ++ [r], r)
    else (sb ++ [U.ToLower r], r)
  else if U.IsNumber r then (sb ++ [r], r)
  else if r = 95 || r = 45 || U.IsSpace r then
    if sb.length = 0 then (sb, last)
    else if last = 45 then (sb, last)
    else (sb ++ [45], 45)
  else (sb, last)

/-- Source function `Dasherize(runes, options...)`. -/
def Dasherize (U : Unicode) (runes : List Rune) (options : List HyphenMinusOption) :
    List Rune :=
  if runes.length = 0 then runes
  else
    let params := applyOptions options
    let sb := (runes.foldl (Dasherize.step U params) ([], 0)).1
    if sb.length > 0 ∧ sb[sb.length - 1]? = some 45 then sb.take (sb.length - 1)
    else sb

/-- One iteration of `for i, r := range runes` in `CamelCase`, on the pair `(sb, last)`.
An uppercase letter that does not follow an uppercase `last` is appended by both
`append` statements and leaves `last` as it was. -/
def CamelCase.step (U : Unicode) (i : Nat) (st : List Rune × Rune) (r : Rune) :
    List Rune × Rune :=
  let sb := st.1
  let last := st.2
  if U.IsLetter r then
    if i = 0 then (sb ++ [U.ToLower r], r)
    else if last = 95 then (sb ++ [U.ToUpper r], r)
    else if U.IsUpper r then
      if U.IsUpper last then (sb ++ [U.ToLower r], r)
      else ((sb ++ [r]) ++ [r], last)
    else (sb ++ [r], last)
  else if U.IsNumber r then (sb ++ [r], r)
  else (sb, 95)

/-- The loop `for i, r := range runes` of `CamelCase` from index `i` on. -/
def CamelCase.loop (U : Unicode) : List Rune → Nat → List Rune × Rune → List Rune × Rune
  | [], _, st => st
  | r :: rs, i, st => CamelCase.loop U rs (i + 1) (CamelCase.step U i st r)

/-- Source function `CamelCase(runes)`. -/
def CamelCase (U : Unicode) (runes : List Rune) : List Rune :=
  if runes.length = 0 then runes
  else (CamelCase.loop U runes 0 ([], 0)).1

/-- One iteration of `for i, r := range runes` in `PascalCase`. -/
def PascalCase.step (U : Unicode) (i : Nat) (st : List Rune × Rune) (r : Rune) :
    List Rune × Rune :=
  let sb := st.1
  let last := st.2
  if U.IsLetter r then
    if i = 0 then (sb ++ [U.ToUpper r], r)
    else if last = 95 then (sb ++ [U.ToUpper r], r)
    else if U.IsUpper r then
      if U.IsUpper last then (sb ++ [U.ToLower r], r)
      else ((sb ++ [r]) ++ [r], last)
    else (sb ++ [r], last)
  else if U.IsNumber r then (sb ++ [r], r)
  else (sb, 95)

/-- The loop `for i, r := range runes` of `PascalCase` from index `i` on. -/
def PascalCase.loop (U : Unicode) : List Rune → Nat → List Rune × Rune → List Rune × Rune
  | [], _, st => st
  | r :: rs, i, st => PascalCase.loop U rs (i + 1) (PascalCase.step U i st r)

/-- Source function `PascalCase(runes)`. -/
def PascalCase (U : Unicode) (runes : List Rune) : List Rune :=
  if runes.length = 0 then runes
  else (PascalCase.loop U runes 0 ([], 0)).1

/-! ## The `unicode` tables on Latin-1

The rows of Go's `unicode` tables for the arguments U+0000..U+00FF and U+03D2
(GREEK UPSILON WITH HOOK SYMBOL, an uppercase letter without a lowercase form).  At every
other argument the classifiers answer `false` and the mappings return their argument. -/

/-- Source function `unicode.IsUpper` on the covered range. -/
def goIsUpper (r : Int) : Bool :=
  decide ((65 ≤ r ∧ r ≤ 90) ∨ (192 ≤ r ∧ r ≤ 214) ∨ (216 ≤ r ∧ r ≤ 222) ∨ r = 978)

/-- Source function `unicode.IsLower` on the covered range. -/
def goIsLower (r : Int) : Bool :=
  decide ((97 ≤ r ∧ r ≤ 122) ∨ r = 181 ∨ (223 ≤ r ∧ r ≤ 246) ∨ (248 ≤ r ∧ r ≤ 255))

/-- Source function `unicode.IsLetter` on the covered range (`170` and `186` are the ordinal indicators,
letters that are neither upper nor lower case). -/
def goIsLetter (r : Int) : Bool :=
  goIsUpper r || goIsLower r || decide (r = 170 ∨ r = 186)

/-- Source function `unicode.IsNumber` on the covered range. -/
def goIsNumber (r : Int) : Bool :=
  decide ((48 ≤ r ∧ r ≤ 57) ∨ r = 178 ∨ r = 179 ∨ r = 185 ∨ (188 ≤ r ∧ r ≤ 190))

/-- Source function `unicode.IsSpace` on the covered range. -/
def goIsSpace (r : Int) : Bool :=
  decide ((9 ≤ r ∧ r ≤ 13) ∨ r = 32 ∨ r = 133 ∨ r = 160)

/-- Source function `unicode.ToLower` on the covered range. -/
def goToLower (r : Int) : Int :=
  if (65 ≤ r ∧ r ≤ 90) ∨ (192 ≤ r ∧ r ≤ 214) ∨ (216 ≤ r ∧ r ≤ 222) then r + 32 else r

/-- Source function `unicode.ToUpper` on the covered range (`181`, the micro sign, maps to U+039C and
`255` to U+0178). -/
def goToUpper (r : Int) : Int :=
  if (97 ≤ r ∧ r ≤ 122) ∨ (224 ≤ r ∧ r ≤ 246) ∨ (248 ≤ r ∧ r ≤ 254) then r - 32
  else if r = 181 then 924
  else if r = 255 then 376
  else r

/-- Source function `unicode.SimpleFold` on the covered range: the next code point of the fold orbit
(`k` goes to the Kelvin sign U+212A, `s` to the long s U+017F, `å` to the Angstrom sign
U+212B, `ß` to U+1E9E). -/
def goSimpleFold (r : Int) : Int :=
  if r = 107 then 8490
  else if r = 115 then 383
  else if r = 181 then 924
  else if r = 223 then 7838
  else if r = 229 then 8491
  else if goToLower r ≠ r then goToLower r
  else goToUpper r

/-- The `unicode` package on the covered range. -/
def goTables : Unicode :=
  ⟨goIsLetter, goIsUpper, goIsLower, goIsNumber, goIsSpace, goToLower, goToUpper, goSimpleFold⟩

/-- The runes of a string literal, as `[]rune("...")`. -/
def runesOf (str : String) : List Rune := str.toList.map (fun c => (c.toNat : Int))

/-! ## Specification vocabulary -/

/-- The per-position test of `EqualFold` and `IndexFold`: `a` (from the left operand) and
`b` are identical, or `a` is a letter and one of them simple-folds to the other. -/
def FoldEq (U : Unicode) (a b : Rune) : Prop :=
  a = b ∨ (U.IsLetter a = true ∧ (U.SimpleFold a = b ∨ U.SimpleFold b = a))

instance (U : Unicode) (a b : Rune) : Decidable (FoldEq U a b) := by
  unfold FoldEq; infer_instance

/-- Length of the maximal leading run of members of `cutset` in `s`. -/
def leadingRun (cutset s : List Rune) : Nat :=
  (s.takeWhile (fun x => cutset.contains x)).length

/-- Length of the maximal trailing run of members of `cutset` in `s`. -/
def trailingRun (cutset s : List Rune) : Nat :=
  (s.reverse.takeWhile (fun x => cutset.contains x)).length

/-- The common shape of `Underscore.step` (joiner `95`) and `Dasherize.step`
(joiner `45`), with the joiner as a parameter; the two are shown equal to it below. -/
def joinStep (U : Unicode) (j : Rune) (params : HyphenMinusParams)
    (st : List Rune × Rune) (r : Rune) : List Rune × Rune :=
  let sb := st.1
  let last := st.2
  if U.IsLetter r then
    if U.IsUpper r then
      if U.IsLetter last && U.IsLower last then
        let sb := sb ++ [j]
        if params.PreserveCase || params.Screaming then (sb ++ [r], r)
        else (sb ++ [U.ToLower r], r)
      else if params.PreserveCase || params.Screaming then (sb ++ [r], r)
      else (sb ++ [U.ToLower r], r)
    else if params.Screaming then (sb ++ [U.ToUpper r], r)
    else if params.PreserveCase then (sb ++ [r], r)
    else (sb ++ [U.ToLower r], r)
  else if U.IsNumber r then (sb ++ [r], r)
  else if r = 95 || r = 45 || U.IsSpace r then
    if sb.length = 0 then (sb, last)
    else if last = j then (sb, last)
    else (sb ++ [j], j)
  else (sb, last)

/-- The final statement of `Underscore` and `Dasherize`: one trailing joiner is cut. -/
def stripJoiner (j : Rune) (sb : List Rune) : List Rune :=
  if sb.length > 0 ∧ sb[sb.length - 1]? = some j then sb.take (sb.length - 1) else sb

/-- Facts about the `unicode` tables on which the placement of a joiner `j` relies: the
zero rune (the initial `last`) and `j` are not letters, `j` is not a number, and no letter
is mapped to `j` by `ToLower` or `ToUpper`. -/
structure JoinerFacts (U : Unicode) (j : Rune) : Prop where
  nul_not_letter : U.IsLetter 0 = false
  not_letter : U.IsLetter j = false
  not_number : U.IsNumber j = false
  lower_ne : ∀ r : Rune, U.IsLetter r = true → U.ToLower r ≠ j
  upper_ne : ∀ r : Rune, U.IsLetter r = true → U.ToUpper r ≠ j

/-- The loop invariant of `Underscore` and `Dasherize` on `(sb, last)` for the joiner `j`:
`sb` does not start with `j`, has no two adjacent `j`, ends with `j` exactly when `last`
is `j`, and `last` is still the zero rune while `sb` is empty. -/
structure JoinInv (j : Rune) (st : List Rune × Rune) : Prop where
  head_ne : st.1.head? ≠ some j
  no_adjacent : List.Chain' (fun a b => ¬ (a = j ∧ b = j)) st.1
  last_iff : st.1.getLast? = some j ↔ st.2 = j
  empty_last : st.1 = [] → st.2 = 0

/-- What one iteration of `Underscore`/`Dasherize` appends for `r` besides a joiner:
the letter in the case the policy asks for, the digit itself, or nothing. -/
def emitted (U : Unicode) (params : HyphenMinusParams) (r : Rune) : List Rune :=
  if U.IsLetter r then
    if U.IsUpper r then
      if params.PreserveCase || params.Screaming then [r] else [U.ToLower r]
    else if params.Screaming then [U.ToUpper r]
    else if params.PreserveCase then [r]
    else [U.ToLower r]
  else if U.IsNumber r then [r]
  else []

/-- A word of an identifier together with the separator run that follows it: the first
letter, the rest of the word, and the separators after it. -/
structure Word where
  head : Rune
  rest : List Rune
  sep : List Rune

/-- The codepoints of a word and of the separator run after it. -/
def Word.runes (w : Word) : List Rune := w.head :: (w.rest ++ w.sep)

/-- The input made of the words and their separator runs, in order. -/
def joinWords (ws : List Word) : List Rune := ws.flatMap Word.runes

/-- A word starts with a letter and continues with digits or letters that are not
uppercase; a separator is neither a letter nor a digit. -/
def Word.WellFormed (U : Unicode) (w : Word) : Prop :=
  U.IsLetter w.head = true ∧
  (∀ r ∈ w.rest, U.IsNumber r = true ∨ (U.IsLetter r = true ∧ U.IsUpper r = false)) ∧
  (∀ r ∈ w.sep, U.IsLetter r = false ∧ U.IsNumber r = false)

/-- Replace every `'_'` by `'-'`. -/
def dashForUnderscore (x : Rune) : Rune := if x = 95 then 45 else x

/-- The correspondence between a state `(sb, last)` of `Underscore` and one of
`Dasherize`: the second `sb` is the first with `'_'` replaced by `'-'`, the first holds
no `'-'`, and the two `last` are the two joiners or one and the same other codepoint. -/
structure DashRel (stU stD : List Rune × Rune) : Prop where
  sb_map : stD.1 = stU.1.map dashForUnderscore
  no_dash : ∀ x ∈ stU.1, x ≠ 45
  last_rel : (stU.2 = 95 ∧ stD.2 = 45) ∨ (stU.2 = stD.2 ∧ stU.2 ≠ 95 ∧ stU.2 ≠ 45)

/-- What is expected of `Underscore` at position `i` of a letters-only input `s` under
the default policy: the lowercase form of `s[i]`, preceded by the joiner when `s[i]` is
uppercase, `i > 0` and `s[i-1]` is a lowercase letter. -/
def snakePiece (U : Unicode) (s : List Rune) (i : Nat) : List Rune :=
  if U.IsUpper (s.getD i 0) = true ∧ 0 < i ∧
      U.IsLetter (s.getD (i - 1) 0) = true ∧ U.IsLower (s.getD (i - 1) 0) = true
  then [95, U.ToLower (s.getD i 0)]
  else [U.ToLower (s.getD i 0)]

/-- A codepoint that `Underscore` under `params` writes back as itself. -/
def Stable (U : Unicode) (params : HyphenMinusParams) (x : Rune) : Prop :=
  emitted U params x = [x]

/-- Two adjacent codepoints between which `Underscore` has nothing to insert or to drop:
they are not both the joiner, and they are not a lowercase letter followed by an
uppercase letter. -/
def NoBoundary (U : Unicode) (a b : Rune) : Prop :=
  ¬ (a = 95 ∧ b = 95) ∧
  ¬ (U.IsLetter a = true ∧ U.IsLower a = true ∧ U.IsLetter b = true ∧ U.IsUpper b = true)

/-- The loop invariant of `Underscore` on `(sb, last)` used for applying it twice: `sb`
does not start with the joiner, adjacent codepoints of `sb` form no boundary, every
codepoint of `sb` is the joiner or stable, `sb` ends with the joiner exactly when `last`
is the joiner, `last` is the zero rune while `sb` is empty, and a final codepoint of
`sb` other than the joiner was emitted for `last`, a codepoint of the input `s`. -/
structure SnakeInv (U : Unicode) (params : HyphenMinusParams) (s : List Rune)
    (st : List Rune × Rune) : Prop where
  head_ne : st.1.head? ≠ some 95
  chain : List.Chain' (NoBoundary U) st.1
  stable : ∀ x ∈ st.1, x = 95 ∨ Stable U params x
  last_iff : st.1.getLast? = some 95 ↔ st.2 = 95
  empty_last : st.1 = [] → st.2 = 0
  origin : ∀ a : Rune, st.1.getLast? = some a → a ≠ 95 →
    st.2 ∈ s ∧ a ∈ emitted U params st.2

/-! ## Equality under folding -/

theorem equalFoldRune_iff (U : Unicode) (x y : Rune) :
    equalFoldRune U x y = true ↔ (U.SimpleFold x = y ∨ U.SimpleFold y = x) := by
  unfold equalFoldRune
  by_cases h : U.SimpleFold x = y <;> simp [h]

theorem foldEq_iff_test (U : Unicode) (a b : Rune) :
    FoldEq U a b ↔ (a = b ∨ (U.IsLetter a && equalFoldRune U a b) = true) := by
  unfold FoldEq
  simp [equalFoldRune_iff]

theorem index_of_lt (s : List Rune) (i : Nat) (h : i < s.length) :
    index s i = some s[i] := by
  simp [index, List.getElem?_eq_getElem h]

/-- The loop of `EqualFold` never faults while the remaining part of `x` fits in `y`, and
it answers `true` exactly when every remaining pair passes the test. -/
theorem EqualFold_loop_spec (U : Unicode) (y : List Rune) :
    ∀ (xs : List Rune) (i : Nat), i + xs.length ≤ y.length →
      ∃ b : Bool, EqualFold.loop U y xs i = some b ∧
        (b = true ↔ ∀ (k : Nat) (a c : Rune), xs[k]? = some a → y[i + k]? = some c → FoldEq U a c) := by
  intro xs
  induction xs with
  | nil => intro i _; exact ⟨true, rfl, by simp⟩
  | cons xi xs ih =>
    intro i hi
    have hlt : i < y.length := by simp at hi; omega
    obtain ⟨b, hb, hbt⟩ := ih (i + 1) (by simp at hi; omega)
    have hrd : index y i = some y[i] := index_of_lt y i hlt
    have hy : y[i]? = some y[i] := by simp [List.getElem?_eq_getElem hlt]
    have htail : (∀ (k : Nat) (a c : Rune), (xi :: xs)[k]? = some a → y[i + k]? = some c → FoldEq U a c) ↔
        (FoldEq U xi y[i] ∧
          ∀ (k : Nat) (a c : Rune), xs[k]? = some a → y[i + 1 + k]? = some c → FoldEq U a c) := by
      constructor
      · intro h
        refine ⟨h 0 xi _ (by simp) (by simp), ?_⟩
        intro k a c hk hc
        refine h (k + 1) a c (by simpa using hk) ?_
        have : i + (k + 1) = i + 1 + k := by omega
        rw [this]; exact hc
      · rintro ⟨h0, ht⟩ k a c hk hc
        cases k with
        | zero =>
          simp at hk
          have : c = y[i] := by
            have := hy; simp at hc; simp [hc] at this; exact this
          subst hk; rw [this]; exact h0
        | succ k =>
          refine ht k a c (by simpa using hk) ?_
          have : i + 1 + k = i + (k + 1) := by omega
          rw [this]; exact hc
    by_cases hf : FoldEq U xi y[i]
    · refine ⟨b, ?_, ?_⟩
      · rw [EqualFold.loop, hrd]
        rcases (foldEq_iff_test U _ _).1 hf with h | h
        · simp [h, hb]
        · by_cases hne : xi = y[i]
          · simp [hne, hb]
          · simp only [Bool.and_eq_true] at h
            simp [hne, h.1, h.2, hb]
      · rw [htail, hbt]
        exact ⟨fun h => ⟨hf, h⟩, fun h => h.2⟩
    · refine ⟨false, ?_, ?_⟩
      · rw [EqualFold.loop, hrd]
        have h := (not_congr (foldEq_iff_test U xi y[i])).1 hf
        push_neg at h
        have h2 : ¬ (U.IsLetter xi = true ∧ equalFoldRune U xi y[i] = true) := by
          simpa using h.2
        simp [h.1, h2]
      · rw [htail]
        exact ⟨fun h => by simp at h, fun h => absurd h.1 hf⟩

/-- Source function `EqualFold` never faults, and it answers `true` exactly when the lengths agree and
every pair passes the test. -/
theorem EqualFold_spec (U : Unicode) (x y : List Rune) :
    ∃ b : Bool, EqualFold U x y = some b ∧
      (b = true ↔ (x.length = y.length ∧
        ∀ (k : Nat) (a c : Rune), x[k]? = some a → y[k]? = some c → FoldEq U a c)) := by
  unfold EqualFold
  by_cases hl : x.length = y.length
  · obtain ⟨b, hb, hbt⟩ := EqualFold_loop_spec U y x 0 (by omega)
    refine ⟨b, by simp [hl, hb], ?_⟩
    rw [hbt]; simp [hl]
  · exact ⟨false, by simp [hl], by simp [hl]⟩

theorem EqualFold_true_iff (U : Unicode) (x y : List Rune) :
    EqualFold U x y = some true ↔ (x.length = y.length ∧
        ∀ (k : Nat) (a c : Rune), x[k]? = some a → y[k]? = some c → FoldEq U a c) := by
  obtain ⟨b, hb, hbt⟩ := EqualFold_spec U x y
  rw [← hbt, hb]; simp

theorem EqualFold_false_iff (U : Unicode) (x y : List Rune) :
    EqualFold U x y = some false ↔ ¬ (x.length = y.length ∧
        ∀ (k : Nat) (a c : Rune), x[k]? = some a → y[k]? = some c → FoldEq U a c) := by
  obtain ⟨b, hb, hbt⟩ := EqualFold_spec U x y
  rw [← hbt, hb]; cases b <;> simp

/-- C3: `EqualFold(x, y)` returns (it never faults) and is true if and only if
`len(x) = len(y)` and at every index `i` either `x[i] = y[i]`, or `x[i]` is a letter and
`SimpleFold(x[i]) = y[i]` or `SimpleFold(y[i]) = x[i]`; a mismatch at a position where
`x[i]` is not a letter makes the result false; `EqualFold(s, s)` and `Equal(s, s)` are
true for every `s`. -/
theorem EqualFold_characterisation (U : Unicode) (x y : List Rune) :
    (EqualFold U x y = some true ∨ EqualFold U x y = some false) ∧
    (EqualFold U x y = some true ↔
      (x.length = y.length ∧
        ∀ (i : Nat) (a b : Rune), x[i]? = some a → y[i]? = some b →
          (a = b ∨ (U.IsLetter a = true ∧ (U.SimpleFold a = b ∨ U.SimpleFold b = a))))) ∧
    (∀ (i : Nat) (a b : Rune), x[i]? = some a → y[i]? = some b → a ≠ b → U.IsLetter a = false →
      EqualFold U x y = some false) ∧
    (∀ s : List Rune, EqualFold U s s = some true ∧ Equal s s = true) := by
  refine ⟨?_, EqualFold_true_iff U x y, ?_, ?_⟩
  · obtain ⟨b, hb, _⟩ := EqualFold_spec U x y
    cases b
    · exact Or.inr hb
    · exact Or.inl hb
  · intro i a b ha hb hne hnl
    rw [EqualFold_false_iff]
    rintro ⟨_, h⟩
    rcases h i a b ha hb with h | h
    · exact hne h
    · simp [hnl] at h
  · intro s
    refine ⟨(EqualFold_true_iff U s s).2 ⟨rfl, ?_⟩, by simp [Equal]⟩
    intro k a c ha hc
    rw [ha] at hc
    exact Or.inl (Option.some.inj hc)


/-! ## Substring search -/

theorem slice_eq_some_iff (s r : List Rune) (i : Nat) :
    slice s i (i + r.length) = some r ↔
      (i + r.length ≤ s.length ∧ (s.drop i).take r.length = r) := by
  unfold slice
  by_cases h : i + r.length ≤ s.length
  · simp [h, List.drop_take]
  · simp [h]

theorem drop_take_succ (s : List Rune) (p n : Nat) (h : p < s.length) :
    (s.drop p).take (n + 1) = s[p] :: (s.drop (p + 1)).take n := by
  rw [List.drop_eq_getElem_cons h, List.take_succ_cons]

/-- The inner loop of `Index` at a start position where the needle fits: it never
faults, and it reports a match exactly when the rest of the needle agrees with the
haystack. -/
theorem Index_inner_spec (s : List Rune) (rl i : Nat) (hfit : i + rl ≤ s.length) :
    ∀ (ys : List Rune) (j : Nat), ys ≠ [] → j + ys.length = rl →
      Index.inner s rl i ys j = some (decide ((s.drop (i + j)).take ys.length = ys)) := by
  intro ys
  induction ys with
  | nil => intro j h; exact absurd rfl h
  | cons y ys ih =>
    intro j _ hj
    simp only [List.length_cons] at hj
    have hlt : i + j < s.length := by omega
    simp only [List.length_cons]
    have hdt := drop_take_succ s (i + j) ys.length hlt
    rw [Index.inner, index_of_lt s (i + j) hlt]
    simp only [hdt]

    by_cases hxy : s[i + j] = y
    · rw [if_pos hxy]
      cases ys with
      | nil =>
        have : j = rl - 1 := by simp at hj; omega
        rw [if_pos this]
        simp [hxy]
      | cons y2 ys2 =>
        have hne : ¬ j = rl - 1 := by simp at hj; omega
        have := ih (j + 1) (by simp) (by simp at hj ⊢; omega)
        rw [if_neg hne]
        rw [show i + (j + 1) = i + j + 1 by omega] at this
        rw [this]
        simp [hxy]
    · rw [if_neg hxy]
      simp [hxy]

/-- The outer loop of `Index` with `k` iterations left: it never faults, and it returns
the first occurrence at or after `sl - k`, or `-1` when there is none. -/
theorem Index_loop_spec (s r : List Rune) (hr : r ≠ []) :
    ∀ k : Nat, k ≤ s.length →
      (Index.loop s r s.length r.length k = some (-1) ∧
        ∀ m : Nat, s.length - k ≤ m → slice s m (m + r.length) ≠ some r) ∨
      (∃ i : Nat, Index.loop s r s.length r.length k = some (i : Int) ∧
        s.length - k ≤ i ∧ slice s i (i + r.length) = some r ∧
        ∀ m : Nat, s.length - k ≤ m → m < i → slice s m (m + r.length) ≠ some r) := by
  have hrl : 0 < r.length := List.length_pos.2 hr
  intro k
  induction k with
  | zero =>
    intro _
    left
    refine ⟨rfl, ?_⟩
    intro m hm h
    rw [slice_eq_some_iff] at h
    omega
  | succ k ih =>
    intro hk
    rw [Index.loop]
    by_cases hfit : s.length - (k + 1) + r.length > s.length
    · left
      refine ⟨by simp [hfit], ?_⟩
      intro m hm h
      rw [slice_eq_some_iff] at h
      omega
    · have hfit2 : s.length - (k + 1) + r.length ≤ s.length := by omega
      have hin := Index_inner_spec s r.length (s.length - (k + 1)) hfit2 r 0 hr (by simp)
      simp only [hfit, if_false, Nat.add_zero] at hin ⊢
      by_cases hm : (s.drop (s.length - (k + 1))).take r.length = r
      · right
        refine ⟨s.length - (k + 1), ?_, le_refl _, ?_, ?_⟩
        · rw [hin]; simp [hm]
        · rw [slice_eq_some_iff]; exact ⟨hfit2, hm⟩
        · intro m h1 h2; omega
      · have hin2 : Index.inner s r.length (s.length - (k + 1)) r 0 = some false := by
          rw [hin]; simp [hm]
        rw [hin2]
        have hstep : s.length - k = s.length - (k + 1) + 1 := by omega
        rcases ih (by omega) with ⟨h1, h2⟩ | ⟨i, h1, h2, h3, h4⟩
        · left
          refine ⟨h1, ?_⟩
          intro m hm2
          by_cases hmeq : m = s.length - (k + 1)
          · subst hmeq
            rw [Ne, slice_eq_some_iff]
            exact fun h => hm h.2
          · exact h2 m (by omega)
        · right
          refine ⟨i, h1, by omega, h3, ?_⟩
          intro m hm2 hm3
          by_cases hmeq : m = s.length - (k + 1)
          · subst hmeq
            rw [Ne, slice_eq_some_iff]
            exact fun h => hm h.2
          · exact h4 m (by omega) hm3

/-- Source function `Index` never faults: it returns `-1` when the needle does not occur, and otherwise
the first position at which it occurs. -/
theorem Index_spec (s r : List Rune) :
    (Index s r = some (-1) ∧ ∀ m : Nat, slice s m (m + r.length) ≠ some r) ∨
    (∃ i : Nat, Index s r = some (i : Int) ∧ slice s i (i + r.length) = some r ∧
      ∀ m : Nat, m < i → slice s m (m + r.length) ≠ some r) := by
  unfold Index
  by_cases hr : r = []
  · right
    subst hr
    exact ⟨0, by simp, by simp [slice], by intro m hm; omega⟩
  · have hrl : r.length ≠ 0 := by simpa using hr
    by_cases hlt : s.length < r.length
    · left
      refine ⟨by simp [hrl, hlt], ?_⟩
      intro m h
      rw [slice_eq_some_iff] at h
      omega
    · simp only [hrl, hlt, if_false]
      rcases Index_loop_spec s r hr s.length (le_refl _) with ⟨h1, h2⟩ | ⟨i, h1, _, h3, h4⟩
      · left; exact ⟨h1, fun m => h2 m (by omega)⟩
      · right; exact ⟨i, h1, h3, fun m hm => h4 m (by omega) hm⟩

/-- C1: `Index(s, r)` returns (it never faults); its value is `-1` or a position; it is
the position `i` exactly when `r` occurs at `i` (`i + len(r) <= len(s)` and
`s[i : i+len(r)] = r`) and at no smaller position; it is `-1` exactly when `r` occurs
nowhere; an empty `r` gives `0`, a needle longer than `s` gives `-1`, and at a returned
position `Equal(s[i : i+len(r)], r)` is true. -/
theorem Index_characterisation (s r : List Rune) :
    (Index s r = some (-1) ∨ ∃ i : Nat, Index s r = some (i : Int)) ∧
    (∀ i : Nat, Index s r = some (i : Int) ↔
      (slice s i (i + r.length) = some r ∧
        ∀ m : Nat, m < i → slice s m (m + r.length) ≠ some r)) ∧
    (Index s r = some (-1) ↔ ∀ m : Nat, slice s m (m + r.length) ≠ some r) ∧
    (r = [] → Index s r = some 0) ∧
    (s.length < r.length → Index s r = some (-1)) ∧
    (∀ i : Nat, Index s r = some (i : Int) →
      (slice s i (i + r.length)).map (fun t => Equal t r) = some true) := by
  have hspec := Index_spec s r
  have hiff : ∀ i : Nat, Index s r = some (i : Int) ↔
      (slice s i (i + r.length) = some r ∧
        ∀ m : Nat, m < i → slice s m (m + r.length) ≠ some r) := by
    intro i
    rcases hspec with ⟨h1, h2⟩ | ⟨i0, h1, h2, h3⟩
    · rw [h1]
      constructor
      · intro h; exact absurd (Option.some.inj h) (by omega)
      · intro h; exact absurd h.1 (h2 i)
    · rw [h1]
      constructor
      · intro h
        have : i0 = i := by simpa using h
        subst this; exact ⟨h2, h3⟩
      · rintro ⟨h4, h5⟩
        have : i0 = i := by
          rcases Nat.lt_trichotomy i0 i with h | h | h
          · exact absurd h2 (h5 i0 h)
          · exact h
          · exact absurd h4 (h3 i h)
        rw [this]
  refine ⟨?_, hiff, ?_, ?_, ?_, ?_⟩
  · rcases hspec with ⟨h1, _⟩ | ⟨i0, h1, _⟩
    · exact Or.inl h1
    · exact Or.inr ⟨i0, h1⟩
  · rcases hspec with ⟨h1, h2⟩ | ⟨i0, h1, h2, _⟩
    · exact ⟨fun _ => h2, fun _ => h1⟩
    · rw [h1]
      constructor
      · intro h; exact absurd (Option.some.inj h) (by omega)
      · intro h; exact absurd h2 (h i0)
  · intro hr; subst hr; simp [Index]
  · intro hlt
    have : r.length ≠ 0 := by omega
    simp [Index, this, hlt]
  · intro i hi
    rw [((hiff i).1 hi).1]
    simp [Equal]


/-! ## Substring search under folding -/

theorem forall2_iff_index {R : Rune → Rune → Prop} :
    ∀ (x y : List Rune), List.Forall₂ R x y ↔
      (x.length = y.length ∧
        ∀ (k : Nat) (a c : Rune), x[k]? = some a → y[k]? = some c → R a c) := by
  intro x
  induction x with
  | nil =>
    intro y
    cases y with
    | nil => simp
    | cons b y => simp
  | cons a x ih =>
    intro y
    cases y with
    | nil => simp
    | cons b y =>
      rw [List.forall₂_cons, ih]
      simp only [List.length_cons, add_left_inj]
      constructor
      · rintro ⟨h0, hl, ht⟩
        refine ⟨hl, ?_⟩
        intro k a' c' ha hc
        cases k with
        | zero =>
          simp at ha hc
          subst ha; subst hc; exact h0
        | succ k => exact ht k a' c' (by simpa using ha) (by simpa using hc)
      · rintro ⟨hl, h⟩
        refine ⟨h 0 a b (by simp) (by simp), hl, ?_⟩
        intro k a' c' ha hc
        exact h (k + 1) a' c' (by simpa using ha) (by simpa using hc)

theorem EqualFold_true_iff_forall2 (U : Unicode) (x y : List Rune) :
    EqualFold U x y = some true ↔ List.Forall₂ (FoldEq U) x y := by
  rw [EqualFold_true_iff, forall2_iff_index]

theorem sliceFold_eq_true_iff (U : Unicode) (s r : List Rune) (i : Nat) :
    (slice s i (i + r.length)).bind (fun t => EqualFold U t r) = some true ↔
      (i + r.length ≤ s.length ∧
        List.Forall₂ (FoldEq U) ((s.drop i).take r.length) r) := by
  unfold slice
  by_cases h : i + r.length ≤ s.length
  · simp [h, List.drop_take, EqualFold_true_iff_forall2]
  · simp [h]

/-- The inner loop of `IndexFold` at a start position where the needle fits: it never
faults, and it reports a match exactly when every remaining pair passes the test, the
haystack codepoint on the left. -/
theorem IndexFold_inner_spec (U : Unicode) (s : List Rune) (rl i : Nat)
    (hfit : i + rl ≤ s.length) :
    ∀ (ys : List Rune) (j : Nat), ys ≠ [] → j + ys.length = rl →
      ∃ b : Bool, IndexFold.inner U s rl i ys j = some b ∧
        (b = true ↔ List.Forall₂ (FoldEq U) ((s.drop (i + j)).take ys.length) ys) := by
  intro ys
  induction ys with
  | nil => intro j h; exact absurd rfl h
  | cons y ys ih =>
    intro j _ hj
    simp only [List.length_cons] at hj
    have hlt : i + j < s.length := by omega
    have hdt := drop_take_succ s (i + j) ys.length hlt
    simp only [List.length_cons]
    rw [IndexFold.inner, index_of_lt s (i + j) hlt, hdt, List.forall₂_cons]
    by_cases hf : FoldEq U s[i + j] y
    · have hbranch : ∀ v : Option Bool,
          (if s[i + j] = y then v
            else if (U.IsLetter s[i + j] && equalFoldRune U s[i + j] y) = true then v
            else some false) = v := by
        intro v
        rcases (foldEq_iff_test U _ _).1 hf with h | h
        · rw [if_pos h]
        · by_cases hxy : s[i + j] = y
          · rw [if_pos hxy]
          · rw [if_neg hxy, if_pos h]
      cases ys with
      | nil =>
        have hlast : j = rl - 1 := by simp at hj; omega
        refine ⟨true, ?_, by simp [hf]⟩
        dsimp only
        rw [hbranch, if_pos hlast]
      | cons y2 ys2 =>
        have hne : ¬ j = rl - 1 := by simp at hj; omega
        obtain ⟨b, hb, hbt⟩ := ih (j + 1) (by simp) (by simp at hj ⊢; omega)
        rw [show i + (j + 1) = i + j + 1 by omega] at hbt
        refine ⟨b, ?_, ?_⟩
        · dsimp only
          rw [hbranch, if_neg hne]
          exact hb
        · rw [hbt]
          exact ⟨fun h => ⟨hf, h⟩, fun h => h.2⟩
    · refine ⟨false, ?_, by simp [hf]⟩
      have h := (not_congr (foldEq_iff_test U s[i + j] y)).1 hf
      push_neg at h
      dsimp only
      rw [if_neg h.1, if_neg h.2]

/-- The outer loop of `IndexFold` with `k` iterations left: it never faults, and it
returns the first fold-occurrence at or after `sl - k`, or `-1` when there is none. -/
theorem IndexFold_loop_spec (U : Unicode) (s r : List Rune) (hr : r ≠ []) :
    ∀ k : Nat, k ≤ s.length →
      (IndexFold.loop U s r s.length r.length k = some (-1) ∧
        ∀ m : Nat, s.length - k ≤ m →
          (slice s m (m + r.length)).bind (fun t => EqualFold U t r) ≠ some true) ∨
      (∃ i : Nat, IndexFold.loop U s r s.length r.length k = some (i : Int) ∧
        s.length - k ≤ i ∧
        (slice s i (i + r.length)).bind (fun t => EqualFold U t r) = some true ∧
        ∀ m : Nat, s.length - k ≤ m → m < i →
          (slice s m (m + r.length)).bind (fun t => EqualFold U t r) ≠ some true) := by
  have hrl : 0 < r.length := List.length_pos.2 hr
  intro k
  induction k with
  | zero =>
    intro _
    left
    refine ⟨rfl, ?_⟩
    intro m hm h
    rw [sliceFold_eq_true_iff] at h
    omega
  | succ k ih =>
    intro hk
    rw [IndexFold.loop]
    by_cases hfit : s.length - (k + 1) + r.length > s.length
    · left
      refine ⟨by simp [hfit], ?_⟩
      intro m hm h
      rw [sliceFold_eq_true_iff] at h
      omega
    · have hfit2 : s.length - (k + 1) + r.length ≤ s.length := by omega
      obtain ⟨b, hin, hbt⟩ :=
        IndexFold_inner_spec U s r.length (s.length - (k + 1)) hfit2 r 0 hr (by simp)
      simp only [hfit, if_false, Nat.add_zero] at hin hbt ⊢
      rw [hin]
      cases b with
      | true =>
        right
        refine ⟨s.length - (k + 1), rfl, le_refl _, ?_, ?_⟩
        · rw [sliceFold_eq_true_iff]; exact ⟨hfit2, hbt.1 rfl⟩
        · intro m h1 h2; omega
      | false =>
        have hm : ¬ List.Forall₂ (FoldEq U)
            ((s.drop (s.length - (k + 1))).take r.length) r := by
          intro h; have := hbt.2 h; simp at this
        rcases ih (by omega) with ⟨h1, h2⟩ | ⟨i, h1, h2, h3, h4⟩
        · left
          refine ⟨h1, ?_⟩
          intro m hm2
          by_cases hmeq : m = s.length - (k + 1)
          · subst hmeq
            rw [Ne, sliceFold_eq_true_iff]
            exact fun h => hm h.2
          · exact h2 m (by omega)
        · right
          refine ⟨i, h1, by omega, h3, ?_⟩
          intro m hm2 hm3
          by_cases hmeq : m = s.length - (k + 1)
          · subst hmeq
            rw [Ne, sliceFold_eq_true_iff]
            exact fun h => hm h.2
          · exact h4 m (by omega) hm3

/-- Source function `IndexFold` never faults: it returns `-1` when the needle fold-occurs nowhere, and
otherwise the first position at which it does. -/
theorem IndexFold_spec (U : Unicode) (s r : List Rune) :
    (IndexFold U s r = some (-1) ∧
      ∀ m : Nat, (slice s m (m + r.length)).bind (fun t => EqualFold U t r) ≠ some true) ∨
    (∃ i : Nat, IndexFold U s r = some (i : Int) ∧
      (slice s i (i + r.length)).bind (fun t => EqualFold U t r) = some true ∧
      ∀ m : Nat, m < i →
        (slice s m (m + r.length)).bind (fun t => EqualFold U t r) ≠ some true) := by
  unfold IndexFold
  by_cases hr : r = []
  · right
    subst hr
    refine ⟨0, by simp, ?_, by intro m hm; omega⟩
    rw [sliceFold_eq_true_iff]; simp
  · have hrl : r.length ≠ 0 := by simpa using hr
    simp only [hrl, if_false]
    rcases IndexFold_loop_spec U s r hr s.length (le_refl _) with
      ⟨h1, h2⟩ | ⟨i, h1, _, h3, h4⟩
    · left; exact ⟨h1, fun m => h2 m (by omega)⟩
    · right; exact ⟨i, h1, h3, fun m hm => h4 m (by omega) hm⟩

/-- C2: `IndexFold(s, r)` returns (it never faults); its value is `-1` or a position; it
is the position `i` exactly when `i + len(r) <= len(s)` and
`EqualFold(s[i : i+len(r)], r)` is true (haystack on the left) and this holds at no
smaller position; it is `-1` exactly when it holds at no position; an empty `r` gives
`0`. -/
theorem IndexFold_characterisation (U : Unicode) (s r : List Rune) :
    (IndexFold U s r = some (-1) ∨ ∃ i : Nat, IndexFold U s r = some (i : Int)) ∧
    (∀ i : Nat, IndexFold U s r = some (i : Int) ↔
      ((i + r.length ≤ s.length ∧
          (slice s i (i + r.length)).bind (fun t => EqualFold U t r) = some true) ∧
        ∀ m : Nat, m < i →
          (slice s m (m + r.length)).bind (fun t => EqualFold U t r) ≠ some true)) ∧
    (IndexFold U s r = some (-1) ↔
      ∀ m : Nat, (slice s m (m + r.length)).bind (fun t => EqualFold U t r) ≠ some true) ∧
    (r = [] → IndexFold U s r = some 0) := by
  have hspec := IndexFold_spec U s r
  refine ⟨?_, ?_, ?_, ?_⟩
  · rcases hspec with ⟨h1, _⟩ | ⟨i0, h1, _⟩
    · exact Or.inl h1
    · exact Or.inr ⟨i0, h1⟩
  · intro i
    rcases hspec with ⟨h1, h2⟩ | ⟨i0, h1, h2, h3⟩
    · rw [h1]
      constructor
      · intro h; exact absurd (Option.some.inj h) (by omega)
      · intro h; exact absurd h.1.2 (h2 i)
    · rw [h1]
      constructor
      · intro h
        have : i0 = i := by simpa using h
        subst this
        exact ⟨⟨((sliceFold_eq_true_iff U s r i0).1 h2).1, h2⟩, h3⟩
      · rintro ⟨⟨_, h4⟩, h5⟩
        have : i0 = i := by
          rcases Nat.lt_trichotomy i0 i with h | h | h
          · exact absurd h2 (h5 i0 h)
          · exact h
          · exact absurd h4 (h3 i h)
        rw [this]
  · rcases hspec with ⟨h1, h2⟩ | ⟨i0, h1, h2, _⟩
    · exact ⟨fun _ => h2, fun _ => h1⟩
    · rw [h1]
      constructor
      · intro h; exact absurd (Option.some.inj h) (by omega)
      · intro h; exact absurd h2 (h i0)
  · intro hr; subst hr; simp [IndexFold]


/-! ## Trimming -/

theorem drop_leadingRun (c s : List Rune) :
    s.drop (leadingRun c s) = s.dropWhile (fun x => c.contains x) := by
  unfold leadingRun
  have h := List.takeWhile_append_dropWhile (fun x => c.contains x) s
  have := @List.drop_left' _ (s.takeWhile (fun x => c.contains x))
    (s.dropWhile (fun x => c.contains x)) _ rfl
  rwa [h] at this

/-- The loop of `TrimLeft` with `k` iterations left never faults and adds to `start` the
length of the leading run of cutset members in the part of `s` not yet visited. -/
theorem TrimLeft_loop_spec (s c : List Rune) :
    ∀ (k start : Nat), k ≤ s.length →
      TrimLeft.loop s c k start = some (start + leadingRun c (s.drop (s.length - k))) := by
  intro k
  induction k with
  | zero => intro start _; simp [TrimLeft.loop, leadingRun]
  | succ k ih =>
    intro start hk
    have hlt : s.length - (k + 1) < s.length := by omega
    rw [TrimLeft.loop, index_of_lt s _ hlt]
    have hdrop : s.drop (s.length - (k + 1)) =
        s[s.length - (k + 1)] :: s.drop (s.length - k) := by
      rw [List.drop_eq_getElem_cons hlt]
      congr 2
      omega
    by_cases hc : c.contains s[s.length - (k + 1)] = true
    · simp only [hc, if_true]
      rw [ih (start + 1) (by omega), hdrop]
      simp only [leadingRun, List.takeWhile_cons, hc, if_true, List.length_cons]
      congr 1
      omega
    · have hc2 : c.contains s[s.length - (k + 1)] = false := by
        simpa using hc
      simp only [hc2, Bool.false_eq_true, if_false]
      rw [hdrop]
      simp only [leadingRun, List.takeWhile_cons, hc2, Bool.false_eq_true, if_false,
        List.length_nil, Nat.add_zero]

/-- Source function `TrimLeft` never faults and drops exactly the leading run of cutset members. -/
theorem TrimLeft_eq (s c : List Rune) :
    TrimLeft s c = some (s.dropWhile (fun x => c.contains x)) := by
  unfold TrimLeft
  by_cases hs : s.length = 0
  · have : s = [] := List.length_eq_zero.1 hs
    subst this; simp
  · by_cases hc : c.length = 0
    · have : c = [] := List.length_eq_zero.1 hc
      subst this
      simp only [hs, List.length_nil, if_true, if_false]
      cases s with
      | nil => rfl
      | cons a s => simp [List.dropWhile_cons]
    · simp only [hs, hc, if_false]
      rw [TrimLeft_loop_spec s c s.length 0 (le_refl _)]
      simp only [Nat.sub_self, List.drop_zero, Nat.zero_add]
      by_cases h0 : leadingRun c s = 0
      · simp only [h0, if_true]
        rw [← drop_leadingRun, h0, List.drop_zero]
      · simp only [h0, if_false]
        have hle : leadingRun c s ≤ s.length := by
          unfold leadingRun
          exact (List.takeWhile_prefix _).length_le
        simp only [slice, hle, le_refl, and_self, if_true, List.take_length]
        rw [drop_leadingRun]

/-- C5: `TrimLeft(s, c)` returns `s` without its maximal leading run of members of `c`:
the result is what is left of `s` after a prefix all of whose elements belong to `c`,
a non-empty result does not start with a member of `c`, and an empty `c` or an empty `s`
returns `s` unchanged. -/
theorem TrimLeft_characterisation (s c : List Rune) :
    (∃ p t : List Rune, TrimLeft s c = some t ∧ s = p ++ t ∧ (∀ x ∈ p, x ∈ c) ∧
      (∀ x : Rune, t.head? = some x → x ∉ c)) ∧
    TrimLeft s c = some (s.dropWhile (fun x => decide (x ∈ c))) ∧
    (c = [] → TrimLeft s c = some s) ∧
    (s = [] → TrimLeft s c = some s) := by
  have hfun : (fun x => c.contains x) = (fun x : Rune => decide (x ∈ c)) := by
    funext x
    simp
  have heq := TrimLeft_eq s c
  refine ⟨⟨s.takeWhile (fun x => c.contains x), s.dropWhile (fun x => c.contains x),
      heq, (List.takeWhile_append_dropWhile _ s).symm, ?_, ?_⟩, ?_, ?_, ?_⟩
  · intro x hx
    have := List.mem_takeWhile_imp hx
    simpa using this
  · intro x hx hmem
    have := List.head?_dropWhile_not (fun x => c.contains x) s
    rw [hx] at this
    simp [hmem] at this
  · rw [heq, hfun]
  · intro hc; subst hc; simp [TrimLeft]
  · intro hs; subst hs; simp [TrimLeft]


theorem trailingRun_take_succ (c s : List Rune) (i : Nat) (h : i < s.length) :
    trailingRun c (s.take (i + 1)) =
      if c.contains s[i] then trailingRun c (s.take i) + 1 else 0 := by
  unfold trailingRun
  rw [List.take_succ, List.getElem?_eq_getElem h]
  simp only [Option.toList, List.reverse_append, List.reverse_cons, List.reverse_nil,
    List.nil_append, List.singleton_append, List.takeWhile_cons]
  by_cases hc : c.contains s[i] = true
  · simp only [hc, if_true, List.length_cons]
  · have hc2 : c.contains s[i] = false := by simpa using hc
    simp only [hc2, Bool.false_eq_true, if_false, List.length_nil]

theorem trailingRun_le (c s : List Rune) : trailingRun c s ≤ s.length := by
  unfold trailingRun
  have := (List.takeWhile_prefix (fun x => c.contains x) (l := s.reverse)).length_le
  simpa using this

/-- The loop of `TrimRight` started at index `n - 1` never faults; it leaves `end` as it
was when `s[n-1]` is not in the cutset, and otherwise sets it to the index of the
first element of the trailing run of cutset members of `s[:n]`. -/
theorem TrimRight_loop_spec (s c : List Rune) :
    ∀ (n e : Nat), n ≤ s.length →
      TrimRight.loop s c n e =
        some (if trailingRun c (s.take n) = 0 then e else n - trailingRun c (s.take n)) := by
  intro n
  induction n with
  | zero => intro e _; simp [TrimRight.loop, trailingRun]
  | succ i ih =>
    intro e hi
    have hlt : i < s.length := by omega
    rw [TrimRight.loop, index_of_lt s i hlt, trailingRun_take_succ c s i hlt]
    by_cases hc : c.contains s[i] = true
    · simp only [hc, if_true]
      rw [ih i (by omega)]
      have hle := trailingRun_le c (s.take i)
      simp only [List.length_take] at hle
      by_cases h0 : trailingRun c (s.take i) = 0
      · simp [h0]
      · simp only [h0, if_false, Nat.add_one_ne_zero]
        congr 1
        omega
    · have hc2 : c.contains s[i] = false := by simpa using hc
      simp only [hc2, Bool.false_eq_true, if_false, if_true]

theorem take_sub_trailingRun (c s : List Rune) :
    s.take (s.length - trailingRun c s) =
      (s.reverse.dropWhile (fun x => c.contains x)).reverse := by
  have h := List.takeWhile_append_dropWhile (fun x => c.contains x) s.reverse
  have hs : s = (s.reverse.dropWhile (fun x => c.contains x)).reverse ++
      (s.reverse.takeWhile (fun x => c.contains x)).reverse := by
    rw [← List.reverse_append, h, List.reverse_reverse]
  have hlen : ((s.reverse.dropWhile (fun x => c.contains x)).reverse).length =
      s.length - trailingRun c s := by
    have := congrArg List.length hs
    simp only [List.length_append, List.length_reverse] at this ⊢
    unfold trailingRun
    omega
  have := @List.take_left' _ ((s.reverse.dropWhile (fun x => c.contains x)).reverse)
    ((s.reverse.takeWhile (fun x => c.contains x)).reverse) _ hlen
  rwa [← hs] at this

/-- What `TrimRight` computes: it never faults; a trailing run of two or more cutset
members is removed, a trailing run of one cutset member is left in place. -/
theorem TrimRight_eq (s c : List Rune) :
    TrimRight s c =
      some (if trailingRun c s ≤ 1 then s else s.take (s.length - trailingRun c s)) := by
  unfold TrimRight
  by_cases hs : s.length = 0
  · have : s = [] := List.length_eq_zero.1 hs
    subst this; simp [trailingRun]
  · by_cases hc : c.length = 0
    · have : c = [] := List.length_eq_zero.1 hc
      subst this
      have h0 : trailingRun [] s = 0 := by
        unfold trailingRun
        cases hr : s.reverse with
        | nil => rfl
        | cons a l => simp [List.takeWhile_cons]
      simp [hs, h0]
    · simp only [hs, hc, if_false]
      rw [TrimRight_loop_spec s c s.length (s.length - 1) (le_refl _)]
      simp only [List.take_length]
      have hle := trailingRun_le c s
      by_cases h0 : trailingRun c s = 0
      · simp [h0]
      · by_cases h1 : trailingRun c s = 1
        · simp [h1]
        · have hne : ¬ s.length - trailingRun c s = s.length - 1 := by omega
          have hgt : ¬ trailingRun c s ≤ 1 := by omega
          simp only [h0, if_false, hne, hgt, slice, Nat.zero_le, true_and, List.drop_zero]
          have : s.length - trailingRun c s ≤ s.length := by omega
          simp [this]

theorem takeWhile_length_le_of_prefix (p : Rune → Bool) :
    ∀ (l₁ l₂ : List Rune), l₁ <+: l₂ →
      (l₁.takeWhile p).length ≤ (l₂.takeWhile p).length := by
  intro l₁
  induction l₁ with
  | nil => intro l₂ _; simp
  | cons a l₁ ih =>
    intro l₂ h
    obtain ⟨t, ht⟩ := h
    subst ht
    simp only [List.cons_append, List.takeWhile_cons]
    by_cases hp : p a = true
    · simp only [hp, if_true, List.length_cons]
      exact Nat.succ_le_succ (ih (l₁ ++ t) ⟨t, rfl⟩)
    · simp [hp]

theorem trailingRun_dropWhile_le (c u : List Rune) (p : Rune → Bool) :
    trailingRun c (u.dropWhile p) ≤ trailingRun c u := by
  unfold trailingRun
  apply takeWhile_length_le_of_prefix
  rw [List.reverse_prefix]
  exact List.dropWhile_suffix p

theorem takeWhile_dropWhile_nil (p : Rune → Bool) :
    ∀ l : List Rune, (l.dropWhile p).takeWhile p = [] := by
  intro l
  induction l with
  | nil => rfl
  | cons a l ih =>
    by_cases hp : p a = true
    · simp [List.dropWhile_cons, hp, ih]
    · simp [List.dropWhile_cons, List.takeWhile_cons, hp]

/-- What `TrimRight` leaves has a trailing run of at most one cutset member. -/
theorem trailingRun_after_TrimRight (c s : List Rune) :
    trailingRun c
      (if trailingRun c s ≤ 1 then s else s.take (s.length - trailingRun c s)) ≤ 1 := by
  by_cases h : trailingRun c s ≤ 1
  · simp [h]
  · simp only [h, if_false]
    rw [take_sub_trailingRun]
    unfold trailingRun
    rw [List.reverse_reverse, takeWhile_dropWhile_nil]
    simp

/-- What `Trim` computes: it never faults; the leading run of cutset members is removed
from what `TrimRight` leaves. -/
theorem Trim_eq (s c : List Rune) :
    Trim s c =
      some ((if trailingRun c s ≤ 1 then s
        else s.take (s.length - trailingRun c s)).dropWhile (fun x => c.contains x)) := by
  unfold Trim
  rw [TrimRight_eq]
  simp only [Option.some_bind]
  rw [TrimLeft_eq]

/-- C7: `Trim` returns (it never faults) and is idempotent:
`Trim(Trim(s, c), c) = Trim(s, c)` for every sequence `s` and every cutset `c`. -/
theorem Trim_idempotent (s c : List Rune) :
    (∃ t : List Rune, Trim s c = some t) ∧
    (Trim s c).bind (fun t => Trim t c) = Trim s c := by
  refine ⟨⟨_, Trim_eq s c⟩, ?_⟩
  rw [Trim_eq s c, Option.some_bind, Trim_eq]
  have h1 := trailingRun_after_TrimRight c s
  have h2 := trailingRun_dropWhile_le c
    (if trailingRun c s ≤ 1 then s else s.take (s.length - trailingRun c s))
    (fun x => c.contains x)
  have h3 := le_trans h2 h1
  simp only [h3, if_true]
  rw [List.dropWhile_idempotent]

/-- C4: `TrimRight([]rune("test "), []rune(" "))` returns its input unchanged, with the
trailing cutset codepoint still in place, while two trailing cutset codepoints are
removed. -/
theorem TrimRight_keeps_single_trailing :
    TrimRight [116, 101, 115, 116, 32] [32] = some [116, 101, 115, 116, 32] ∧
    TrimRight [116, 101, 115, 116, 32, 32] [32] = some [116, 101, 115, 116] := by
  decide

/-- C6: `Trim([]rune(" test "), []rune(" "))` returns `"test "`: the result still ends
with a member of the cutset. -/
theorem Trim_keeps_single_trailing :
    Trim [32, 116, 101, 115, 116, 32] [32] = some [116, 101, 115, 116, 32] := by
  decide


/-! ## Underscore and Dasherize: placement of the joiner -/

theorem Underscore_step_eq (U : Unicode) (params : HyphenMinusParams) :
    Underscore.step U params = joinStep U 95 params := rfl

theorem Dasherize_step_eq (U : Unicode) (params : HyphenMinusParams) :
    Dasherize.step U params = joinStep U 45 params := rfl

theorem Underscore_eq (U : Unicode) (s : List Rune) (options : List HyphenMinusOption) :
    Underscore U s options =
      stripJoiner 95 (s.foldl (joinStep U 95 (applyOptions options)) ([], 0)).1 := by
  unfold Underscore stripJoiner
  by_cases h : s.length = 0
  · have : s = [] := List.length_eq_zero.1 h
    subst this; simp
  · simp only [h, if_false, Underscore_step_eq]

theorem Dasherize_eq (U : Unicode) (s : List Rune) (options : List HyphenMinusOption) :
    Dasherize U s options =
      stripJoiner 45 (s.foldl (joinStep U 45 (applyOptions options)) ([], 0)).1 := by
  unfold Dasherize stripJoiner
  by_cases h : s.length = 0
  · have : s = [] := List.length_eq_zero.1 h
    subst this; simp
  · simp only [h, if_false, Dasherize_step_eq]

/-- The four things one iteration can do to `(sb, last)`: nothing; append one codepoint
other than the joiner; append the joiner and then another codepoint (only after a
lowercase letter); append the joiner alone (only to a non-empty `sb` whose `last` is not
the joiner). -/
theorem joinStep_cases (U : Unicode) (j : Rune) (hf : JoinerFacts U j)
    (params : HyphenMinusParams) (sb : List Rune) (last r : Rune) :
    joinStep U j params (sb, last) r = (sb, last) ∨
    (∃ x l : Rune, x ≠ j ∧ l ≠ j ∧ joinStep U j params (sb, last) r = (sb ++ [x], l)) ∨
    (U.IsLetter last = true ∧ ∃ x l : Rune, x ≠ j ∧ l ≠ j ∧
      joinStep U j params (sb, last) r = ((sb ++ [j]) ++ [x], l)) ∨
    (sb ≠ [] ∧ last ≠ j ∧ joinStep U j params (sb, last) r = (sb ++ [j], j)) := by
  unfold joinStep
  by_cases hL : U.IsLetter r = true
  · have hrj : r ≠ j := by
      intro h; rw [h, hf.not_letter] at hL; exact Bool.false_ne_true hL
    have hlo := hf.lower_ne r hL
    have hup := hf.upper_ne r hL
    simp only [hL, if_true]
    by_cases hU : U.IsUpper r = true
    · simp only [hU, if_true]
      by_cases hlast : (U.IsLetter last && U.IsLower last) = true
      · simp only [hlast, if_true]
        have hll : U.IsLetter last = true := by
          simp only [Bool.and_eq_true] at hlast; exact hlast.1
        right; right; left
        by_cases hp : (params.PreserveCase || params.Screaming) = true
        · simp only [hp, if_true]
          exact ⟨hll, r, r, hrj, hrj, rfl⟩
        · simp only [hp, if_false]
          exact ⟨hll, U.ToLower r, r, hlo, hrj, rfl⟩
      · simp only [hlast, if_false]
        right; left
        by_cases hp : (params.PreserveCase || params.Screaming) = true
        · simp only [hp, if_true]
          exact ⟨r, r, hrj, hrj, rfl⟩
        · simp only [hp, if_false]
          exact ⟨U.ToLower r, r, hlo, hrj, rfl⟩
    · simp only [hU, if_false]
      right; left
      by_cases hs : params.Screaming = true
      · simp only [hs, if_true]
        exact ⟨U.ToUpper r, r, hup, hrj, rfl⟩
      · simp only [hs, if_false]
        by_cases hp : params.PreserveCase = true
        · simp only [hp, if_true]
          exact ⟨r, r, hrj, hrj, rfl⟩
        · simp only [hp, if_false]
          exact ⟨U.ToLower r, r, hlo, hrj, rfl⟩
  · simp only [hL, if_false]
    by_cases hN : U.IsNumber r = true
    · have hrj : r ≠ j := by
        intro h; rw [h, hf.not_number] at hN; exact Bool.false_ne_true hN
      simp only [hN, if_true]
      right; left
      exact ⟨r, r, hrj, hrj, rfl⟩
    · simp only [hN, if_false]
      by_cases hsep : (r = 95 || r = 45 || U.IsSpace r) = true
      · simp only [hsep, if_true]
        by_cases hlen : sb.length = 0
        · simp only [hlen, if_true]; left; trivial
        · simp only [hlen, if_false]
          by_cases hlj : last = j
          · simp only [hlj, if_true]; left; trivial
          · simp only [hlj, if_false]
            right; right; right
            exact ⟨fun h => hlen (by simp [h]), hlj, rfl⟩
      · simp only [hsep, if_false]; left; trivial

theorem JoinInv.append_other {j : Rune} {sb : List Rune} {last : Rune}
    (h : JoinInv j (sb, last)) (x l : Rune) (hx : x ≠ j) (hl : l ≠ j) :
    JoinInv j (sb ++ [x], l) := by
  refine ⟨?_, ?_, ?_, ?_⟩
  · have h1 := h.head_ne
    cases sb with
    | nil => simpa using hx
    | cons a sb => simpa using h1
  · refine List.Chain'.append h.no_adjacent (List.chain'_singleton x) ?_
    intro a _ b hb
    simp only [List.head?_cons, Option.mem_def, Option.some.injEq] at hb
    subst hb
    exact fun hh => hx hh.2
  · simp only [List.getLast?_concat, Option.some.injEq]
    exact ⟨fun hh => absurd hh hx, fun hh => absurd hh hl⟩
  · intro hnil; simp at hnil

theorem JoinInv.append_joiner {j : Rune} {sb : List Rune} {last : Rune}
    (h : JoinInv j (sb, last)) (hne : sb ≠ []) (hl : last ≠ j) :
    JoinInv j (sb ++ [j], j) := by
  have hlast : sb.getLast? ≠ some j := fun hh => hl (h.last_iff.1 hh)
  refine ⟨?_, ?_, ?_, ?_⟩
  · have h1 := h.head_ne
    cases sb with
    | nil => exact absurd rfl hne
    | cons a sb => simpa using h1
  · refine List.Chain'.append h.no_adjacent (List.chain'_singleton j) ?_
    intro a ha b _
    simp only [Option.mem_def] at ha
    exact fun hh => hlast (by rw [ha, hh.1])
  · simp [List.getLast?_concat]
  · intro hnil; simp at hnil

/-- One iteration keeps the invariant. -/
theorem JoinInv.step (U : Unicode) (j : Rune) (hf : JoinerFacts U j)
    (params : HyphenMinusParams) (st : List Rune × Rune) (r : Rune)
    (h : JoinInv j st) : JoinInv j (joinStep U j params st r) := by
  obtain ⟨sb, last⟩ := st
  rcases joinStep_cases U j hf params sb last r with
    h1 | ⟨x, l, hx, hl, h1⟩ | ⟨hlet, x, l, hx, hl, h1⟩ | ⟨hne, hlj, h1⟩
  · rw [h1]; exact h
  · rw [h1]; exact h.append_other x l hx hl
  · rw [h1]
    have hlj : last ≠ j := by
      intro hh; rw [hh, hf.not_letter] at hlet; exact Bool.false_ne_true hlet
    have hne : sb ≠ [] := by
      intro hh
      have := h.empty_last hh
      simp only at this
      rw [this, hf.nul_not_letter] at hlet
      exact Bool.false_ne_true hlet
    have h2 := h.append_joiner hne hlj
    refine ⟨?_, ?_, ?_, ?_⟩
    · have h3 := h2.head_ne
      simp only at h3 ⊢
      cases hsb : sb ++ [j] with
      | nil => simp at hsb
      | cons a t => rw [hsb] at h3; simpa using h3
    · refine List.Chain'.append h2.no_adjacent (List.chain'_singleton x) ?_
      intro a _ b hb
      simp only [List.head?_cons, Option.mem_def, Option.some.injEq] at hb
      subst hb
      exact fun hh => hx hh.2
    · simp only [List.getLast?_concat, Option.some.injEq]
      exact ⟨fun hh => absurd hh hx, fun hh => absurd hh hl⟩
    · intro hnil; simp at hnil
  · rw [h1]; exact h.append_joiner hne hlj

/-- The loop keeps the invariant. -/
theorem JoinInv.foldl (U : Unicode) (j : Rune) (hf : JoinerFacts U j)
    (params : HyphenMinusParams) :
    ∀ (s : List Rune) (st : List Rune × Rune), JoinInv j st →
      JoinInv j (s.foldl (joinStep U j params) st) := by
  intro s
  induction s with
  | nil => intro st h; exact h
  | cons r s ih => intro st h; exact ih _ (JoinInv.step U j hf params st r h)

theorem JoinInv.init (j : Rune) (hj : j ≠ 0) : JoinInv j ([], 0) := by
  refine ⟨by simp, List.chain'_nil, ?_, fun _ => rfl⟩
  simp only [List.getLast?_nil]
  exact ⟨fun hh => by simp at hh, fun hh => absurd hh.symm hj⟩

theorem noAdjacent_of_chain (j : Rune) (l : List Rune)
    (h : List.Chain' (fun a b => ¬ (a = j ∧ b = j)) l) (i : Nat) :
    ¬ (l[i]? = some j ∧ l[i + 1]? = some j) := by
  rintro ⟨h1, h2⟩
  have hi1 : i + 1 < l.length := by
    by_contra hc
    rw [List.getElem?_eq_none (by omega)] at h2
    simp at h2
  have hi : i < l.length := by omega
  have := List.chain'_iff_get.1 h i (by omega)
  rw [List.getElem?_eq_getElem hi] at h1
  rw [List.getElem?_eq_getElem hi1] at h2
  simp only [Option.some.injEq] at h1 h2
  exact this ⟨by simpa using h1, by simpa using h2⟩

/-- After the final cut, a state that satisfies the invariant is a sequence that neither
starts nor ends with the joiner and has no two adjacent joiners. -/
theorem stripJoiner_of_inv (j : Rune) (sb : List Rune) (last : Rune)
    (h : JoinInv j (sb, last)) :
    (stripJoiner j sb).head? ≠ some j ∧ (stripJoiner j sb).getLast? ≠ some j ∧
    ∀ i : Nat, ¬ ((stripJoiner j sb)[i]? = some j ∧ (stripJoiner j sb)[i + 1]? = some j) := by
  unfold stripJoiner
  rw [← List.getLast?_eq_getElem?, ← List.dropLast_eq_take]
  rcases List.eq_nil_or_concat sb with hnil | ⟨L, b, hL⟩
  · subst hnil
    simp
  · rw [List.concat_eq_append] at hL
    subst hL
    have hchain := h.no_adjacent
    have hhead := h.head_ne
    simp only at hchain hhead
    by_cases hb : b = j
    · subst hb
      have hcond : (L ++ [b]).length > 0 ∧ (L ++ [b]).getLast? = some b :=
        ⟨by simp, List.getLast?_concat _⟩
      rw [if_pos hcond, List.dropLast_concat]
      refine ⟨?_, ?_, noAdjacent_of_chain b L hchain.left_of_append⟩
      · cases L with
        | nil => simp
        | cons a L => simpa using hhead
      · intro hh
        have := (List.chain'_append.1 hchain).2.2 b (by simpa using hh) b (by simp)
        exact this ⟨rfl, rfl⟩
    · have hcond : ¬ ((L ++ [b]).length > 0 ∧ (L ++ [b]).getLast? = some j) := by
        rintro ⟨_, hh⟩
        rw [List.getLast?_concat] at hh
        exact hb (Option.some.inj hh)
      rw [if_neg hcond]
      refine ⟨hhead, ?_, noAdjacent_of_chain j _ hchain⟩
      rw [List.getLast?_concat]
      exact fun hh => hb (Option.some.inj hh)

theorem joinStep_empty_of_not_alnum (U : Unicode) (j : Rune) (params : HyphenMinusParams)
    (last r : Rune) (hL : U.IsLetter r = false) (hN : U.IsNumber r = false) :
    joinStep U j params ([], last) r = ([], last) := by
  unfold joinStep
  simp only [hL, hN, Bool.false_eq_true, if_false, List.length_nil, if_true]
  split <;> rfl

theorem foldl_joinStep_empty (U : Unicode) (j : Rune) (params : HyphenMinusParams) :
    ∀ (s : List Rune) (last : Rune),
      (∀ r ∈ s, U.IsLetter r = false ∧ U.IsNumber r = false) →
      s.foldl (joinStep U j params) ([], last) = ([], last) := by
  intro s
  induction s with
  | nil => intro last _; rfl
  | cons r s ih =>
    intro last h
    have hr := h r (List.mem_cons_self r s)
    rw [List.foldl_cons, joinStep_empty_of_not_alnum U j params last r hr.1 hr.2]
    exact ih last (fun x hx => h x (List.mem_cons_of_mem r hx))

theorem goToLower_ne_of_letter (r : Int) (h : goIsLetter r = true) :
    goToLower r ≠ 95 ∧ goToLower r ≠ 45 := by
  simp only [goIsLetter, goIsUpper, goIsLower, Bool.or_eq_true, decide_eq_true_eq] at h
  simp only [goToLower]
  constructor <;> split_ifs <;> omega

theorem goToUpper_ne_of_letter (r : Int) (h : goIsLetter r = true) :
    goToUpper r ≠ 95 ∧ goToUpper r ≠ 45 := by
  simp only [goIsLetter, goIsUpper, goIsLower, Bool.or_eq_true, decide_eq_true_eq] at h
  simp only [goToUpper]
  constructor <;> split_ifs <;> omega

theorem goTables_joinerFacts_underscore : JoinerFacts goTables 95 :=
  ⟨by decide, by decide, by decide, fun r h => (goToLower_ne_of_letter r h).1,
    fun r h => (goToUpper_ne_of_letter r h).1⟩

theorem goTables_joinerFacts_hyphen : JoinerFacts goTables 45 :=
  ⟨by decide, by decide, by decide, fun r h => (goToLower_ne_of_letter r h).2,
    fun r h => (goToUpper_ne_of_letter r h).2⟩

theorem goIsSpace_not_alnum (r : Int) (h : goIsSpace r = true) :
    goIsLetter r = false ∧ goIsNumber r = false := by
  simp only [goIsSpace, decide_eq_true_eq] at h
  simp only [goIsLetter, goIsUpper, goIsLower, goIsNumber, Bool.or_eq_false_iff,
    decide_eq_false_iff_not]
  omega

theorem goTables_space_not_alnum (r : Rune) (h : goTables.IsSpace r = true) :
    goTables.IsLetter r = false ∧ goTables.IsNumber r = false :=
  goIsSpace_not_alnum r h

/-- C8: given the facts `JoinerFacts` about the `unicode` tables for `'_'` and `'-'`, and
that no whitespace codepoint is a letter or a number, for every input `s` and every list
of options the output of `Underscore` does not begin with `'_'`, does not end with `'_'`
and has no two adjacent `'_'`; the same holds of `Dasherize` and `'-'`; and an input made
only of separators (`'_'`, `'-'`, whitespace) yields the empty sequence. -/
theorem joiner_placement (U : Unicode) (h95 : JoinerFacts U 95) (h45 : JoinerFacts U 45)
    (hsp : ∀ r : Rune, U.IsSpace r = true → U.IsLetter r = false ∧ U.IsNumber r = false)
    (s : List Rune) (options : List HyphenMinusOption) :
    ((Underscore U s options).head? ≠ some 95 ∧
      (Underscore U s options).getLast? ≠ some 95 ∧
      ∀ i : Nat, ¬ ((Underscore U s options)[i]? = some 95 ∧
        (Underscore U s options)[i + 1]? = some 95)) ∧
    ((Dasherize U s options).head? ≠ some 45 ∧
      (Dasherize U s options).getLast? ≠ some 45 ∧
      ∀ i : Nat, ¬ ((Dasherize U s options)[i]? = some 45 ∧
        (Dasherize U s options)[i + 1]? = some 45)) ∧
    ((∀ r ∈ s, r = 95 ∨ r = 45 ∨ U.IsSpace r = true) →
      Underscore U s options = [] ∧ Dasherize U s options = []) := by
  refine ⟨?_, ?_, ?_⟩
  · rw [Underscore_eq]
    exact stripJoiner_of_inv 95 _ _
      (JoinInv.foldl U 95 h95 (applyOptions options) s ([], 0) (JoinInv.init 95 (by decide)))
  · rw [Dasherize_eq]
    exact stripJoiner_of_inv 45 _ _
      (JoinInv.foldl U 45 h45 (applyOptions options) s ([], 0) (JoinInv.init 45 (by decide)))
  · intro hsep
    have hna : ∀ r ∈ s, U.IsLetter r = false ∧ U.IsNumber r = false := by
      intro r hr
      rcases hsep r hr with h | h | h
      · subst h; exact ⟨h95.not_letter, h95.not_number⟩
      · subst h; exact ⟨h45.not_letter, h45.not_number⟩
      · exact hsp r h
    rw [Underscore_eq, Dasherize_eq, foldl_joinStep_empty U 95 _ s 0 hna,
      foldl_joinStep_empty U 45 _ s 0 hna]
    simp [stripJoiner]

/-- The facts assumed about the `unicode` tables hold of `goTables`, and the placement
of the joiner at the input `aB  c-` with the option `Screaming`. -/
theorem joiner_placement_witness :
    (JoinerFacts goTables 95 ∧ JoinerFacts goTables 45 ∧
      (∀ r : Rune, goTables.IsSpace r = true →
        goTables.IsLetter r = false ∧ goTables.IsNumber r = false)) ∧
    (((Underscore goTables (runesOf "aB  c-") [Screaming]).head? ≠ some 95 ∧
      (Underscore goTables (runesOf "aB  c-") [Screaming]).getLast? ≠ some 95 ∧
      ∀ i : Nat, ¬ ((Underscore goTables (runesOf "aB  c-") [Screaming])[i]? = some 95 ∧
        (Underscore goTables (runesOf "aB  c-") [Screaming])[i + 1]? = some 95)) ∧
    ((Dasherize goTables (runesOf "aB  c-") [Screaming]).head? ≠ some 45 ∧
      (Dasherize goTables (runesOf "aB  c-") [Screaming]).getLast? ≠ some 45 ∧
      ∀ i : Nat, ¬ ((Dasherize goTables (runesOf "aB  c-") [Screaming])[i]? = some 45 ∧
        (Dasherize goTables (runesOf "aB  c-") [Screaming])[i + 1]? = some 45)) ∧
    ((∀ r ∈ runesOf "aB  c-", r = 95 ∨ r = 45 ∨ goTables.IsSpace r = true) →
      Underscore goTables (runesOf "aB  c-") [Screaming] = [] ∧
        Dasherize goTables (runesOf "aB  c-") [Screaming] = [])) :=
  ⟨⟨goTables_joinerFacts_underscore, goTables_joinerFacts_hyphen, goTables_space_not_alnum⟩,
    joiner_placement goTables goTables_joinerFacts_underscore goTables_joinerFacts_hyphen
      goTables_space_not_alnum (runesOf "aB  c-") [Screaming]⟩


/-! ## Underscore: the case of the letters -/

/-- One iteration appends to `sb` at most one joiner, followed by `emitted`. -/
theorem joinStep_fst (U : Unicode) (j : Rune) (params : HyphenMinusParams)
    (sb : List Rune) (last r : Rune) :
    ∃ js : List Rune, (js = [] ∨ js = [j]) ∧
      (joinStep U j params (sb, last) r).1 = sb ++ js ++ emitted U params r := by
  unfold joinStep emitted
  cases hL : U.IsLetter r
  · simp only [Bool.false_eq_true, if_false]
    cases hN : U.IsNumber r
    · simp only [Bool.false_eq_true, if_false, List.append_nil]
      by_cases hsep : (r = 95 || r = 45 || U.IsSpace r) = true
      · rw [if_pos hsep]
        by_cases hlen : sb.length = 0
        · rw [if_pos hlen]; exact ⟨[], Or.inl rfl, by simp⟩
        · rw [if_neg hlen]
          by_cases hlj : last = j
          · rw [if_pos hlj]; exact ⟨[], Or.inl rfl, by simp⟩
          · rw [if_neg hlj]; exact ⟨[j], Or.inr rfl, rfl⟩
      · rw [if_neg hsep]; exact ⟨[], Or.inl rfl, by simp⟩
    · simp only [if_true]
      exact ⟨[], Or.inl rfl, by simp⟩
  · simp only [if_true]
    cases hU : U.IsUpper r
    · simp only [Bool.false_eq_true, if_false]
      refine ⟨[], Or.inl rfl, ?_⟩
      cases hS : params.Screaming
      · cases hP : params.PreserveCase <;> simp
      · simp
    · simp only [if_true]
      cases hp : (params.PreserveCase || params.Screaming)
      · cases hlast : (U.IsLetter last && U.IsLower last)
        · exact ⟨[], Or.inl rfl, by simp⟩
        · exact ⟨[j], Or.inr rfl, by simp⟩
      · cases hlast : (U.IsLetter last && U.IsLower last)
        · exact ⟨[], Or.inl rfl, by simp⟩
        · exact ⟨[j], Or.inr rfl, by simp⟩

/-- Apart from joiners, the loop appends `emitted` of each input codepoint, in order. -/
theorem filter_foldl_joinStep (U : Unicode) (j : Rune) (params : HyphenMinusParams)
    (p : Rune → Bool) (hp : p j = false) :
    ∀ (s : List Rune) (st : List Rune × Rune),
      (s.foldl (joinStep U j params) st).1.filter p =
        st.1.filter p ++ (s.flatMap (emitted U params)).filter p := by
  intro s
  induction s with
  | nil => intro st; simp
  | cons r s ih =>
    intro st
    obtain ⟨sb, last⟩ := st
    rw [List.foldl_cons, ih]
    obtain ⟨js, hjs, hstep⟩ := joinStep_fst U j params sb last r
    rw [hstep]
    have hfj : js.filter p = [] := by
      rcases hjs with h | h
      · subst h; rfl
      · subst h; simp [hp]
    simp only [List.filter_append, hfj, List.append_nil, List.nil_append, List.flatMap_cons,
      List.append_assoc]

theorem filter_stripJoiner (j : Rune) (p : Rune → Bool) (hp : p j = false)
    (sb : List Rune) : (stripJoiner j sb).filter p = sb.filter p := by
  unfold stripJoiner
  rw [← List.getLast?_eq_getElem?, ← List.dropLast_eq_take]
  rcases List.eq_nil_or_concat sb with hnil | ⟨L, b, hL⟩
  · subst hnil; simp
  · rw [List.concat_eq_append] at hL
    subst hL
    by_cases hb : b = j
    · subst hb
      have hcond : (L ++ [b]).length > 0 ∧ (L ++ [b]).getLast? = some b :=
        ⟨by simp, List.getLast?_concat _⟩
      rw [if_pos hcond, List.dropLast_concat]
      simp [hp]
    · have hcond : ¬ ((L ++ [b]).length > 0 ∧ (L ++ [b]).getLast? = some j) := by
        rintro ⟨_, hh⟩
        rw [List.getLast?_concat] at hh
        exact hb (Option.some.inj hh)
      rw [if_neg hcond]

/-- Apart from joiners, the output of `Underscore` is `emitted` of each input codepoint,
in order. -/
theorem filter_Underscore (U : Unicode) (p : Rune → Bool) (hp : p 95 = false)
    (s : List Rune) (options : List HyphenMinusOption) :
    (Underscore U s options).filter p =
      (s.flatMap (emitted U (applyOptions options))).filter p := by
  rw [Underscore_eq, filter_stripJoiner 95 p hp, filter_foldl_joinStep U 95 _ p hp]
  simp

/-- Every codepoint of the output of `Underscore` is the joiner or was emitted for some
input codepoint. -/
theorem mem_Underscore (U : Unicode) (s : List Rune) (options : List HyphenMinusOption)
    (x : Rune) (hx : x ∈ Underscore U s options) :
    x = 95 ∨ ∃ r ∈ s, x ∈ emitted U (applyOptions options) r := by
  by_cases h : x = 95
  · exact Or.inl h
  · right
    have hmem : x ∈ (Underscore U s options).filter (fun y => decide (y ≠ 95)) := by
      rw [List.mem_filter]; exact ⟨hx, by simpa using h⟩
    rw [filter_Underscore U _ (by simp)] at hmem
    rw [List.mem_filter, List.mem_flatMap] at hmem
    exact hmem.1

theorem filter_flatMap_eq_filter (f : Rune → List Rune) (p q : Rune → Bool)
    (h : ∀ r : Rune, (f r).filter p = if q r = true then [r] else []) :
    ∀ s : List Rune, (s.flatMap f).filter p = s.filter q := by
  intro s
  induction s with
  | nil => rfl
  | cons r s ih =>
    rw [List.flatMap_cons, List.filter_append, ih, h r, List.filter_cons]
    cases q r <;> simp

theorem emitted_default (U : Unicode) (params : HyphenMinusParams)
    (hP : params.PreserveCase = false) (hS : params.Screaming = false) (r x : Rune)
    (hx : x ∈ emitted U params r) :
    (U.IsLetter r = true ∧ x = U.ToLower r) ∨ (U.IsLetter r = false ∧ x = r) := by
  unfold emitted at hx
  rw [hP, hS] at hx
  cases hL : U.IsLetter r
  · right
    rw [hL] at hx
    cases hN : U.IsNumber r
    · rw [hN] at hx; simp at hx
    · rw [hN] at hx; simp at hx; exact ⟨rfl, hx⟩
  · left
    rw [hL] at hx
    cases hU : U.IsUpper r <;> rw [hU] at hx <;> simp at hx <;> exact ⟨rfl, hx⟩

theorem emitted_screaming (U : Unicode) (params : HyphenMinusParams)
    (hS : params.Screaming = true) (r x : Rune) (hx : x ∈ emitted U params r) :
    (U.IsLetter r = true ∧ U.IsUpper r = true ∧ x = r) ∨
    (U.IsLetter r = true ∧ U.IsUpper r = false ∧ x = U.ToUpper r) ∨
    (U.IsLetter r = false ∧ x = r) := by
  unfold emitted at hx
  rw [hS] at hx
  cases hL : U.IsLetter r
  · right; right
    rw [hL] at hx
    cases hN : U.IsNumber r
    · rw [hN] at hx; simp at hx
    · rw [hN] at hx; simp at hx; exact ⟨rfl, hx⟩
  · rw [hL] at hx
    cases hU : U.IsUpper r
    · right; left
      rw [hU] at hx; simp at hx; exact ⟨rfl, rfl, hx⟩
    · left
      rw [hU] at hx; simp at hx; exact ⟨rfl, rfl, hx⟩

/-- C9 (as stated, it fails): with the default policy `Underscore` turns U+03D2, an
uppercase letter that `ToLower` leaves alone, into itself, so the output contains an
uppercase letter; with `Screaming` it turns U+00DF, a lowercase letter that `ToUpper`
leaves alone, into itself, so the output contains a lowercase letter. -/
theorem Underscore_case_counterexample :
    (Underscore goTables [978] [] = [978] ∧
      goTables.IsLetter 978 = true ∧ goTables.IsUpper 978 = true) ∧
    (Underscore goTables [223] [Screaming] = [223] ∧
      goTables.IsLetter 223 = true ∧ goTables.IsLower 223 = true) := by
  decide

/-- C9 (amended): given that `'_'` is not a letter and that no codepoint is both upper
and lower case: if `ToLower(r)` is not an uppercase letter for any letter `r` of `s`, then
`Underscore(s)` with neither flag set contains no uppercase letter; if `ToUpper(r)` is
not a lowercase letter for any letter `r` of `s` that is not uppercase, then
`Underscore(s)` with `Screaming` set contains no lowercase letter. -/
theorem Underscore_case (U : Unicode) (hj : U.IsLetter 95 = false)
    (hul : ∀ r : Rune, U.IsUpper r = true → U.IsLower r = false)
    (s : List Rune) (options : List HyphenMinusOption) :
    ((applyOptions options).PreserveCase = false → (applyOptions options).Screaming = false →
      (∀ r ∈ s, U.IsLetter r = true →
        ¬ (U.IsLetter (U.ToLower r) = true ∧ U.IsUpper (U.ToLower r) = true)) →
      ∀ x ∈ Underscore U s options, ¬ (U.IsLetter x = true ∧ U.IsUpper x = true)) ∧
    ((applyOptions options).Screaming = true →
      (∀ r ∈ s, U.IsLetter r = true → U.IsUpper r = false →
        ¬ (U.IsLetter (U.ToUpper r) = true ∧ U.IsLower (U.ToUpper r) = true)) →
      ∀ x ∈ Underscore U s options, ¬ (U.IsLetter x = true ∧ U.IsLower x = true)) := by
  constructor
  · intro hP hS hs x hx
    rcases mem_Underscore U s options x hx with h | ⟨r, hr, hxr⟩
    · subst h; simp [hj]
    · rcases emitted_default U _ hP hS r x hxr with ⟨hL, h⟩ | ⟨hL, h⟩
      · subst h; exact hs r hr hL
      · subst h; simp [hL]
  · intro hS hs x hx
    rcases mem_Underscore U s options x hx with h | ⟨r, hr, hxr⟩
    · subst h; simp [hj]
    · rcases emitted_screaming U _ hS r x hxr with ⟨_, hU, h⟩ | ⟨hL, hU, h⟩ | ⟨hL, h⟩
      · subst h; simp [hul x hU]
      · subst h; exact hs r hr hL hU
      · subst h; simp [hL]

theorem goIsUpper_not_lower (r : Int) (h : goIsUpper r = true) : goIsLower r = false := by
  simp only [goIsUpper, decide_eq_true_eq] at h
  simp only [goIsLower, decide_eq_false_iff_not]
  omega

/-- The facts assumed about the `unicode` tables hold of `goTables`, and the case of the
letters at the ASCII input `fooBar baz`, without options and with `Screaming`. -/
theorem Underscore_case_witness :
    (goTables.IsLetter 95 = false ∧
      ∀ r : Rune, goTables.IsUpper r = true → goTables.IsLower r = false) ∧
    (∀ x ∈ Underscore goTables (runesOf "fooBar baz") [],
      ¬ (goTables.IsLetter x = true ∧ goTables.IsUpper x = true)) ∧
    (∀ x ∈ Underscore goTables (runesOf "fooBar baz") [Screaming],
      ¬ (goTables.IsLetter x = true ∧ goTables.IsLower x = true)) :=
  ⟨⟨by decide, goIsUpper_not_lower⟩,
    (Underscore_case goTables (by decide) goIsUpper_not_lower (runesOf "fooBar baz") []).1
      rfl rfl (by decide),
    (Underscore_case goTables (by decide) goIsUpper_not_lower (runesOf "fooBar baz")
      [Screaming]).2 rfl (by decide)⟩


/-! ## Underscore: `PreserveCase` -/

theorem filter_emitted_preserve (U : Unicode) (hjL : U.IsLetter 95 = false)
    (hjN : U.IsNumber 95 = false) (params : HyphenMinusParams)
    (hP : params.PreserveCase = true) (hS : params.Screaming = false) (r : Rune) :
    (emitted U params r).filter (fun x => decide (x ≠ 95)) =
      if (U.IsLetter r || U.IsNumber r) = true then [r] else [] := by
  unfold emitted
  rw [hP, hS]
  cases hL : U.IsLetter r
  · cases hN : U.IsNumber r
    · simp
    · have hr : r ≠ 95 := by
        intro h; rw [h, hjN] at hN; exact Bool.false_ne_true hN
      simp [hr]
  · have hr : r ≠ 95 := by
      intro h; rw [h, hjL] at hL; exact Bool.false_ne_true hL
    cases hU : U.IsUpper r <;> simp [hr]

theorem filter_emitted_number (U : Unicode)
    (hdis : ∀ r : Rune, U.IsNumber r = true → U.IsLetter r = false)
    (hcase : ∀ r : Rune, U.IsLetter r = true →
      U.IsNumber (U.ToLower r) = false ∧ U.IsNumber (U.ToUpper r) = false)
    (params : HyphenMinusParams) (r : Rune) :
    (emitted U params r).filter U.IsNumber = if U.IsNumber r = true then [r] else [] := by
  unfold emitted
  cases hL : U.IsLetter r
  · cases hN : U.IsNumber r <;> simp [hN]
  · have hN : U.IsNumber r = false := by
      cases hN : U.IsNumber r
      · rfl
      · rw [hdis r hN] at hL; exact absurd hL Bool.false_ne_true
    have hlo := (hcase r hL).1
    have hup := (hcase r hL).2
    cases hU : U.IsUpper r <;> cases hP : params.PreserveCase <;>
      cases hS : params.Screaming <;> simp [hN, hlo, hup]

/-- C10: given that `'_'` is neither a letter nor a number, with `PreserveCase` set and
`Screaming` not set, deleting `'_'` from `Underscore(s)` gives exactly the letters and
digits of `s`, in order and unchanged; and, given that no number is a letter and that
`ToLower` and `ToUpper` map no letter to a number, under every list of options the
digits of `Underscore(s)` are exactly the digits of `s`, in order and unchanged. -/
theorem Underscore_preserveCase (U : Unicode) (hjL : U.IsLetter 95 = false)
    (hjN : U.IsNumber 95 = false)
    (hdis : ∀ r : Rune, U.IsNumber r = true → U.IsLetter r = false)
    (hcase : ∀ r : Rune, U.IsLetter r = true →
      U.IsNumber (U.ToLower r) = false ∧ U.IsNumber (U.ToUpper r) = false)
    (s : List Rune) (options : List HyphenMinusOption)
    (hP : (applyOptions options).PreserveCase = true)
    (hS : (applyOptions options).Screaming = false) :
    (Underscore U s options).filter (fun x => decide (x ≠ 95)) =
      s.filter (fun r => U.IsLetter r || U.IsNumber r) ∧
    ∀ options2 : List HyphenMinusOption,
      (Underscore U s options2).filter U.IsNumber = s.filter U.IsNumber := by
  constructor
  · rw [filter_Underscore U _ (by simp)]
    exact filter_flatMap_eq_filter _ _ _
      (filter_emitted_preserve U hjL hjN _ hP hS) s
  · intro options2
    rw [filter_Underscore U _ hjN]
    exact filter_flatMap_eq_filter _ _ _ (filter_emitted_number U hdis hcase _) s

theorem goIsNumber_not_letter (r : Int) (h : goIsNumber r = true) : goIsLetter r = false := by
  simp only [goIsNumber, decide_eq_true_eq] at h
  simp only [goIsLetter, goIsUpper, goIsLower, Bool.or_eq_false_iff, decide_eq_false_iff_not]
  omega

theorem goCase_not_number (r : Int) (h : goIsLetter r = true) :
    goIsNumber (goToLower r) = false ∧ goIsNumber (goToUpper r) = false := by
  simp only [goIsLetter, goIsUpper, goIsLower, Bool.or_eq_true, decide_eq_true_eq] at h
  simp only [goIsNumber, goToLower, goToUpper, decide_eq_false_iff_not]
  constructor <;> split_ifs <;> omega

/-- The facts assumed about the `unicode` tables hold of `goTables`, and the letters and
digits kept at the input `Hello World42` with the option that sets `PreserveCase`. -/
theorem Underscore_preserveCase_witness :
    (goTables.IsLetter 95 = false ∧ goTables.IsNumber 95 = false ∧
      (∀ r : Rune, goTables.IsNumber r = true → goTables.IsLetter r = false) ∧
      (∀ r : Rune, goTables.IsLetter r = true →
        goTables.IsNumber (goTables.ToLower r) = false ∧
          goTables.IsNumber (goTables.ToUpper r) = false) ∧
      (applyOptions [setPreserveCase]).PreserveCase = true ∧
      (applyOptions [setPreserveCase]).Screaming = false) ∧
    ((Underscore goTables (runesOf "Hello World42") [setPreserveCase]).filter
        (fun x => decide (x ≠ 95)) =
      (runesOf "Hello World42").filter (fun r => goTables.IsLetter r || goTables.IsNumber r) ∧
    ∀ options2 : List HyphenMinusOption,
      (Underscore goTables (runesOf "Hello World42") options2).filter goTables.IsNumber =
        (runesOf "Hello World42").filter goTables.IsNumber) :=
  ⟨⟨by decide, by decide, goIsNumber_not_letter, goCase_not_number, rfl, rfl⟩,
    Underscore_preserveCase goTables (by decide) (by decide) goIsNumber_not_letter
      goCase_not_number (runesOf "Hello World42") [setPreserveCase] rfl rfl⟩


/-! ## Prefix and suffix tests -/

theorem HasPrefix_spec (s p : List Rune) :
    ∃ b : Bool, HasPrefix s p = some b ∧ (b = true ↔ ∃ t : List Rune, s = p ++ t) := by
  unfold HasPrefix slice
  have hiff : (∃ t : List Rune, s = p ++ t) ↔ p = s.take p.length := by
    rw [← List.prefix_iff_eq_take]
    exact ⟨fun ⟨t, h⟩ => ⟨t, h.symm⟩, fun ⟨t, h⟩ => ⟨t, h.symm⟩⟩
  by_cases hlt : s.length < p.length
  · have hno : ¬ ∃ t : List Rune, s = p ++ t := by
      rintro ⟨t, h⟩
      have := congrArg List.length h
      simp only [List.length_append] at this
      omega
    exact ⟨false, by simp [hlt], by simp [hno]⟩
  · have hle : p.length ≤ s.length := by omega
    refine ⟨decide (s.take p.length = p), by simp [hlt, hle], ?_⟩
    rw [decide_eq_true_eq, hiff]
    exact eq_comm

theorem HasSuffix_spec (s p : List Rune) :
    ∃ b : Bool, HasSuffix s p = some b ∧ (b = true ↔ ∃ t : List Rune, s = t ++ p) := by
  unfold HasSuffix slice
  have hiff : (∃ t : List Rune, s = t ++ p) ↔ p = s.drop (s.length - p.length) := by
    rw [← List.suffix_iff_eq_drop]
    exact ⟨fun ⟨t, h⟩ => ⟨t, h.symm⟩, fun ⟨t, h⟩ => ⟨t, h.symm⟩⟩
  by_cases hlt : s.length < p.length
  · have hno : ¬ ∃ t : List Rune, s = t ++ p := by
      rintro ⟨t, h⟩
      have := congrArg List.length h
      simp only [List.length_append] at this
      omega
    exact ⟨false, by simp [hlt], by simp [hno]⟩
  · have hle : s.length - p.length ≤ s.length := by omega
    refine ⟨decide (s.drop (s.length - p.length) = p), by simp [hlt], ?_⟩
    rw [decide_eq_true_eq, hiff]
    exact eq_comm

/-- `HasPrefixFold` never faults. -/
theorem HasPrefixFold_returns (U : Unicode) (s p : List Rune) :
    ∃ b : Bool, HasPrefixFold U s p = some b := by
  unfold HasPrefixFold slice
  by_cases h0 : p.length = 0
  · exact ⟨true, by simp [h0]⟩
  · by_cases hlt : s.length < p.length
    · exact ⟨false, by simp [h0, hlt]⟩
    · have hle : p.length ≤ s.length := by omega
      obtain ⟨b, hb, _⟩ := EqualFold_spec U (s.take p.length) p
      exact ⟨b, by simp [h0, hlt, hle, hb]⟩

/-- `HasSuffixFold` never faults. -/
theorem HasSuffixFold_returns (U : Unicode) (s p : List Rune) :
    ∃ b : Bool, HasSuffixFold U s p = some b := by
  unfold HasSuffixFold slice
  by_cases h0 : p.length = 0
  · exact ⟨true, by simp [h0]⟩
  · by_cases hlt : s.length < p.length
    · exact ⟨false, by simp [h0, hlt]⟩
    · have hle : s.length - p.length ≤ s.length := by omega
      obtain ⟨b, hb, _⟩ := EqualFold_spec U (s.drop (s.length - p.length)) p
      exact ⟨b, by simp [h0, hlt, hb]⟩

/-- C18: `HasPrefix(s, p)` returns (it never faults) and is true if and only if
`s = p ++ t` for some `t`; `HasSuffix(s, p)` returns and is true if and only if
`s = t ++ p` for some `t`; `HasPrefix`, `HasSuffix`, `HasPrefixFold` and `HasSuffixFold`
are all true for an empty `p` and all false when `p` is longer than `s`. -/
theorem HasPrefix_HasSuffix_characterisation (U : Unicode) (s p : List Rune) :
    ((HasPrefix s p = some true ∨ HasPrefix s p = some false) ∧
      (HasPrefix s p = some true ↔ ∃ t : List Rune, s = p ++ t)) ∧
    ((HasSuffix s p = some true ∨ HasSuffix s p = some false) ∧
      (HasSuffix s p = some true ↔ ∃ t : List Rune, s = t ++ p)) ∧
    (p = [] → HasPrefix s p = some true ∧ HasSuffix s p = some true ∧
      HasPrefixFold U s p = some true ∧ HasSuffixFold U s p = some true) ∧
    (s.length < p.length → HasPrefix s p = some false ∧ HasSuffix s p = some false ∧
      HasPrefixFold U s p = some false ∧ HasSuffixFold U s p = some false) := by
  obtain ⟨b1, hb1, hb1t⟩ := HasPrefix_spec s p
  obtain ⟨b2, hb2, hb2t⟩ := HasSuffix_spec s p
  refine ⟨⟨?_, ?_⟩, ⟨?_, ?_⟩, ?_, ?_⟩
  · rw [hb1]; cases b1 <;> simp
  · rw [hb1, ← hb1t]; simp
  · rw [hb2]; cases b2 <;> simp
  · rw [hb2, ← hb2t]; simp
  · intro hp
    subst hp
    refine ⟨?_, ?_, by simp [HasPrefixFold], by simp [HasSuffixFold]⟩
    · rw [hb1, Option.some.injEq, hb1t]; exact ⟨s, rfl⟩
    · rw [hb2, Option.some.injEq, hb2t]; exact ⟨s, by simp⟩
  · intro hlt
    have h0 : p.length ≠ 0 := by omega
    refine ⟨by simp [HasPrefix, hlt], by simp [HasSuffix, hlt],
      by simp [HasPrefixFold, h0, hlt], by simp [HasSuffixFold, h0, hlt]⟩


/-! ## Single-codepoint search -/

/-- On a one-element needle the outer loop of `Index` with `k` iterations left returns
what the loop of `IndexRune` returns on the part of `s` not yet visited. -/
theorem Index_loop_singleton (s : List Rune) (r : Rune) :
    ∀ k : Nat, k ≤ s.length →
      Index.loop s [r] s.length 1 k =
        some (IndexRune.loop r (s.drop (s.length - k)) (s.length - k)) := by
  intro k
  induction k with
  | zero => intro _; simp [Index.loop, IndexRune.loop]
  | succ k ih =>
    intro hk
    have hlt : s.length - (k + 1) < s.length := by omega
    have hfit : ¬ s.length - (k + 1) + 1 > s.length := by omega
    have hstep : s.length - (k + 1) + 1 = s.length - k := by omega
    rw [Index.loop]
    simp only [hfit, if_false]
    rw [Index.inner, Nat.add_zero, index_of_lt s _ hlt, List.drop_eq_getElem_cons hlt,
      IndexRune.loop, hstep]
    by_cases hx : s[s.length - (k + 1)] = r
    · simp [hx]
    · simp only [hx, if_false]
      exact ih (by omega)

/-- On a one-element needle the outer loop of `IndexFold` with `k` iterations left
returns what the loop of `IndexRuneFold` returns on the part of `s` not yet visited. -/
theorem IndexFold_loop_singleton (U : Unicode) (s : List Rune) (r : Rune) :
    ∀ k : Nat, k ≤ s.length →
      IndexFold.loop U s [r] s.length 1 k =
        some (IndexRuneFold.loop U r (s.drop (s.length - k)) (s.length - k)) := by
  intro k
  induction k with
  | zero => intro _; simp [IndexFold.loop, IndexRuneFold.loop]
  | succ k ih =>
    intro hk
    have hlt : s.length - (k + 1) < s.length := by omega
    have hfit : ¬ s.length - (k + 1) + 1 > s.length := by omega
    have hstep : s.length - (k + 1) + 1 = s.length - k := by omega
    rw [IndexFold.loop]
    simp only [hfit, if_false]
    rw [IndexFold.inner, Nat.add_zero, index_of_lt s _ hlt, List.drop_eq_getElem_cons hlt,
      IndexRuneFold.loop, hstep]
    by_cases hx : s[s.length - (k + 1)] = r
    · simp [hx]
    · simp only [hx, if_false]
      cases hf : (U.IsLetter s[s.length - (k + 1)] &&
          equalFoldRune U s[s.length - (k + 1)] r)
      · simp only [Bool.false_eq_true, if_false]
        exact ih (by omega)
      · simp

/-- C19: the single-codepoint searches agree with the sequence searches on a one-element
needle: `Index(s, [r])` returns `IndexRune(s, r)` and `IndexFold(s, [r])` returns
`IndexRuneFold(s, r)`, for every sequence `s` and codepoint `r`. -/
theorem IndexRune_agrees (U : Unicode) (s : List Rune) (r : Rune) :
    Index s [r] = some (IndexRune s r) ∧
    IndexFold U s [r] = some (IndexRuneFold U s r) := by
  constructor
  · unfold Index IndexRune
    by_cases hs : s.length < 1
    · have : s = [] := List.length_eq_zero.1 (by omega)
      subst this
      simp [IndexRune.loop]
    · have := Index_loop_singleton s r s.length (le_refl _)
      simp only [Nat.sub_self, List.drop_zero] at this
      simp only [List.length_singleton, Nat.one_ne_zero, if_false, hs]
      simpa using this
  · unfold IndexFold IndexRuneFold
    by_cases hs : s.length = 0
    · have : s = [] := List.length_eq_zero.1 hs
      subst this
      simp [IndexFold.loop]
    · have := IndexFold_loop_singleton U s r s.length (le_refl _)
      simp only [Nat.sub_self, List.drop_zero] at this
      simp only [List.length_singleton, Nat.one_ne_zero, if_false, hs]
      simpa using this


/-! ## No operation faults -/

/-- C20: in the embedding a fault is exactly an index read or a slice out of range
(`index s k` is `none` iff `len(s) <= k`; `slice s a b` is `none` iff not
`a <= b <= len(s)`), and no search or trim operation faults: for every `s`, needle `r`
and cutset `c`, `Index`, `IndexFold`, `HasPrefix`, `HasSuffix`, `HasPrefixFold`,
`HasSuffixFold`, `TrimLeft` and `TrimRight` return a value; a non-empty needle longer
than `s` (in particular any non-empty needle on an empty `s`) gives `-1`, respectively
`false`. -/
theorem search_and_trim_never_fault (U : Unicode) (s r c : List Rune) :
    ((∀ k : Nat, index s k = none ↔ s.length ≤ k) ∧
      (∀ a b : Nat, slice s a b = none ↔ ¬ (a ≤ b ∧ b ≤ s.length))) ∧
    ((∃ v : Int, Index s r = some v) ∧ (∃ v : Int, IndexFold U s r = some v)) ∧
    ((∃ b : Bool, HasPrefix s r = some b) ∧ (∃ b : Bool, HasSuffix s r = some b) ∧
      (∃ b : Bool, HasPrefixFold U s r = some b) ∧
      (∃ b : Bool, HasSuffixFold U s r = some b)) ∧
    ((∃ t : List Rune, TrimLeft s c = some t) ∧ (∃ t : List Rune, TrimRight s c = some t)) ∧
    (r ≠ [] → s.length < r.length →
      Index s r = some (-1) ∧ IndexFold U s r = some (-1) ∧
      HasPrefix s r = some false ∧ HasSuffix s r = some false ∧
      HasPrefixFold U s r = some false ∧ HasSuffixFold U s r = some false) := by
  refine ⟨⟨?_, ?_⟩, ⟨?_, ?_⟩, ⟨?_, ?_, HasPrefixFold_returns U s r,
    HasSuffixFold_returns U s r⟩, ⟨⟨_, TrimLeft_eq s c⟩, ⟨_, TrimRight_eq s c⟩⟩, ?_⟩
  · intro k
    simp [index]
  · intro a b
    unfold slice
    by_cases h : a ≤ b ∧ b ≤ s.length
    · simp [h]
    · simp [h]
  · rcases Index_spec s r with ⟨h, _⟩ | ⟨i, h, _⟩
    · exact ⟨_, h⟩
    · exact ⟨_, h⟩
  · rcases IndexFold_spec U s r with ⟨h, _⟩ | ⟨i, h, _⟩
    · exact ⟨_, h⟩
    · exact ⟨_, h⟩
  · obtain ⟨b, hb, _⟩ := HasPrefix_spec s r
    exact ⟨b, hb⟩
  · obtain ⟨b, hb, _⟩ := HasSuffix_spec s r
    exact ⟨b, hb⟩
  · intro hr hlt
    have h0 : r.length ≠ 0 := by omega
    refine ⟨by simp [Index, h0, hlt], ?_, by simp [HasPrefix, hlt], by simp [HasSuffix, hlt],
      by simp [HasPrefixFold, h0, hlt], by simp [HasSuffixFold, h0, hlt]⟩
    rcases IndexFold_spec U s r with ⟨h, _⟩ | ⟨i, _, h, _⟩
    · exact h
    · rw [sliceFold_eq_true_iff] at h
      omega


/-! ## CamelCase and PascalCase -/

theorem CamelCase_step_fst (U : Unicode) (i : Nat) (sb : List Rune) (last r : Rune) :
    CamelCase.step U i (sb, last) r =
      (sb ++ (CamelCase.step U i ([], last) r).1, (CamelCase.step U i ([], last) r).2) := by
  unfold CamelCase.step
  simp only [List.nil_append]
  split_ifs <;> simp

/-- The loop of `CamelCase` only appends to `sb`, and what it appends and the final
`last` do not depend on `sb`. -/
theorem CamelCase_loop_fst (U : Unicode) :
    ∀ (rs : List Rune) (i : Nat) (sb : List Rune) (last : Rune),
      CamelCase.loop U rs i (sb, last) =
        (sb ++ (CamelCase.loop U rs i ([], last)).1, (CamelCase.loop U rs i ([], last)).2) := by
  intro rs
  induction rs with
  | nil => intro i sb last; simp [CamelCase.loop]
  | cons r rs ih =>
    intro i sb last
    rw [CamelCase.loop, CamelCase.loop, CamelCase_step_fst U i sb last r, ih,
      ih (i + 1) (CamelCase.step U i ([], last) r).1]
    simp [List.append_assoc]

theorem CamelCase_loop_append (U : Unicode) :
    ∀ (a b : List Rune) (i : Nat) (st : List Rune × Rune),
      CamelCase.loop U (a ++ b) i st =
        CamelCase.loop U b (i + a.length) (CamelCase.loop U a i st) := by
  intro a
  induction a with
  | nil => intro b i st; simp [CamelCase.loop]
  | cons r a ih =>
    intro b i st
    rw [List.cons_append, CamelCase.loop, CamelCase.loop, ih, List.length_cons]
    congr 1
    omega

theorem PascalCase_step_eq (U : Unicode) (i : Nat) (hi : i ≠ 0) (st : List Rune × Rune)
    (r : Rune) : PascalCase.step U i st r = CamelCase.step U i st r := by
  unfold PascalCase.step CamelCase.step
  simp only [hi, if_false]

theorem PascalCase_loop_eq (U : Unicode) :
    ∀ (rs : List Rune) (i : Nat), i ≠ 0 → ∀ st : List Rune × Rune,
      PascalCase.loop U rs i st = CamelCase.loop U rs i st := by
  intro rs
  induction rs with
  | nil => intro i _ st; rfl
  | cons r rs ih =>
    intro i hi st
    rw [PascalCase.loop, CamelCase.loop, PascalCase_step_eq U i hi, ih (i + 1) (by omega)]

/-- When the first codepoint is a letter, `CamelCase` puts its lowercase form first. -/
theorem CamelCase_cons_letter (U : Unicode) (c : Rune) (rest : List Rune)
    (hc : U.IsLetter c = true) :
    CamelCase U (c :: rest) = U.ToLower c :: (CamelCase.loop U rest 1 ([], c)).1 := by
  unfold CamelCase
  simp only [List.length_cons, Nat.add_one_ne_zero, if_false, CamelCase.loop]
  have : CamelCase.step U 0 ([], 0) c = ([U.ToLower c], c) := by
    simp [CamelCase.step, hc]
  rw [this, CamelCase_loop_fst]
  simp

/-- When the first codepoint is a letter, `PascalCase` puts its uppercase form first and
continues as `CamelCase` does. -/
theorem PascalCase_cons_letter (U : Unicode) (c : Rune) (rest : List Rune)
    (hc : U.IsLetter c = true) :
    PascalCase U (c :: rest) = U.ToUpper c :: (CamelCase.loop U rest 1 ([], c)).1 := by
  unfold PascalCase
  simp only [List.length_cons, Nat.add_one_ne_zero, if_false, PascalCase.loop]
  have : PascalCase.step U 0 ([], 0) c = ([U.ToUpper c], c) := by
    simp [PascalCase.step, hc]
  rw [this, PascalCase_loop_eq U rest 1 (by omega), CamelCase_loop_fst]
  simp

/-- When the first codepoint is not a letter, `PascalCase` and `CamelCase` agree. -/
theorem PascalCase_cons_other (U : Unicode) (c : Rune) (rest : List Rune)
    (hc : U.IsLetter c = false) : PascalCase U (c :: rest) = CamelCase U (c :: rest) := by
  unfold PascalCase CamelCase
  simp only [List.length_cons, Nat.add_one_ne_zero, if_false, PascalCase.loop,
    CamelCase.loop]
  have : PascalCase.step U 0 ([], 0) c = CamelCase.step U 0 ([], 0) c := by
    simp [PascalCase.step, CamelCase.step, hc]
  rw [this, PascalCase_loop_eq U rest 1 (by omega)]

/-- C15: if `s` is non-empty and `s[0]` is a letter, `CamelCase(s)` and `PascalCase(s)`
are `ToLower(s[0])`, respectively `ToUpper(s[0])`, followed by one and the same sequence:
they have the same length and agree at every position except position 0; for every other
input (empty, or starting with a non-letter) `PascalCase(s) = CamelCase(s)`. -/
theorem PascalCase_vs_CamelCase (U : Unicode) (s : List Rune) :
    (∀ (c : Rune) (rest : List Rune), s = c :: rest → U.IsLetter c = true →
      (∃ t : List Rune, CamelCase U s = U.ToLower c :: t ∧ PascalCase U s = U.ToUpper c :: t) ∧
      (CamelCase U s).length = (PascalCase U s).length ∧
      (CamelCase U s)[0]? = some (U.ToLower c) ∧
      (PascalCase U s)[0]? = some (U.ToUpper c) ∧
      ∀ i : Nat, 0 < i → (CamelCase U s)[i]? = (PascalCase U s)[i]?) ∧
    (s = [] → PascalCase U s = CamelCase U s) ∧
    (∀ (c : Rune) (rest : List Rune), s = c :: rest → U.IsLetter c = false →
      PascalCase U s = CamelCase U s) := by
  refine ⟨?_, ?_, ?_⟩
  · intro c rest hs hc
    subst hs
    rw [CamelCase_cons_letter U c rest hc, PascalCase_cons_letter U c rest hc]
    refine ⟨⟨_, rfl, rfl⟩, by simp, by simp, by simp, ?_⟩
    intro i hi
    cases i with
    | zero => omega
    | succ i => simp
  · intro hs; subst hs; rfl
  · intro c rest hs hc
    subst hs
    exact PascalCase_cons_other U c rest hc


/-- What one iteration of `CamelCase` appends: nothing for a codepoint that is neither a
letter nor a number, the codepoint itself for a number, and for a letter the letter (once
or twice) or its lowercase or uppercase form. -/
theorem CamelCase_step_out (U : Unicode) (i : Nat) (last r : Rune) :
    (U.IsLetter r = false →
      (CamelCase.step U i ([], last) r).1 = if U.IsNumber r = true then [r] else []) ∧
    (U.IsLetter r = true →
      (CamelCase.step U i ([], last) r).1 = [r] ∨
      (CamelCase.step U i ([], last) r).1 = [r, r] ∨
      (CamelCase.step U i ([], last) r).1 = [U.ToLower r] ∨
      (CamelCase.step U i ([], last) r).1 = [U.ToUpper r]) := by
  unfold CamelCase.step
  constructor
  · intro hL
    simp only [hL, Bool.false_eq_true, if_false, List.nil_append]
    split_ifs <;> rfl
  · intro hL
    simp only [hL, if_true, List.nil_append]
    split_ifs <;> simp

theorem CamelCase_loop_cons (U : Unicode) (r : Rune) (rs : List Rune) (i : Nat)
    (last : Rune) :
    (CamelCase.loop U (r :: rs) i ([], last)).1 =
      (CamelCase.step U i ([], last) r).1 ++
        (CamelCase.loop U rs (i + 1) ([], (CamelCase.step U i ([], last) r).2)).1 := by
  rw [CamelCase.loop, CamelCase_loop_fst]

/-- Every codepoint that the loop of `CamelCase` appends comes from a number of the
input, unchanged, or from a letter of the input, unchanged or case-mapped. -/
theorem CamelCase_loop_mem (U : Unicode) :
    ∀ (rs : List Rune) (i : Nat) (last x : Rune),
      x ∈ (CamelCase.loop U rs i ([], last)).1 →
      ∃ r ∈ rs, (U.IsLetter r = false ∧ U.IsNumber r = true ∧ x = r) ∨
        (U.IsLetter r = true ∧ (x = r ∨ x = U.ToLower r ∨ x = U.ToUpper r)) := by
  intro rs
  induction rs with
  | nil => intro i last x hx; simp [CamelCase.loop] at hx
  | cons r rs ih =>
    intro i last x hx
    rw [CamelCase_loop_cons, List.mem_append] at hx
    rcases hx with hx | hx
    · refine ⟨r, List.mem_cons_self r rs, ?_⟩
      have hout := CamelCase_step_out U i last r
      cases hL : U.IsLetter r
      · left
        rw [hout.1 hL] at hx
        cases hN : U.IsNumber r
        · simp [hN] at hx
        · simp [hN] at hx; exact ⟨rfl, rfl, hx⟩
      · right
        refine ⟨rfl, ?_⟩
        rcases hout.2 hL with h | h | h | h <;> rw [h] at hx <;> simp at hx <;> simp [hx]
    · obtain ⟨r2, hr2, h⟩ := ih _ _ x hx
      exact ⟨r2, List.mem_cons_of_mem r hr2, h⟩

/-- The numbers that the loop of `CamelCase` appends are the numbers of the input, when
no letter of the input is a number or case-mapped to a number. -/
theorem CamelCase_loop_filter (U : Unicode) :
    ∀ (rs : List Rune) (i : Nat) (last : Rune),
      (∀ r ∈ rs, U.IsLetter r = true → U.IsNumber r = false ∧
        U.IsNumber (U.ToLower r) = false ∧ U.IsNumber (U.ToUpper r) = false) →
      (CamelCase.loop U rs i ([], last)).1.filter U.IsNumber = rs.filter U.IsNumber := by
  intro rs
  induction rs with
  | nil => intro i last _; simp [CamelCase.loop]
  | cons r rs ih =>
    intro i last h
    rw [CamelCase_loop_cons, List.filter_append,
      ih _ _ (fun x hx => h x (List.mem_cons_of_mem r hx))]
    have hout := CamelCase_step_out U i last r
    cases hL : U.IsLetter r
    · rw [hout.1 hL]
      cases hN : U.IsNumber r <;> simp [hN]
    · obtain ⟨h1, h2, h3⟩ := h r (List.mem_cons_self r rs) hL
      rcases hout.2 hL with e | e | e | e <;> rw [e] <;> simp [h1, h2, h3]

theorem CamelCase_eq_loop (U : Unicode) (s : List Rune) :
    CamelCase U s = (CamelCase.loop U s 0 ([], 0)).1 := by
  unfold CamelCase
  by_cases h : s.length = 0
  · have : s = [] := List.length_eq_zero.1 h
    subst this; rfl
  · simp only [h, if_false]

/-- C16: given that no number is a letter, and that `ToLower` and `ToUpper` map every
letter of `s` to a letter: every codepoint of `CamelCase(s)` and of `PascalCase(s)` is a
letter or a number, and the numbers of the output are exactly the numbers of `s`, in
order and unchanged. -/
theorem CamelCase_letters_and_digits (U : Unicode)
    (hdis : ∀ r : Rune, U.IsNumber r = true → U.IsLetter r = false)
    (s : List Rune)
    (hcase : ∀ r ∈ s, U.IsLetter r = true →
      U.IsLetter (U.ToLower r) = true ∧ U.IsLetter (U.ToUpper r) = true) :
    ((∀ x ∈ CamelCase U s, U.IsLetter x = true ∨ U.IsNumber x = true) ∧
      (CamelCase U s).filter U.IsNumber = s.filter U.IsNumber) ∧
    ((∀ x ∈ PascalCase U s, U.IsLetter x = true ∨ U.IsNumber x = true) ∧
      (PascalCase U s).filter U.IsNumber = s.filter U.IsNumber) := by
  have hnot : ∀ x : Rune, U.IsLetter x = true → U.IsNumber x = false := by
    intro x hx
    cases hN : U.IsNumber x
    · rfl
    · rw [hdis x hN] at hx; exact absurd hx Bool.false_ne_true
  have hnum : ∀ r ∈ s, U.IsLetter r = true → U.IsNumber r = false ∧
      U.IsNumber (U.ToLower r) = false ∧ U.IsNumber (U.ToUpper r) = false :=
    fun r hr hL => ⟨hnot r hL, hnot _ (hcase r hr hL).1, hnot _ (hcase r hr hL).2⟩
  have hmem : ∀ (rs : List Rune), (∀ r ∈ rs, r ∈ s) → ∀ (i : Nat) (last x : Rune),
      x ∈ (CamelCase.loop U rs i ([], last)).1 →
      U.IsLetter x = true ∨ U.IsNumber x = true := by
    intro rs hrs i last x hx
    obtain ⟨r, hr, h⟩ := CamelCase_loop_mem U rs i last x hx
    rcases h with ⟨_, hN, hxr⟩ | ⟨hL, hxr | hxr | hxr⟩
    · right; rw [hxr]; exact hN
    · left; rw [hxr]; exact hL
    · left; rw [hxr]; exact (hcase r (hrs r hr) hL).1
    · left; rw [hxr]; exact (hcase r (hrs r hr) hL).2
  have hcamel : (∀ x ∈ CamelCase U s, U.IsLetter x = true ∨ U.IsNumber x = true) ∧
      (CamelCase U s).filter U.IsNumber = s.filter U.IsNumber := by
    rw [CamelCase_eq_loop]
    exact ⟨fun x hx => hmem s (fun _ h => h) 0 0 x hx, CamelCase_loop_filter U s 0 0 hnum⟩
  refine ⟨hcamel, ?_⟩
  cases s with
  | nil => exact ⟨by simp [PascalCase], by simp [PascalCase]⟩
  | cons c rest =>
    cases hc : U.IsLetter c
    · rw [PascalCase_cons_other U c rest hc]; exact hcamel
    · have hcs := hcase c (List.mem_cons_self c rest) hc
      have hn := hnum c (List.mem_cons_self c rest) hc
      rw [PascalCase_cons_letter U c rest hc]
      constructor
      · intro x hx
        rcases List.mem_cons.1 hx with h | h
        · left; rw [h]; exact hcs.2
        · exact hmem rest (fun r hr => List.mem_cons_of_mem c hr) 1 c x h
      · rw [List.filter_cons, hn.2.2]
        simp only [Bool.false_eq_true, if_false]
        rw [CamelCase_loop_filter U rest 1 c
          (fun r hr => hnum r (List.mem_cons_of_mem c hr)), List.filter_cons, hn.1]
        simp

/-- The facts assumed about the `unicode` tables hold of `goTables` and the letters of
`Hello123 World456`, and what `CamelCase` and `PascalCase` keep of that input. -/
theorem CamelCase_letters_and_digits_witness :
    ((∀ r : Rune, goTables.IsNumber r = true → goTables.IsLetter r = false) ∧
      (∀ r ∈ runesOf "Hello123 World456", goTables.IsLetter r = true →
        goTables.IsLetter (goTables.ToLower r) = true ∧
          goTables.IsLetter (goTables.ToUpper r) = true)) ∧
    (((∀ x ∈ CamelCase goTables (runesOf "Hello123 World456"),
        goTables.IsLetter x = true ∨ goTables.IsNumber x = true) ∧
      (CamelCase goTables (runesOf "Hello123 World456")).filter goTables.IsNumber =
        (runesOf "Hello123 World456").filter goTables.IsNumber) ∧
    ((∀ x ∈ PascalCase goTables (runesOf "Hello123 World456"),
        goTables.IsLetter x = true ∨ goTables.IsNumber x = true) ∧
      (PascalCase goTables (runesOf "Hello123 World456")).filter goTables.IsNumber =
        (runesOf "Hello123 World456").filter goTables.IsNumber)) :=
  ⟨⟨goIsNumber_not_letter, by decide⟩,
    CamelCase_letters_and_digits goTables goIsNumber_not_letter
      (runesOf "Hello123 World456") (by decide)⟩


/-- The loop of `CamelCase` over a stretch without letters appends its numbers and
leaves in `last` the final codepoint if that is a number and the separator mark `95`
otherwise (and `last` as it was when the stretch is empty). -/
theorem CamelCase_loop_no_letter (U : Unicode) :
    ∀ (p : List Rune) (i : Nat) (sb : List Rune) (last : Rune),
      (∀ r ∈ p, U.IsLetter r = false) →
      CamelCase.loop U p i (sb, last) =
        (sb ++ p.filter U.IsNumber,
          match p.getLast? with
          | none => last
          | some d => if U.IsNumber d = true then d else 95) := by
  intro p
  induction p with
  | nil => intro i sb last _; simp [CamelCase.loop]
  | cons r p ih =>
    intro i sb last h
    have hr := h r (List.mem_cons_self r p)
    have hp : ∀ x ∈ p, U.IsLetter x = false := fun x hx => h x (List.mem_cons_of_mem r hx)
    have hstep : CamelCase.step U i (sb, last) r =
        if U.IsNumber r = true then (sb ++ [r], r) else (sb, 95) := by
      simp only [CamelCase.step, hr, Bool.false_eq_true, if_false]
    rw [CamelCase.loop, hstep]
    cases hN : U.IsNumber r
    · simp only [Bool.false_eq_true, if_false]
      rw [ih (i + 1) sb 95 hp, List.filter_cons, hN]
      simp only [Bool.false_eq_true, if_false]
      cases p with
      | nil => simp [hN]
      | cons a p =>
        obtain ⟨d, hd⟩ : ∃ d : Rune, (a :: p).getLast? = some d :=
          ⟨_, List.getLast?_eq_getLast _ (by simp)⟩
        simp [List.getLast?_cons_cons, hd]
    · simp only [if_true]
      rw [ih (i + 1) (sb ++ [r]) r hp, List.filter_cons, hN]
      simp only [if_true, List.append_assoc, List.singleton_append]
      cases p with
      | nil => simp [hN]
      | cons a p =>
        obtain ⟨d, hd⟩ : ∃ d : Rune, (a :: p).getLast? = some d :=
          ⟨_, List.getLast?_eq_getLast _ (by simp)⟩
        simp [List.getLast?_cons_cons, hd]

/-- C12: `CamelCase([]rune(" a"))` is `"A"`, the output of `PascalCase`: the stretch
before the first letter holds no letter and no digit, so the digits of that stretch
followed by `ToLower('a')` are `"a"`, but the letter is lowercased only at index 0 and
after the separator it is uppercased. -/
theorem CamelCase_first_letter_not_lowered :
    CamelCase goTables (runesOf " a") = runesOf "A" ∧
    PascalCase goTables (runesOf " a") = runesOf "A" ∧
    goTables.IsLetter 32 = false ∧ goTables.IsLetter 97 = true ∧
    [32].filter goTables.IsNumber ++ [goTables.ToLower 97] = runesOf "a" := by
  decide

/-- What `CamelCase` computes on a stretch `p` without letters followed by a letter `c`:
the numbers of `p` (in order) followed by `ToLower(c)` when `p` is empty, by `ToUpper(c)`
when `p` ends with a codepoint that is not a number, and by `c` unchanged when `p` ends
with a number other than `'_'` and `c` is not uppercase. -/
theorem CamelCase_after_no_letter (U : Unicode) (p : List Rune) (c : Rune)
    (hp : ∀ r ∈ p, U.IsLetter r = false) (hc : U.IsLetter c = true) :
    (p = [] → CamelCase U (p ++ [c]) = [U.ToLower c]) ∧
    (∀ d : Rune, p.getLast? = some d → U.IsNumber d = false →
      CamelCase U (p ++ [c]) = p.filter U.IsNumber ++ [U.ToUpper c]) ∧
    (∀ d : Rune, p.getLast? = some d → U.IsNumber d = true → d ≠ 95 →
      U.IsUpper c = false → CamelCase U (p ++ [c]) = p.filter U.IsNumber ++ [c]) := by
  have hloop : CamelCase U (p ++ [c]) =
      (CamelCase.step U p.length
        ([] ++ p.filter U.IsNumber,
          match p.getLast? with
          | none => 0
          | some d => if U.IsNumber d = true then d else 95) c).1 := by
    rw [CamelCase_eq_loop, CamelCase_loop_append, CamelCase_loop_no_letter U p 0 [] 0 hp]
    simp [CamelCase.loop]
  refine ⟨?_, ?_, ?_⟩
  · intro h
    subst h
    rw [hloop]
    simp [CamelCase.step, hc]
  · intro d hd hN
    have hne : p.length ≠ 0 := by
      intro h
      rw [List.length_eq_zero.1 h] at hd
      simp at hd
    rw [hloop, hd]
    simp [CamelCase.step, hc, hne, hN]
  · intro d hd hN hd95 hU
    have hne : p.length ≠ 0 := by
      intro h
      rw [List.length_eq_zero.1 h] at hd
      simp at hd
    rw [hloop, hd]
    simp [CamelCase.step, hc, hne, hN, hd95, hU]

/-- What `CamelCase` computes on a stretch without letters and a letter, at `a`, ` a`
and `1a`. -/
theorem CamelCase_after_no_letter_cases :
    ((∀ r ∈ ([] : List Rune), goTables.IsLetter r = false) ∧
      (∀ r ∈ [32], goTables.IsLetter r = false) ∧
      (∀ r ∈ [49], goTables.IsLetter r = false) ∧ goTables.IsLetter 97 = true) ∧
    CamelCase goTables ([] ++ [97]) = [goTables.ToLower 97] ∧
    CamelCase goTables ([32] ++ [97]) = [32].filter goTables.IsNumber ++ [goTables.ToUpper 97] ∧
    CamelCase goTables ([49] ++ [97]) = [49].filter goTables.IsNumber ++ [97] :=
  ⟨⟨by decide, by decide, by decide, by decide⟩,
    (CamelCase_after_no_letter goTables [] 97 (by decide) (by decide)).1 rfl,
    (CamelCase_after_no_letter goTables [32] 97 (by decide) (by decide)).2.1 32 rfl (by decide),
    (CamelCase_after_no_letter goTables [49] 97 (by decide) (by decide)).2.2 49 rfl (by decide)
      (by decide) (by decide)⟩

/-- C13: `CamelCase([]rune("aB"))` is `"aBB"`: the uppercase letter after a lowercase
letter is appended twice, where `CamelCase("a")` followed by `B` is `"aB"`; and
`CamelCase([]rune("AbC"))` is `"abc"`: the `C` after the lowercase `b` is lowercased. -/
theorem CamelCase_doubles_uppercase :
    CamelCase goTables [97, 66] = [97, 66, 66] ∧
    CamelCase goTables [97] ++ [66] = [97, 66] ∧
    CamelCase goTables [65, 98, 67] = [97, 98, 99] ∧
    CamelCase goTables [65, 98] ++ [67] = [97, 98, 67] := by
  decide

/-- C14: `CamelCase([]rune("aAB"))` is `"aAABB"`, where `CamelCase("aA")` followed by
`ToLower('B')` is `"aAAb"`; `PascalCase([]rune("aAB"))` is `"AAABB"`, where
`PascalCase("aA")` followed by `ToLower('B')` is `"AAAb"`. -/
theorem CamelCase_uppercase_pair_not_lowered :
    (CamelCase goTables [97, 65, 66] = [97, 65, 65, 66, 66] ∧
      CamelCase goTables [97, 65] ++ [goTables.ToLower 66] = [97, 65, 65, 98]) ∧
    (PascalCase goTables [97, 65, 66] = [65, 65, 65, 66, 66] ∧
      PascalCase goTables [97, 65] ++ [goTables.ToLower 66] = [65, 65, 65, 98]) := by
  decide


/-! ## CamelCase and PascalCase on separated words -/

/-- After the first codepoint and away from a separator, the loop of `CamelCase` appends
digits and non-uppercase letters unchanged and does not leave the separator mark. -/
theorem CamelCase_loop_rest (U : Unicode) (h95N : U.IsNumber 95 = false)
    (hdis : ∀ r : Rune, U.IsNumber r = true → U.IsLetter r = false) :
    ∀ (rest : List Rune) (i : Nat) (sb : List Rune) (last : Rune), i ≠ 0 → last ≠ 95 →
      (∀ r ∈ rest, U.IsNumber r = true ∨ (U.IsLetter r = true ∧ U.IsUpper r = false)) →
      ∃ last2 : Rune, last2 ≠ 95 ∧
        CamelCase.loop U rest i (sb, last) = (sb ++ rest, last2) := by
  intro rest
  induction rest with
  | nil => intro i sb last _ hl _; exact ⟨last, hl, by simp [CamelCase.loop]⟩
  | cons r rest ih =>
    intro i sb last hi hl h
    have hrest := fun x hx => h x (List.mem_cons_of_mem r hx)
    rw [CamelCase.loop]
    rcases h r (List.mem_cons_self r rest) with hN | ⟨hL, hU⟩
    · have hL := hdis r hN
      have hr : r ≠ 95 := by
        intro hh; rw [hh, h95N] at hN; exact Bool.false_ne_true hN
      have hstep : CamelCase.step U i (sb, last) r = (sb ++ [r], r) := by
        simp [CamelCase.step, hL, hN]
      rw [hstep]
      obtain ⟨l2, hl2, hloop⟩ := ih (i + 1) (sb ++ [r]) r (by omega) hr hrest
      exact ⟨l2, hl2, by rw [hloop]; simp⟩
    · have hstep : CamelCase.step U i (sb, last) r = (sb ++ [r], last) := by
        simp [CamelCase.step, hL, hU, hi, hl]
      rw [hstep]
      obtain ⟨l2, hl2, hloop⟩ := ih (i + 1) (sb ++ [r]) last (by omega) hl hrest
      exact ⟨l2, hl2, by rw [hloop]; simp⟩

/-- Over a run of separators the loop of `CamelCase` appends nothing; a non-empty run
leaves the separator mark in `last`. -/
theorem CamelCase_loop_sep (U : Unicode) :
    ∀ (sep : List Rune) (i : Nat) (sb : List Rune) (last : Rune),
      (∀ r ∈ sep, U.IsLetter r = false ∧ U.IsNumber r = false) →
      CamelCase.loop U sep i (sb, last) = (sb, if sep = [] then last else 95) := by
  intro sep
  induction sep with
  | nil => intro i sb last _; simp [CamelCase.loop]
  | cons r sep ih =>
    intro i sb last h
    have hr := h r (List.mem_cons_self r sep)
    have hstep : CamelCase.step U i (sb, last) r = (sb, 95) := by
      simp [CamelCase.step, hr.1, hr.2]
    rw [CamelCase.loop, hstep, ih (i + 1) sb 95 (fun x hx => h x (List.mem_cons_of_mem r hx))]
    simp

/-- The words after the first: entered with the separator mark, each word is appended
with its first letter in uppercase and the rest unchanged. -/
theorem CamelCase_loop_words (U : Unicode) (h95L : U.IsLetter 95 = false)
    (h95N : U.IsNumber 95 = false)
    (hdis : ∀ r : Rune, U.IsNumber r = true → U.IsLetter r = false) :
    ∀ (ws : List Word) (i : Nat) (sb : List Rune), i ≠ 0 →
      (∀ v ∈ ws, v.WellFormed U) → (∀ v ∈ ws.dropLast, v.sep ≠ []) →
      (CamelCase.loop U (joinWords ws) i (sb, 95)).1 =
        sb ++ ws.flatMap (fun v => U.ToUpper v.head :: v.rest) := by
  intro ws
  induction ws with
  | nil => intro i sb _ _ _; simp [joinWords, CamelCase.loop]
  | cons v ws ih =>
    intro i sb hi hwf hsep
    obtain ⟨hhead, hrest, hsp⟩ := hwf v (List.mem_cons_self v ws)
    have hv95 : v.head ≠ 95 := by
      intro hh; rw [hh, h95L] at hhead; exact Bool.false_ne_true hhead
    have hstep : CamelCase.step U i (sb, 95) v.head = (sb ++ [U.ToUpper v.head], v.head) := by
      simp [CamelCase.step, hhead, hi]
    obtain ⟨l2, hl2, hloop⟩ := CamelCase_loop_rest U h95N hdis v.rest (i + 1)
      (sb ++ [U.ToUpper v.head]) v.head (by omega) hv95 hrest
    have hjoin : joinWords (v :: ws) = v.head :: (v.rest ++ (v.sep ++ joinWords ws)) := by
      simp [joinWords, Word.runes, List.append_assoc]
    rw [hjoin, CamelCase.loop, hstep, CamelCase_loop_append, hloop, CamelCase_loop_append,
      CamelCase_loop_sep U v.sep _ _ _ hsp]
    cases ws with
    | nil => simp [joinWords, CamelCase.loop]
    | cons v2 ws2 =>
      have hne : v.sep ≠ [] := hsep v (by simp [List.dropLast])
      simp only [hne, if_false]
      rw [ih _ _ (by omega) (fun x hx => hwf x (List.mem_cons_of_mem v hx))
        (fun x hx => hsep x (by
          simp only [List.dropLast_cons₂]
          exact List.mem_cons_of_mem v hx))]
      simp [List.append_assoc]

/-- C17: given that `'_'` is neither a letter nor a number and that no number is a letter:
for every non-empty list of words, each one letter followed by digits or non-uppercase
letters, with a non-empty run of separators (neither letters nor digits) after every word
but the last and an optional run after the last, `CamelCase` of the joined input is the
first word with its first letter lowercased followed by the other words with their first
letters uppercased, and `PascalCase` is the same with the first letter uppercased. -/
theorem CamelCase_words (U : Unicode) (h95L : U.IsLetter 95 = false)
    (h95N : U.IsNumber 95 = false)
    (hdis : ∀ r : Rune, U.IsNumber r = true → U.IsLetter r = false)
    (w : Word) (ws : List Word)
    (hwf : ∀ v ∈ w :: ws, v.WellFormed U)
    (hsep : ∀ v ∈ (w :: ws).dropLast, v.sep ≠ []) :
    CamelCase U (joinWords (w :: ws)) =
      (U.ToLower w.head :: w.rest) ++ ws.flatMap (fun v => U.ToUpper v.head :: v.rest) ∧
    PascalCase U (joinWords (w :: ws)) =
      (U.ToUpper w.head :: w.rest) ++ ws.flatMap (fun v => U.ToUpper v.head :: v.rest) := by
  obtain ⟨hhead, hrest, hsp⟩ := hwf w (List.mem_cons_self w ws)
  have hw95 : w.head ≠ 95 := by
    intro hh; rw [hh, h95L] at hhead; exact Bool.false_ne_true hhead
  have hjoin : joinWords (w :: ws) = w.head :: (w.rest ++ (w.sep ++ joinWords ws)) := by
    simp [joinWords, Word.runes, List.append_assoc]
  obtain ⟨l2, hl2, hloop⟩ := CamelCase_loop_rest U h95N hdis w.rest 1 [] w.head
    (by omega) hw95 hrest
  have htail : (CamelCase.loop U (w.rest ++ (w.sep ++ joinWords ws)) 1 ([], w.head)).1 =
      w.rest ++ ws.flatMap (fun v => U.ToUpper v.head :: v.rest) := by
    rw [CamelCase_loop_append, hloop, CamelCase_loop_append,
      CamelCase_loop_sep U w.sep _ _ _ hsp]
    cases ws with
    | nil => simp [joinWords, CamelCase.loop]
    | cons v2 ws2 =>
      have hne : w.sep ≠ [] := hsep w (by simp [List.dropLast])
      simp only [hne, if_false]
      rw [CamelCase_loop_words U h95L h95N hdis _ _ _ (by omega)
        (fun x hx => hwf x (List.mem_cons_of_mem w hx))
        (fun x hx => hsep x (by
          simp only [List.dropLast_cons₂]
          exact List.mem_cons_of_mem w hx))]
      simp
  rw [hjoin, CamelCase_cons_letter U _ _ hhead, PascalCase_cons_letter U _ _ hhead, htail]
  exact ⟨rfl, rfl⟩

theorem helloWorld_wellFormed :
    ∀ v ∈ [Word.mk 72 (runesOf "ello123") [32], Word.mk 87 (runesOf "orld456") []],
      v.WellFormed goTables := by
  intro v hv
  simp only [List.mem_cons, List.mem_singleton, List.not_mem_nil, or_false] at hv
  rcases hv with h | h <;> subst h <;> exact ⟨by decide, by decide, by decide⟩

/-- The facts assumed about the `unicode` tables hold of `goTables`; the input
`Hello123 World456` is the two words `Hello123` and `World456` with one space between
them, and `CamelCase` and `PascalCase` give `hello123World456` and `Hello123World456`. -/
theorem CamelCase_words_witness :
    (goTables.IsLetter 95 = false ∧ goTables.IsNumber 95 = false ∧
      (∀ r : Rune, goTables.IsNumber r = true → goTables.IsLetter r = false) ∧
      (∀ v ∈ [Word.mk 72 (runesOf "ello123") [32], Word.mk 87 (runesOf "orld456") []],
        v.WellFormed goTables) ∧
      (∀ v ∈ [Word.mk 72 (runesOf "ello123") [32],
          Word.mk 87 (runesOf "orld456") []].dropLast, v.sep ≠ []) ∧
      joinWords [Word.mk 72 (runesOf "ello123") [32], Word.mk 87 (runesOf "orld456") []] =
        runesOf "Hello123 World456") ∧
    (CamelCase goTables
        (joinWords [Word.mk 72 (runesOf "ello123") [32], Word.mk 87 (runesOf "orld456") []]) =
      (goTables.ToLower 72 :: runesOf "ello123") ++
        [Word.mk 87 (runesOf "orld456") []].flatMap
          (fun v => goTables.ToUpper v.head :: v.rest) ∧
    PascalCase goTables
        (joinWords [Word.mk 72 (runesOf "ello123") [32], Word.mk 87 (runesOf "orld456") []]) =
      (goTables.ToUpper 72 :: runesOf "ello123") ++
        [Word.mk 87 (runesOf "orld456") []].flatMap
          (fun v => goTables.ToUpper v.head :: v.rest)) :=
  ⟨⟨by decide, by decide, goIsNumber_not_letter, helloWorld_wellFormed, by decide, by decide⟩,
    CamelCase_words goTables (by decide) (by decide) goIsNumber_not_letter
      (Word.mk 72 (runesOf "ello123") [32]) [Word.mk 87 (runesOf "orld456") []]
      helloWorld_wellFormed (by decide)⟩


/-! ## Dasherize is Underscore up to the joiner -/

theorem DashRel.sim_append {sbU sbD : List Rune} {lU lD : Rune}
    (h : DashRel (sbU, lU) (sbD, lD)) (xs : List Rune) (hxs : ∀ x ∈ xs, x ≠ 45)
    (l1 l2 : Rune) (hl : (l1 = 95 ∧ l2 = 45) ∨ (l1 = l2 ∧ l1 ≠ 95 ∧ l1 ≠ 45)) :
    DashRel (sbU ++ xs, l1) (sbD ++ xs.map dashForUnderscore, l2) := by
  refine ⟨?_, ?_, hl⟩
  · have := h.sb_map
    simp only at this ⊢
    rw [this, List.map_append]
  · intro x hx
    rcases List.mem_append.1 hx with hx | hx
    · exact h.no_dash x hx
    · exact hxs x hx

theorem dashForUnderscore_other (x : Rune) (hx : x ≠ 95) : dashForUnderscore x = x := by
  simp [dashForUnderscore, hx]

/-- One iteration of `Underscore` and one of `Dasherize` on corresponding states give
corresponding states. -/
theorem DashRel.sim_step (U : Unicode) (h95 : JoinerFacts U 95) (h45 : JoinerFacts U 45)
    (params : HyphenMinusParams) (stU stD : List Rune × Rune) (r : Rune)
    (h : DashRel stU stD) :
    DashRel (joinStep U 95 params stU r) (joinStep U 45 params stD r) := by
  obtain ⟨sbU, lU⟩ := stU
  obtain ⟨sbD, lD⟩ := stD
  have hlast := h.last_rel
  simp only at hlast
  have hcond : (U.IsLetter lU && U.IsLower lU) = (U.IsLetter lD && U.IsLower lD) := by
    rcases hlast with ⟨h1, h2⟩ | ⟨h1, _, _⟩
    · rw [h1, h2, h95.not_letter, h45.not_letter]; rfl
    · rw [h1]
  have hlen : (sbU.length = 0) ↔ (sbD.length = 0) := by
    have := h.sb_map
    simp only at this
    rw [this, List.length_map]
  have hjoin : lU = 95 ↔ lD = 45 := by
    rcases hlast with ⟨h1, h2⟩ | ⟨h1, h2, h3⟩
    · simp [h1, h2]
    · constructor
      · intro hh; exact absurd hh h2
      · intro hh; rw [h1] at h3; exact absurd hh h3
  unfold joinStep
  cases hL : U.IsLetter r
  · simp only [Bool.false_eq_true, if_false]
    cases hN : U.IsNumber r
    · simp only [Bool.false_eq_true, if_false]
      by_cases hsep : (r = 95 || r = 45 || U.IsSpace r) = true
      · rw [if_pos hsep, if_pos hsep]
        by_cases hl0 : sbU.length = 0
        · rw [if_pos hl0, if_pos (hlen.1 hl0)]; exact h
        · rw [if_neg hl0, if_neg (fun hh => hl0 (hlen.2 hh))]
          by_cases hlj : lU = 95
          · rw [if_pos hlj, if_pos (hjoin.1 hlj)]; exact h
          · rw [if_neg hlj, if_neg (fun hh => hlj (hjoin.2 hh))]
            exact h.sim_append [95] (by simp) 95 45 (Or.inl ⟨rfl, rfl⟩)
      · rw [if_neg hsep, if_neg hsep]; exact h
    · simp only [if_true]
      have hr95 : r ≠ 95 := by
        intro hh; rw [hh, h95.not_number] at hN; exact Bool.false_ne_true hN
      have hr45 : r ≠ 45 := by
        intro hh; rw [hh, h45.not_number] at hN; exact Bool.false_ne_true hN
      have := h.sim_append [r] (by simpa using hr45) r r (Or.inr ⟨rfl, hr95, hr45⟩)
      simpa [dashForUnderscore_other r hr95] using this
  · simp only [if_true]
    have hr95 : r ≠ 95 := by
      intro hh; rw [hh, h95.not_letter] at hL; exact Bool.false_ne_true hL
    have hr45 : r ≠ 45 := by
      intro hh; rw [hh, h45.not_letter] at hL; exact Bool.false_ne_true hL
    have hlo95 := h95.lower_ne r hL
    have hlo45 := h45.lower_ne r hL
    have hup95 := h95.upper_ne r hL
    have hup45 := h45.upper_ne r hL
    have hone : ∀ c : Rune, c ≠ 95 → c ≠ 45 →
        DashRel (sbU ++ [c], r) (sbD ++ [c], r) := by
      intro c hc95 hc45
      have := h.sim_append [c] (by simpa using hc45) r r (Or.inr ⟨rfl, hr95, hr45⟩)
      simpa [dashForUnderscore_other c hc95] using this
    have htwo : ∀ c : Rune, c ≠ 95 → c ≠ 45 →
        DashRel (sbU ++ [95] ++ [c], r) (sbD ++ [45] ++ [c], r) := by
      intro c hc95 hc45
      have := h.sim_append [95, c] (by simpa using hc45) r r (Or.inr ⟨rfl, hr95, hr45⟩)
      simpa [dashForUnderscore, hc95] using this
    cases hU : U.IsUpper r
    · simp only [Bool.false_eq_true, if_false]
      cases hS : params.Screaming
      · simp only [Bool.false_eq_true, if_false]
        cases hP : params.PreserveCase
        · simp only [Bool.false_eq_true, if_false]; exact hone _ hlo95 hlo45
        · simp only [if_true]; exact hone _ hr95 hr45
      · simp only [if_true]; exact hone _ hup95 hup45
    · simp only [if_true]
      rw [← hcond]
      cases hlow : (U.IsLetter lU && U.IsLower lU)
      · simp only [Bool.false_eq_true, if_false]
        cases hp : (params.PreserveCase || params.Screaming)
        · simp only [Bool.false_eq_true, if_false]; exact hone _ hlo95 hlo45
        · simp only [if_true]; exact hone _ hr95 hr45
      · simp only [if_true]
        cases hp : (params.PreserveCase || params.Screaming)
        · simp only [Bool.false_eq_true, if_false]; exact htwo _ hlo95 hlo45
        · simp only [if_true]; exact htwo _ hr95 hr45

/-- The two loops on corresponding states end in corresponding states. -/
theorem DashRel.sim_loop (U : Unicode) (h95 : JoinerFacts U 95) (h45 : JoinerFacts U 45)
    (params : HyphenMinusParams) :
    ∀ (s : List Rune) (stU stD : List Rune × Rune), DashRel stU stD →
      DashRel (s.foldl (joinStep U 95 params) stU) (s.foldl (joinStep U 45 params) stD) := by
  intro s
  induction s with
  | nil => intro stU stD h; exact h
  | cons r s ih =>
    intro stU stD h
    exact ih _ _ (DashRel.sim_step U h95 h45 params stU stD r h)

/-- Cutting the trailing joiner commutes with replacing `'_'` by `'-'` on a sequence that
holds no `'-'`. -/
theorem stripJoiner_map (sb : List Rune) (h : ∀ x ∈ sb, x ≠ 45) :
    stripJoiner 45 (sb.map dashForUnderscore) = (stripJoiner 95 sb).map dashForUnderscore := by
  unfold stripJoiner
  rw [← List.getLast?_eq_getElem?, ← List.dropLast_eq_take, ← List.getLast?_eq_getElem?,
    ← List.dropLast_eq_take]
  rcases List.eq_nil_or_concat sb with hnil | ⟨L, b, hL⟩
  · subst hnil; simp
  · rw [List.concat_eq_append] at hL
    subst hL
    have hb45 : b ≠ 45 := h b (by simp)
    rw [List.map_append, List.map_singleton]
    by_cases hb : b = 95
    · subst hb
      have hcU : (L ++ [(95 : Rune)]).length > 0 ∧ (L ++ [(95 : Rune)]).getLast? = some 95 :=
        ⟨by simp, List.getLast?_concat _⟩
      have hcD : (L.map dashForUnderscore ++ [dashForUnderscore 95]).length > 0 ∧
          (L.map dashForUnderscore ++ [dashForUnderscore 95]).getLast? = some 45 :=
        ⟨by simp, by rw [List.getLast?_concat]; rfl⟩
      rw [if_pos hcU, if_pos hcD, List.dropLast_concat, List.dropLast_concat]
    · have hcU : ¬ ((L ++ [b]).length > 0 ∧ (L ++ [b]).getLast? = some 95) := by
        rintro ⟨_, hh⟩
        rw [List.getLast?_concat] at hh
        exact hb (Option.some.inj hh)
      have hcD : ¬ ((L.map dashForUnderscore ++ [dashForUnderscore b]).length > 0 ∧
          (L.map dashForUnderscore ++ [dashForUnderscore b]).getLast? = some 45) := by
        rintro ⟨_, hh⟩
        rw [List.getLast?_concat, dashForUnderscore_other b hb] at hh
        exact hb45 (Option.some.inj hh)
      rw [if_neg hcU, if_neg hcD, List.map_append, List.map_singleton]

/-- C11: given the facts `JoinerFacts` about the `unicode` tables for `'_'` and `'-'`,
for every input `s` and every list of options `Dasherize(s, opts)` equals
`Underscore(s, opts)` with every `'_'` replaced by `'-'`. -/
theorem Dasherize_eq_Underscore (U : Unicode) (h95 : JoinerFacts U 95)
    (h45 : JoinerFacts U 45) (s : List Rune) (options : List HyphenMinusOption) :
    Dasherize U s options =
      (Underscore U s options).map (fun x => if x = 95 then 45 else x) := by
  have hinit : DashRel (([], 0) : List Rune × Rune) ([], 0) :=
    ⟨rfl, by simp, Or.inr ⟨rfl, by decide, by decide⟩⟩
  have hrel := DashRel.sim_loop U h95 h45 (applyOptions options) s _ _ hinit
  rw [Dasherize_eq, Underscore_eq, hrel.sb_map, stripJoiner_map _ hrel.no_dash]
  rfl

/-- The facts assumed about the `unicode` tables hold of `goTables`, and `Dasherize` against
`Underscore` at the input `fooBar  baz_` with the option `Screaming`. -/
theorem Dasherize_eq_Underscore_witness :
    (JoinerFacts goTables 95 ∧ JoinerFacts goTables 45) ∧
    Dasherize goTables (runesOf "fooBar  baz_") [Screaming] =
      (Underscore goTables (runesOf "fooBar  baz_") [Screaming]).map
        (fun x => if x = 95 then 45 else x) :=
  ⟨⟨goTables_joinerFacts_underscore, goTables_joinerFacts_hyphen⟩,
    Dasherize_eq_Underscore goTables goTables_joinerFacts_underscore
      goTables_joinerFacts_hyphen (runesOf "fooBar  baz_") [Screaming]⟩


/-! ## The order of the one-sided trims -/

theorem takeWhile_length_lt_of_exists_neg (p : Rune → Bool) (l : List Rune)
    (h : ∃ x ∈ l, p x = false) : (l.takeWhile p).length < l.length := by
  have hle := (List.takeWhile_prefix p (l := l)).length_le
  rcases Nat.lt_or_ge (l.takeWhile p).length l.length with hlt | hge
  · exact hlt
  · exfalso
    have heq : l.takeWhile p = l :=
      (List.takeWhile_prefix p).eq_of_length (Nat.le_antisymm hle hge)
    obtain ⟨x, hx, hpx⟩ := h
    rw [← heq] at hx
    have := List.mem_takeWhile_imp hx
    rw [hpx] at this
    exact Bool.false_ne_true this

theorem takeWhile_append_of_exists_neg (p : Rune → Bool) :
    ∀ (l₁ l₂ : List Rune), (∃ x ∈ l₁, p x = false) →
      (l₁ ++ l₂).takeWhile p = l₁.takeWhile p := by
  intro l₁
  induction l₁ with
  | nil => intro l₂ h; obtain ⟨x, hx, _⟩ := h; simp at hx
  | cons a l ih =>
    intro l₂ h
    cases hpa : p a
    · simp [List.takeWhile_cons, hpa]
    · simp only [List.cons_append, List.takeWhile_cons, hpa, if_true]
      congr 1
      apply ih
      obtain ⟨x, hx, hpx⟩ := h
      rcases List.mem_cons.1 hx with hxa | hxl
      · rw [hxa, hpa] at hpx; exact absurd hpx (by simp)
      · exact ⟨x, hxl, hpx⟩

/-- The trailing run of cutset members is not changed by putting codepoints in front of
a sequence that holds a codepoint outside the cutset. -/
theorem trailingRun_append (c A B : List Rune)
    (h : ∃ x ∈ B, c.contains x = false) :
    trailingRun c (A ++ B) = trailingRun c B := by
  unfold trailingRun
  rw [List.reverse_append, takeWhile_append_of_exists_neg]
  obtain ⟨x, hx, hpx⟩ := h
  exact ⟨x, List.mem_reverse.2 hx, hpx⟩

theorem trailingRun_cons_lt (c : List Rune) (b : Rune) (B : List Rune)
    (hb : c.contains b = false) : trailingRun c (b :: B) < B.length + 1 := by
  unfold trailingRun
  have := takeWhile_length_lt_of_exists_neg (fun x => c.contains x) (b :: B).reverse
    ⟨b, by simp, hb⟩
  simpa using this

/-- What `TrimRight` computes commutes with dropping the leading run of cutset
members. -/
theorem dropWhile_trimRight_comm (c s : List Rune) :
    (if trailingRun c s ≤ 1 then s
      else s.take (s.length - trailingRun c s)).dropWhile (fun x => c.contains x) =
    (if trailingRun c (s.dropWhile (fun x => c.contains x)) ≤ 1
      then s.dropWhile (fun x => c.contains x)
      else (s.dropWhile (fun x => c.contains x)).take
        ((s.dropWhile (fun x => c.contains x)).length -
          trailingRun c (s.dropWhile (fun x => c.contains x)))) := by
  cases hB : s.dropWhile (fun x => c.contains x) with
  | nil =>
    have hall : ∀ x ∈ s, c.contains x = true := List.dropWhile_eq_nil_iff.1 hB
    have h0 : trailingRun c [] = 0 := by simp [trailingRun]
    simp only [h0, Nat.zero_le, if_true]
    rw [List.dropWhile_eq_nil_iff]
    intro x hx
    split at hx
    · exact hall x hx
    · exact hall x (List.mem_of_mem_take hx)
  | cons b B =>
    have hsplit := List.takeWhile_append_dropWhile (fun x => c.contains x) s
    rw [hB] at hsplit
    have hA : ∀ x ∈ s.takeWhile (fun x => c.contains x), c.contains x = true :=
      fun x hx => List.mem_takeWhile_imp hx
    have hb : c.contains b = false := by
      have := List.head?_dropWhile_not (fun x => c.contains x) s
      rw [hB] at this
      simpa using this
    have ht : trailingRun c s = trailingRun c (b :: B) := by
      conv_lhs => rw [← hsplit]
      exact trailingRun_append c _ _ ⟨b, by simp, hb⟩
    have hlt := trailingRun_cons_lt c b B hb
    have hlen : s.length = (s.takeWhile (fun x => c.contains x)).length + (B.length + 1) := by
      conv_lhs => rw [← hsplit]
      simp
    rw [ht]
    by_cases h1 : trailingRun c (b :: B) ≤ 1
    · simp only [h1, if_true]
      exact hB
    · simp only [h1, if_false, List.length_cons]
      obtain ⟨k, hk⟩ : ∃ k : Nat, B.length + 1 - trailingRun c (b :: B) = k + 1 :=
        ⟨B.length - trailingRun c (b :: B), by omega⟩
      have hidx : s.length - trailingRun c (b :: B) =
          (s.takeWhile (fun x => c.contains x)).length + (k + 1) := by omega
      have key : ∀ A : List Rune, (∀ x ∈ A, c.contains x = true) →
          (List.take (A.length + (k + 1)) (A ++ b :: B)).dropWhile (fun x => c.contains x) =
            List.take (k + 1) (b :: B) := by
        intro A hAp
        rw [List.take_append, List.take_succ_cons, List.dropWhile_append_of_pos hAp,
          List.dropWhile_cons_of_neg (by rw [hb]; exact Bool.false_ne_true)]
      have hkey := key _ hA
      rw [hsplit] at hkey
      rw [hidx, hk]
      exact hkey

/-- C21: the order of the two one-sided trims does not affect the result: both
compositions return, `TrimLeft(TrimRight(s, c), c) = TrimRight(TrimLeft(s, c), c)`, and
the left side is `Trim(s, c)`. -/
theorem TrimLeft_TrimRight_comm (s c : List Rune) :
    (∃ t : List Rune, (TrimRight s c).bind (fun t => TrimLeft t c) = some t) ∧
    (TrimRight s c).bind (fun t => TrimLeft t c) =
      (TrimLeft s c).bind (fun t => TrimRight t c) ∧
    Trim s c = (TrimRight s c).bind (fun t => TrimLeft t c) := by
  have h : (TrimRight s c).bind (fun t => TrimLeft t c) =
      (TrimLeft s c).bind (fun t => TrimRight t c) := by
    rw [TrimRight_eq, TrimLeft_eq, Option.some_bind, Option.some_bind, TrimLeft_eq,
      TrimRight_eq, dropWhile_trimRight_comm]
  refine ⟨⟨_, Trim_eq s c⟩, h, rfl⟩


/-! ## Underscore on letters -/

theorem snakePiece_append (U : Unicode) (xs : List Rune) (x : Rune) (i : Nat)
    (hi : i < xs.length) : snakePiece U (xs ++ [x]) i = snakePiece U xs i := by
  unfold snakePiece
  rw [List.getD_append xs [x] 0 i hi, List.getD_append xs [x] 0 (i - 1) (by omega)]

theorem flatMap_snakePiece_append (U : Unicode) (xs : List Rune) (x : Rune) :
    (List.range (xs ++ [x]).length).flatMap (snakePiece U (xs ++ [x])) =
      (List.range xs.length).flatMap (snakePiece U xs) ++
        snakePiece U (xs ++ [x]) xs.length := by
  rw [List.length_append, List.length_singleton, List.range_succ, List.flatMap_append]
  congr 1
  · apply List.flatMap_congr
    intro i hi
    exact snakePiece_append U xs x i (List.mem_range.1 hi)
  · simp

/-- On letters-only input with neither flag set, the loop of `Underscore` builds the
expected pieces and keeps the last input codepoint in `last`. -/
theorem foldl_joinStep_letters (U : Unicode) (h0 : U.IsLetter 0 = false)
    (params : HyphenMinusParams) (hP : params.PreserveCase = false)
    (hS : params.Screaming = false) :
    ∀ s : List Rune, (∀ r ∈ s, U.IsLetter r = true) →
      s.foldl (joinStep U 95 params) ([], 0) =
        ((List.range s.length).flatMap (snakePiece U s), s.getD (s.length - 1) 0) := by
  intro s
  induction s using List.reverseRecOn with
  | nil => intro _; rfl
  | append_singleton xs x ih =>
    intro h
    have hx : U.IsLetter x = true := h x (by simp)
    rw [List.foldl_append, ih (fun r hr => h r (List.mem_append_left _ hr)),
      flatMap_snakePiece_append]
    have hlastx : (xs ++ [x]).getD ((xs ++ [x]).length - 1) 0 = x := by
      rw [List.getD_append_right xs [x] 0 _ (by simp)]
      simp
    have hget : (xs ++ [x]).getD xs.length 0 = x := by
      rw [List.getD_append_right xs [x] 0 _ (le_refl _)]
      simp
    rw [hlastx]
    simp only [List.foldl_cons, List.foldl_nil, joinStep, snakePiece, hx, hP, hS, hget,
      if_true, Bool.or_self, Bool.false_eq_true, if_false]
    cases hU : U.IsUpper x
    · simp
    · simp only [if_true, true_and]
      by_cases hn : xs.length = 0
      · have hxs : xs = [] := List.length_eq_zero.1 hn
        subst hxs
        simp [h0]
      · have hprev : (xs ++ [x]).getD (xs.length - 1) 0 = xs.getD (xs.length - 1) 0 :=
          List.getD_append xs [x] 0 _ (by omega)
        have hpos : 0 < xs.length := by omega
        rw [hprev]
        generalize xs.getD (xs.length - 1) 0 = q
        cases hL : U.IsLetter q <;> cases hW : U.IsLower q <;> simp [hpos]

/-- C22: given that the zero rune is not a letter and that `ToLower` maps no letter of
`s` to `'_'`: for every input `s` consisting only of letters, `Underscore(s)` with
neither flag set is the concatenation, over the positions `i` of `s` in order, of
`['_', ToLower(s[i])]` when `s[i]` is uppercase, `i > 0` and `s[i-1]` is a lowercase
letter, and of `[ToLower(s[i])]` otherwise. -/
theorem Underscore_letters (U : Unicode) (h0 : U.IsLetter 0 = false)
    (s : List Rune) (options : List HyphenMinusOption)
    (hP : (applyOptions options).PreserveCase = false)
    (hS : (applyOptions options).Screaming = false)
    (hs : ∀ r ∈ s, U.IsLetter r = true) (hlo : ∀ r ∈ s, U.ToLower r ≠ 95) :
    Underscore U s options = (List.range s.length).flatMap (snakePiece U s) := by
  rw [Underscore_eq, foldl_joinStep_letters U h0 _ hP hS s hs]
  simp only
  unfold stripJoiner
  rw [← List.getLast?_eq_getElem?]
  have hlast : ((List.range s.length).flatMap (snakePiece U s)).getLast? ≠ some 95 := by
    rcases List.eq_nil_or_concat s with hnil | ⟨xs, x, hxs⟩
    · subst hnil; simp
    · rw [List.concat_eq_append] at hxs
      subst hxs
      have hx := hlo x (by simp)
      rw [flatMap_snakePiece_append]
      unfold snakePiece
      split
      · rw [List.getLast?_append]
        simpa using hx
      · rw [List.getLast?_concat]
        simpa using hx
  rw [if_neg (fun hh => hlast hh.2)]

/-- The facts assumed hold of `goTables` and the letters of `fooBar`; the pieces expected
at its positions make `foo_bar`, and `Underscore` without options returns them. -/
theorem Underscore_letters_witness :
    (goTables.IsLetter 0 = false ∧
      (applyOptions []).PreserveCase = false ∧ (applyOptions []).Screaming = false ∧
      (∀ r ∈ runesOf "fooBar", goTables.IsLetter r = true) ∧
      (∀ r ∈ runesOf "fooBar", goTables.ToLower r ≠ 95) ∧
      (List.range (runesOf "fooBar").length).flatMap (snakePiece goTables (runesOf "fooBar")) =
        runesOf "foo_bar") ∧
    Underscore goTables (runesOf "fooBar") [] =
      (List.range (runesOf "fooBar").length).flatMap (snakePiece goTables (runesOf "fooBar")) :=
  ⟨⟨by decide, rfl, rfl, by decide, by decide, by decide⟩,
    Underscore_letters goTables (by decide) (runesOf "fooBar") [] rfl rfl (by decide)
      (by decide)⟩


/-! ## CamelCase and PascalCase applied twice -/

/-- After the first letter `h` of a single word, the loop of `CamelCase` appends the rest
of the word unchanged and nothing for the separators that follow. -/
theorem CamelCase_loop_single_word (U : Unicode) (h95N : U.IsNumber 95 = false)
    (hdis : ∀ r : Rune, U.IsNumber r = true → U.IsLetter r = false)
    (h : Rune) (rest sep : List Rune) (hh : h ≠ 95)
    (hrest : ∀ r ∈ rest, U.IsNumber r = true ∨ (U.IsLetter r = true ∧ U.IsUpper r = false))
    (hsep : ∀ r ∈ sep, U.IsLetter r = false ∧ U.IsNumber r = false) :
    (CamelCase.loop U (rest ++ sep) 1 ([], h)).1 = rest := by
  obtain ⟨l2, _, hloop⟩ := CamelCase_loop_rest U h95N hdis rest 1 [] h (by omega) hh hrest
  rw [CamelCase_loop_append, hloop, CamelCase_loop_sep U sep _ _ _ hsep]
  simp

/-- C23 (as stated, it fails): `CamelCase([]rune(" a"))` is `"A"` and `CamelCase` of
that is `"a"`; `PascalCase([]rune("a_b"))` is `"AB"` and `PascalCase` of that is
`"Ab"`. -/
theorem CamelCase_idempotent_counterexample :
    (CamelCase goTables (runesOf " a") = runesOf "A" ∧
      CamelCase goTables (CamelCase goTables (runesOf " a")) = runesOf "a") ∧
    (PascalCase goTables (runesOf "a_b") = runesOf "AB" ∧
      PascalCase goTables (PascalCase goTables (runesOf "a_b")) = runesOf "Ab") := by
  decide

/-- C23 (amended): given that `'_'` is neither a letter nor a number and that no number
is a letter: for every input made of one word (a letter followed by digits or
non-uppercase letters) and an optional run of separators after it, `CamelCase` applied
twice gives what it gives once when `ToLower` maps the first letter to a letter that
`ToLower` leaves unchanged, and `PascalCase` applied twice gives what it gives once when
`ToUpper` maps the first letter to a letter that `ToUpper` leaves unchanged. -/
theorem CamelCase_idempotent_single_word (U : Unicode) (h95L : U.IsLetter 95 = false)
    (h95N : U.IsNumber 95 = false)
    (hdis : ∀ r : Rune, U.IsNumber r = true → U.IsLetter r = false)
    (w : Word) (hw : w.WellFormed U) :
    (U.IsLetter (U.ToLower w.head) = true → U.ToLower (U.ToLower w.head) = U.ToLower w.head →
      CamelCase U (CamelCase U w.runes) = CamelCase U w.runes) ∧
    (U.IsLetter (U.ToUpper w.head) = true → U.ToUpper (U.ToUpper w.head) = U.ToUpper w.head →
      PascalCase U (PascalCase U w.runes) = PascalCase U w.runes) := by
  obtain ⟨hhead, hrest, hsep⟩ := hw
  have hne : ∀ x : Rune, U.IsLetter x = true → x ≠ 95 := by
    intro x hx hh; rw [hh, h95L] at hx; exact Bool.false_ne_true hx
  have hnil : ∀ r ∈ ([] : List Rune), U.IsLetter r = false ∧ U.IsNumber r = false := by
    intro r hr; simp at hr
  constructor
  · intro hl1 hl2
    have hfirst : CamelCase U w.runes = U.ToLower w.head :: w.rest := by
      unfold Word.runes
      rw [CamelCase_cons_letter U _ _ hhead,
        CamelCase_loop_single_word U h95N hdis _ _ _ (hne _ hhead) hrest hsep]
    have hsecond := CamelCase_loop_single_word U h95N hdis (U.ToLower w.head) w.rest []
      (hne _ hl1) hrest hnil
    rw [List.append_nil] at hsecond
    rw [hfirst, CamelCase_cons_letter U _ _ hl1, hsecond, hl2]
  · intro hu1 hu2
    have hfirst : PascalCase U w.runes = U.ToUpper w.head :: w.rest := by
      unfold Word.runes
      rw [PascalCase_cons_letter U _ _ hhead,
        CamelCase_loop_single_word U h95N hdis _ _ _ (hne _ hhead) hrest hsep]
    have hsecond := CamelCase_loop_single_word U h95N hdis (U.ToUpper w.head) w.rest []
      (hne _ hu1) hrest hnil
    rw [List.append_nil] at hsecond
    rw [hfirst, PascalCase_cons_letter U _ _ hu1, hsecond, hu2]

/-- The facts assumed hold of `goTables` and the word `hello123` followed by a space, and
`CamelCase` and `PascalCase` applied twice to it give what they give once. -/
theorem CamelCase_idempotent_single_word_witness :
    (goTables.IsLetter 95 = false ∧ goTables.IsNumber 95 = false ∧
      (∀ r : Rune, goTables.IsNumber r = true → goTables.IsLetter r = false) ∧
      (Word.mk 104 (runesOf "ello123") [32]).WellFormed goTables ∧
      (Word.mk 104 (runesOf "ello123") [32]).runes = runesOf "hello123 ") ∧
    CamelCase goTables (CamelCase goTables (Word.mk 104 (runesOf "ello123") [32]).runes) =
      CamelCase goTables (Word.mk 104 (runesOf "ello123") [32]).runes ∧
    PascalCase goTables (PascalCase goTables (Word.mk 104 (runesOf "ello123") [32]).runes) =
      PascalCase goTables (Word.mk 104 (runesOf "ello123") [32]).runes :=
  ⟨⟨by decide, by decide, goIsNumber_not_letter, ⟨by decide, by decide, by decide⟩,
      by decide⟩,
    (CamelCase_idempotent_single_word goTables (by decide) (by decide) goIsNumber_not_letter
      (Word.mk 104 (runesOf "ello123") [32]) ⟨by decide, by decide, by decide⟩).1
        (by decide) (by decide),
    (CamelCase_idempotent_single_word goTables (by decide) (by decide) goIsNumber_not_letter
      (Word.mk 104 (runesOf "ello123") [32]) ⟨by decide, by decide, by decide⟩).2
        (by decide) (by decide)⟩


/-! ## Underscore applied twice -/

/-- A letter or number that does not meet the joiner test is appended as `emitted`. -/
theorem joinStep_plain (U : Unicode) (j : Rune) (params : HyphenMinusParams)
    (sb : List Rune) (last r : Rune)
    (hr : U.IsLetter r = true ∨ U.IsNumber r = true)
    (hno : ¬ (U.IsLetter r = true ∧ U.IsUpper r = true ∧
      U.IsLetter last = true ∧ U.IsLower last = true)) :
    joinStep U j params (sb, last) r = (sb ++ emitted U params r, r) := by
  unfold joinStep emitted
  cases hL : U.IsLetter r
  · rcases hr with h | h
    · rw [hL] at h; exact absurd h Bool.false_ne_true
    · simp [h]
  · cases hU : U.IsUpper r
    · cases hS : params.Screaming <;> cases hP : params.PreserveCase <;> simp
    · have hlast : (U.IsLetter last && U.IsLower last) = false := by
        cases h1 : U.IsLetter last
        · rfl
        · cases h2 : U.IsLower last
          · rfl
          · exact absurd ⟨hL, hU, h1, h2⟩ hno
      cases hp : (params.PreserveCase || params.Screaming) <;> simp [hlast, hp]

/-- An uppercase letter after a lowercase `last` is appended after a joiner. -/
theorem joinStep_boundary (U : Unicode) (j : Rune) (params : HyphenMinusParams)
    (sb : List Rune) (last r : Rune)
    (h : U.IsLetter r = true ∧ U.IsUpper r = true ∧
      U.IsLetter last = true ∧ U.IsLower last = true) :
    joinStep U j params (sb, last) r = ((sb ++ [j]) ++ emitted U params r, r) := by
  unfold joinStep emitted
  obtain ⟨hL, hU, h1, h2⟩ := h
  cases hp : (params.PreserveCase || params.Screaming) <;> simp [hL, hU, h1, h2, hp]

/-- A codepoint that is neither a letter nor a number leaves the state as it is or
appends the joiner to a non-empty `sb` whose `last` is not the joiner. -/
theorem joinStep_other (U : Unicode) (j : Rune) (params : HyphenMinusParams)
    (sb : List Rune) (last r : Rune)
    (hL : U.IsLetter r = false) (hN : U.IsNumber r = false) :
    joinStep U j params (sb, last) r = (sb, last) ∨
    (sb ≠ [] ∧ last ≠ j ∧ joinStep U j params (sb, last) r = (sb ++ [j], j)) := by
  unfold joinStep
  simp only [hL, hN, Bool.false_eq_true, if_false]
  by_cases hsep : (r = 95 || r = 45 || U.IsSpace r) = true
  · rw [if_pos hsep]
    by_cases hlen : sb.length = 0
    · rw [if_pos hlen]; exact Or.inl rfl
    · rw [if_neg hlen]
      by_cases hlj : last = j
      · rw [if_pos hlj]; exact Or.inl rfl
      · rw [if_neg hlj]
        exact Or.inr ⟨fun h => hlen (by simp [h]), hlj, rfl⟩
  · rw [if_neg hsep]; exact Or.inl rfl

/-- The joiner as an input codepoint is appended to a non-empty `sb` whose `last` is not
the joiner. -/
theorem joinStep_joiner (U : Unicode) (params : HyphenMinusParams)
    (hjL : U.IsLetter 95 = false) (hjN : U.IsNumber 95 = false)
    (sb : List Rune) (last : Rune) (hsb : sb ≠ []) (hlast : last ≠ 95) :
    joinStep U 95 params (sb, last) 95 = (sb ++ [95], 95) := by
  unfold joinStep
  have hlen : ¬ sb.length = 0 := fun h => hsb (List.length_eq_zero.1 h)
  simp [hjL, hjN, hlen, hlast]

theorem emitted_of_other (U : Unicode) (params : HyphenMinusParams) (r : Rune)
    (hL : U.IsLetter r = false) (hN : U.IsNumber r = false) : emitted U params r = [] := by
  simp [emitted, hL, hN]

theorem emitted_singleton (U : Unicode) (params : HyphenMinusParams) (r : Rune)
    (hr : U.IsLetter r = true ∨ U.IsNumber r = true) :
    ∃ x : Rune, emitted U params r = [x] := by
  unfold emitted
  cases hL : U.IsLetter r
  · rcases hr with h | h
    · rw [hL] at h; exact absurd h Bool.false_ne_true
    · exact ⟨r, by simp [h]⟩
  · simp only [if_true]
    split_ifs <;> exact ⟨_, rfl⟩

/-- A stable codepoint is a letter or a number. -/
theorem Stable.alnum {U : Unicode} {params : HyphenMinusParams} {x : Rune}
    (h : Stable U params x) : U.IsLetter x = true ∨ U.IsNumber x = true := by
  cases hL : U.IsLetter x
  · cases hN : U.IsNumber x
    · unfold Stable at h
      rw [emitted_of_other U params x hL hN] at h
      simp at h
    · exact Or.inr rfl
  · exact Or.inl rfl

theorem Stable.ne_joiner {U : Unicode} {params : HyphenMinusParams} {x : Rune}
    (hjL : U.IsLetter 95 = false) (hjN : U.IsNumber 95 = false)
    (h : Stable U params x) : x ≠ 95 := by
  intro hx
  rcases h.alnum with h1 | h1
  · rw [hx, hjL] at h1; exact Bool.false_ne_true h1
  · rw [hx, hjN] at h1; exact Bool.false_ne_true h1

/-- A sequence in which `Underscore` finds nothing to change: run on it, the loop of
`Underscore` rebuilds the sequence and keeps its final codepoint in `last`. -/
theorem foldl_joinStep_fixed (U : Unicode) (h0 : U.IsLetter 0 = false)
    (hjL : U.IsLetter 95 = false) (hjN : U.IsNumber 95 = false)
    (params : HyphenMinusParams) :
    ∀ l : List Rune, l.head? ≠ some 95 → List.Chain' (NoBoundary U) l →
      (∀ x ∈ l, x = 95 ∨ Stable U params x) →
      l.foldl (joinStep U 95 params) ([], 0) = (l, l.getLast?.getD 0) := by
  intro l
  induction l using List.reverseRecOn with
  | nil => intro _ _ _; rfl
  | append_singleton xs x ih =>
    intro hhead hchain hmem
    have hhead_xs : xs.head? ≠ some 95 := by
      cases xs with
      | nil => simp
      | cons a t => simpa using hhead
    have hpre := ih hhead_xs hchain.left_of_append
      (fun y hy => hmem y (List.mem_append_left _ hy))
    have hadj : ∀ a : Rune, xs.getLast? = some a → NoBoundary U a x := by
      intro a ha
      exact (List.chain'_append.1 hchain).2.2 a (by simpa using ha) x (by simp)
    rw [List.foldl_append, hpre, List.foldl_cons, List.foldl_nil, List.getLast?_concat]
    simp only [Option.getD_some]
    rcases hmem x (by simp) with hx | hx
    · subst hx
      have hne : xs ≠ [] := by
        intro h; subst h; simp at hhead
      obtain ⟨a, ha⟩ : ∃ a : Rune, xs.getLast? = some a :=
        ⟨_, List.getLast?_eq_getLast _ hne⟩
      have ha95 : a ≠ 95 := fun h => (hadj a ha).1 ⟨h, rfl⟩
      rw [ha]
      exact joinStep_joiner U params hjL hjN xs a hne ha95
    · have hno : ¬ (U.IsLetter x = true ∧ U.IsUpper x = true ∧
          U.IsLetter (xs.getLast?.getD 0) = true ∧
          U.IsLower (xs.getLast?.getD 0) = true) := by
        rintro ⟨h1, h2, h3, h4⟩
        cases hl : xs.getLast? with
        | none =>
          rw [hl] at h3
          simp only [Option.getD_none] at h3
          rw [h0] at h3
          exact Bool.false_ne_true h3
        | some a =>
          rw [hl] at h3 h4
          exact (hadj a hl).2 ⟨h3, h4, h1, h2⟩
      rw [joinStep_plain U 95 params xs _ x hx.alnum hno]
      unfold Stable at hx
      rw [hx]

/-- One iteration of `Underscore` on a codepoint of the input keeps `SnakeInv`, when the
codepoints emitted for the input are stable and a lowercase letter emitted next to an
uppercase letter comes from a lowercase letter followed by an uppercase letter. -/
theorem SnakeInv.snake_step (U : Unicode) (h0 : U.IsLetter 0 = false)
    (hjL : U.IsLetter 95 = false) (hjN : U.IsNumber 95 = false)
    (params : HyphenMinusParams) (s : List Rune)
    (H1 : ∀ r ∈ s, ∀ x ∈ emitted U params r, Stable U params x)
    (H2 : ∀ r1 ∈ s, ∀ r2 ∈ s, ∀ a ∈ emitted U params r1, ∀ x ∈ emitted U params r2,
      U.IsLetter a = true → U.IsLower a = true → U.IsLetter x = true → U.IsUpper x = true →
      U.IsLetter r2 = true ∧ U.IsUpper r2 = true ∧
        U.IsLetter r1 = true ∧ U.IsLower r1 = true)
    (st : List Rune × Rune) (r : Rune) (hr : r ∈ s) (h : SnakeInv U params s st) :
    SnakeInv U params s (joinStep U 95 params st r) := by
  obtain ⟨sb, last⟩ := st
  have hjoin : sb ≠ [] → last ≠ 95 → SnakeInv U params s (sb ++ [95], 95) := by
    intro hne hl
    have hlast : sb.getLast? ≠ some 95 := fun hh => hl (h.last_iff.1 hh)
    refine ⟨?_, ?_, ?_, by simp [List.getLast?_concat], by intro hh; simp at hh, ?_⟩
    · have h1 := h.head_ne
      cases sb with
      | nil => exact absurd rfl hne
      | cons a t => simpa using h1
    · refine List.Chain'.append h.chain (List.chain'_singleton 95) ?_
      intro a ha b hb
      simp only [List.head?_cons, Option.mem_def, Option.some.injEq] at hb
      simp only [Option.mem_def] at ha
      subst hb
      exact ⟨fun hh => hlast (by rw [ha, hh.1]), fun hh => by
        rw [hjL] at hh; exact Bool.false_ne_true hh.2.2.1⟩
    · intro y hy
      rcases List.mem_append.1 hy with hy | hy
      · exact h.stable y hy
      · left; simpa using hy
    · intro a ha ha95
      rw [List.getLast?_concat] at ha
      exact absurd (Option.some.inj ha).symm ha95
  have hemit : ∀ (sb2 : List Rune) (l2 : Rune), SnakeInv U params s (sb2, l2) →
      (U.IsLetter r = true ∨ U.IsNumber r = true) →
      (∀ a : Rune, sb2.getLast? = some a → ∀ x ∈ emitted U params r, NoBoundary U a x) →
      SnakeInv U params s (sb2 ++ emitted U params r, r) := by
    intro sb2 l2 h2 hrn hb
    obtain ⟨x, hx⟩ := emitted_singleton U params r hrn
    have hxs : Stable U params x := H1 r hr x (by rw [hx]; simp)
    have hx95 : x ≠ 95 := hxs.ne_joiner hjL hjN
    have hr95 : r ≠ 95 := by
      intro hh
      rcases hrn with h1 | h1
      · rw [hh, hjL] at h1; exact Bool.false_ne_true h1
      · rw [hh, hjN] at h1; exact Bool.false_ne_true h1
    rw [hx] at hb ⊢
    refine ⟨?_, ?_, ?_, ?_, by intro hh; simp at hh, ?_⟩
    · have h1 := h2.head_ne
      cases sb2 with
      | nil => simpa using hx95
      | cons a t => simpa using h1
    · refine List.Chain'.append h2.chain (List.chain'_singleton x) ?_
      intro a ha b hb2
      simp only [List.head?_cons, Option.mem_def, Option.some.injEq] at hb2
      simp only [Option.mem_def] at ha
      subst hb2
      exact hb a ha x (by simp)
    · intro y hy
      rcases List.mem_append.1 hy with hy | hy
      · exact h2.stable y hy
      · right
        have : y = x := by simpa using hy
        rw [this]; exact hxs
    · simp only [List.getLast?_concat, Option.some.injEq]
      exact ⟨fun hh => absurd hh hx95, fun hh => absurd hh hr95⟩
    · intro a ha _
      rw [List.getLast?_concat] at ha
      have : x = a := Option.some.inj ha
      subst this
      exact ⟨hr, by rw [hx]; simp⟩
  cases hL : U.IsLetter r
  · cases hN : U.IsNumber r
    · rcases joinStep_other U 95 params sb last r hL hN with h1 | ⟨hne, hl, h1⟩
      · rw [h1]; exact h
      · rw [h1]; exact hjoin hne hl
    · have hno : ¬ (U.IsLetter r = true ∧ U.IsUpper r = true ∧
          U.IsLetter last = true ∧ U.IsLower last = true) := by
        intro hh; rw [hL] at hh; exact Bool.false_ne_true hh.1
      rw [joinStep_plain U 95 params sb last r (Or.inr hN) hno]
      refine hemit sb last h (Or.inr hN) ?_
      intro a ha x hx
      refine ⟨fun hh => (H1 r hr x hx).ne_joiner hjL hjN hh.2, ?_⟩
      rintro ⟨ha1, ha2, hx1, hx2⟩
      have ha95 : a ≠ 95 := by
        intro hh; rw [hh, hjL] at ha1; exact Bool.false_ne_true ha1
      obtain ⟨hls, hal⟩ := h.origin a ha ha95
      have := H2 last hls r hr a hal x hx ha1 ha2 hx1 hx2
      rw [hL] at this
      exact Bool.false_ne_true this.1
  · by_cases htest : U.IsLetter r = true ∧ U.IsUpper r = true ∧
        U.IsLetter last = true ∧ U.IsLower last = true
    · rw [joinStep_boundary U 95 params sb last r htest]
      have hl95 : last ≠ 95 := by
        intro hh; rw [hh, hjL] at htest; exact Bool.false_ne_true htest.2.2.1
      have hne : sb ≠ [] := by
        intro hh
        have := h.empty_last hh
        simp only at this
        rw [this, h0] at htest
        exact Bool.false_ne_true htest.2.2.1
      refine hemit (sb ++ [95]) 95 (hjoin hne hl95) (Or.inl hL) ?_
      intro a ha x hx
      rw [List.getLast?_concat] at ha
      have : a = 95 := (Option.some.inj ha).symm
      subst this
      exact ⟨fun hh => (H1 r hr x hx).ne_joiner hjL hjN hh.2, fun hh => by
        rw [hjL] at hh; exact Bool.false_ne_true hh.1⟩
    · rw [joinStep_plain U 95 params sb last r (Or.inl hL) htest]
      refine hemit sb last h (Or.inl hL) ?_
      intro a ha x hx
      refine ⟨fun hh => (H1 r hr x hx).ne_joiner hjL hjN hh.2, ?_⟩
      rintro ⟨ha1, ha2, hx1, hx2⟩
      have ha95 : a ≠ 95 := by
        intro hh; rw [hh, hjL] at ha1; exact Bool.false_ne_true ha1
      obtain ⟨hls, hal⟩ := h.origin a ha ha95
      exact htest (H2 last hls r hr a hal x hx ha1 ha2 hx1 hx2)

theorem SnakeInv.snake_foldl (U : Unicode) (h0 : U.IsLetter 0 = false)
    (hjL : U.IsLetter 95 = false) (hjN : U.IsNumber 95 = false)
    (params : HyphenMinusParams) (s : List Rune)
    (H1 : ∀ r ∈ s, ∀ x ∈ emitted U params r, Stable U params x)
    (H2 : ∀ r1 ∈ s, ∀ r2 ∈ s, ∀ a ∈ emitted U params r1, ∀ x ∈ emitted U params r2,
      U.IsLetter a = true → U.IsLower a = true → U.IsLetter x = true → U.IsUpper x = true →
      U.IsLetter r2 = true ∧ U.IsUpper r2 = true ∧
        U.IsLetter r1 = true ∧ U.IsLower r1 = true) :
    ∀ (t : List Rune) (st : List Rune × Rune), (∀ r ∈ t, r ∈ s) →
      SnakeInv U params s st → SnakeInv U params s (t.foldl (joinStep U 95 params) st) := by
  intro t
  induction t with
  | nil => intro st _ h; exact h
  | cons r t ih =>
    intro st ht h
    exact ih _ (fun x hx => ht x (List.mem_cons_of_mem r hx))
      (SnakeInv.snake_step U h0 hjL hjN params s H1 H2 st r (ht r (List.mem_cons_self r t)) h)

theorem SnakeInv.snake_init (U : Unicode) (params : HyphenMinusParams) (s : List Rune) :
    SnakeInv U params s ([], 0) := by
  refine ⟨by simp, List.chain'_nil, by intro x hx; simp at hx, ?_, fun _ => rfl, ?_⟩
  · simp only [List.getLast?_nil]
    exact ⟨fun hh => by simp at hh, fun hh => absurd hh (by decide)⟩
  · intro a ha; simp at ha

theorem stripJoiner_of_last_ne (j : Rune) (l : List Rune) (h : l.getLast? ≠ some j) :
    stripJoiner j l = l := by
  unfold stripJoiner
  rw [← List.getLast?_eq_getElem?]
  rw [if_neg (fun hh => h hh.2)]

/-- After the final cut, a state that satisfies `SnakeInv` is a sequence in which
`Underscore` finds nothing to change, and it does not end with the joiner. -/
theorem stripJoiner_of_snake (U : Unicode) (params : HyphenMinusParams) (s sb : List Rune)
    (last : Rune) (h : SnakeInv U params s (sb, last)) :
    (stripJoiner 95 sb).head? ≠ some 95 ∧
    List.Chain' (NoBoundary U) (stripJoiner 95 sb) ∧
    (∀ x ∈ stripJoiner 95 sb, x = 95 ∨ Stable U params x) ∧
    (stripJoiner 95 sb).getLast? ≠ some 95 := by
  have hhead := h.head_ne
  have hchain := h.chain
  have hstable := h.stable
  simp only at hhead hchain hstable
  by_cases hl : sb.getLast? = some 95
  · rcases List.eq_nil_or_concat sb with hnil | ⟨L, b, hL⟩
    · subst hnil; simp at hl
    · rw [List.concat_eq_append] at hL
      subst hL
      rw [List.getLast?_concat] at hl
      have hb : b = 95 := Option.some.inj hl
      subst hb
      have hstrip : stripJoiner 95 (L ++ [95]) = L := by
        unfold stripJoiner
        rw [← List.getLast?_eq_getElem?, ← List.dropLast_eq_take,
          if_pos ⟨by simp, List.getLast?_concat _⟩, List.dropLast_concat]
      rw [hstrip]
      refine ⟨?_, hchain.left_of_append, fun x hx => hstable x (List.mem_append_left _ hx), ?_⟩
      · cases L with
        | nil => simp
        | cons a t => simpa using hhead
      · intro hh
        exact ((List.chain'_append.1 hchain).2.2 95 (by simpa using hh) 95 (by simp)).1
          ⟨rfl, rfl⟩
  · rw [stripJoiner_of_last_ne 95 sb hl]
    exact ⟨hhead, hchain, hstable, hl⟩

/-- When the codepoints emitted for the input are stable, and a lowercase letter emitted
next to an uppercase letter comes from a lowercase letter followed by an uppercase
letter, `Underscore` applied twice gives what it gives once. -/
theorem Underscore_twice (U : Unicode) (h0 : U.IsLetter 0 = false)
    (hjL : U.IsLetter 95 = false) (hjN : U.IsNumber 95 = false)
    (s : List Rune) (options : List HyphenMinusOption)
    (H1 : ∀ r ∈ s, ∀ x ∈ emitted U (applyOptions options) r,
      Stable U (applyOptions options) x)
    (H2 : ∀ r1 ∈ s, ∀ r2 ∈ s, ∀ a ∈ emitted U (applyOptions options) r1,
      ∀ x ∈ emitted U (applyOptions options) r2,
      U.IsLetter a = true → U.IsLower a = true → U.IsLetter x = true → U.IsUpper x = true →
      U.IsLetter r2 = true ∧ U.IsUpper r2 = true ∧
        U.IsLetter r1 = true ∧ U.IsLower r1 = true) :
    Underscore U (Underscore U s options) options = Underscore U s options := by
  have hinv := SnakeInv.snake_foldl U h0 hjL hjN (applyOptions options) s H1 H2 s ([], 0)
    (fun _ h => h) (SnakeInv.snake_init U _ s)
  obtain ⟨h1, h2, h3, h4⟩ := stripJoiner_of_snake U (applyOptions options) s
    (s.foldl (joinStep U 95 (applyOptions options)) ([], 0)).1
    (s.foldl (joinStep U 95 (applyOptions options)) ([], 0)).2 hinv
  rw [Underscore_eq U s options]
  rw [Underscore_eq U (stripJoiner 95 _) options,
    foldl_joinStep_fixed U h0 hjL hjN (applyOptions options) _ h1 h2 h3]
  exact stripJoiner_of_last_ne 95 _ h4

/-- On ASCII and under each policy, every codepoint that `Underscore` emits is stable;
with `Screaming` it is not a lowercase letter, with `PreserveCase` alone it is the input
codepoint, and with neither flag it is not an uppercase letter.  Checked on the 128
codepoints. -/
theorem emitted_ascii_table :
    ∀ (pc sc : Bool) (n : Fin 128), ∀ x ∈ emitted goTables ⟨pc, sc⟩ (n.val : Int),
      emitted goTables ⟨pc, sc⟩ x = [x] ∧
      (sc = true → ¬ (goTables.IsLetter x = true ∧ goTables.IsLower x = true)) ∧
      (sc = false → pc = true → x = (n.val : Int)) ∧
      (sc = false → pc = false →
        ¬ (goTables.IsLetter x = true ∧ goTables.IsUpper x = true)) := by
  decide

theorem emitted_ascii (params : HyphenMinusParams) (r : Int) (hr : 0 ≤ r ∧ r ≤ 127) :
    ∀ x ∈ emitted goTables params r,
      emitted goTables params x = [x] ∧
      (params.Screaming = true →
        ¬ (goTables.IsLetter x = true ∧ goTables.IsLower x = true)) ∧
      (params.Screaming = false → params.PreserveCase = true → x = r) ∧
      (params.Screaming = false → params.PreserveCase = false →
        ¬ (goTables.IsLetter x = true ∧ goTables.IsUpper x = true)) := by
  obtain ⟨pc, sc⟩ := params
  have hn : r.toNat < 128 := by omega
  have hcast : ((r.toNat : Nat) : Int) = r := Int.toNat_of_nonneg hr.1
  have := emitted_ascii_table pc sc ⟨r.toNat, hn⟩
  simp only [hcast] at this
  exact this

/-- C24: for every input `s` made only of ASCII codepoints (`0 <= r <= 127`, where
`goTables` is Go's `unicode` package) and for every option list, in particular for no
option, the option that sets `PreserveCase` and the option `Screaming`,
`Underscore(Underscore(s, opts), opts) = Underscore(s, opts)`. -/
theorem Underscore_idempotent_ascii (s : List Rune)
    (hs : ∀ r ∈ s, (0 : Int) ≤ r ∧ r ≤ (127 : Int)) :
    (∀ options : List HyphenMinusOption,
      Underscore goTables (Underscore goTables s options) options =
        Underscore goTables s options) ∧
    Underscore goTables (Underscore goTables s []) [] = Underscore goTables s [] ∧
    Underscore goTables (Underscore goTables s [setPreserveCase]) [setPreserveCase] =
      Underscore goTables s [setPreserveCase] ∧
    Underscore goTables (Underscore goTables s [Screaming]) [Screaming] =
      Underscore goTables s [Screaming] := by
  have hall : ∀ options : List HyphenMinusOption,
      Underscore goTables (Underscore goTables s options) options =
        Underscore goTables s options := by
    intro options
    refine Underscore_twice goTables (by decide) (by decide) (by decide) s options ?_ ?_
    · intro r hr x hx
      exact (emitted_ascii _ r (hs r hr) x hx).1
    · intro r1 hr1 r2 hr2 a ha x hx ha1 ha2 hx1 hx2
      obtain ⟨_, hS1, hP1, _⟩ := emitted_ascii _ r1 (hs r1 hr1) a ha
      obtain ⟨_, _, hP2, hD2⟩ := emitted_ascii _ r2 (hs r2 hr2) x hx
      cases hS : (applyOptions options).Screaming
      · cases hP : (applyOptions options).PreserveCase
        · exact absurd ⟨hx1, hx2⟩ (hD2 hS hP)
        · have e1 := hP1 hS hP
          have e2 := hP2 hS hP
          subst e1; subst e2
          exact ⟨hx1, hx2, ha1, ha2⟩
      · exact absurd ⟨ha1, ha2⟩ (hS1 hS)
  exact ⟨hall, hall [], hall [setPreserveCase], hall [Screaming]⟩

/-- The input `Hello  World-42 fooBar_` is ASCII, and `Underscore` applied twice to it
gives what it gives once, under every option list. -/
theorem Underscore_idempotent_ascii_witness :
    (∀ r ∈ runesOf "Hello  World-42 fooBar_", (0 : Int) ≤ r ∧ r ≤ (127 : Int)) ∧
    ((∀ options : List HyphenMinusOption,
      Underscore goTables (Underscore goTables (runesOf "Hello  World-42 fooBar_") options)
          options =
        Underscore goTables (runesOf "Hello  World-42 fooBar_") options) ∧
    Underscore goTables (Underscore goTables (runesOf "Hello  World-42 fooBar_") []) [] =
      Underscore goTables (runesOf "Hello  World-42 fooBar_") [] ∧
    Underscore goTables
        (Underscore goTables (runesOf "Hello  World-42 fooBar_") [setPreserveCase])
        [setPreserveCase] =
      Underscore goTables (runesOf "Hello  World-42 fooBar_") [setPreserveCase] ∧
    Underscore goTables (Underscore goTables (runesOf "Hello  World-42 fooBar_") [Screaming])
        [Screaming] =
      Underscore goTables (runesOf "Hello  World-42 fooBar_") [Screaming]) :=
  ⟨by decide, Underscore_idempotent_ascii (runesOf "Hello  World-42 fooBar_") (by decide)⟩

end Xrunes
